import Mathlib

/-!
Verification of the Ren'Py translation pipeline core
(`scripts/renpy_translate_pipeline.py`).

Strings are modelled as `List Char`.  Python string primitives used by the
pipeline (`str.replace`, `str.strip`, `str.rstrip`, `in`, regex scanning)
are embedded as executable functions below; each pipeline function is then
translated clause by clause from the source.
-/

/-- Python whitespace for `str.strip()` / regex `\s` (ASCII range; the
pipeline only feeds ASCII whitespace to these). -/
def pySpace (c : Char) : Bool :=
  c = ' ' || c = '\t' || c = '\n' || c = '\r' || c = '\x0b' || c = '\x0c'

/-- `str.strip()`: drop whitespace from both ends. -/
def pyStrip (s : List Char) : List Char :=
  (s.dropWhile pySpace).reverse.dropWhile pySpace |>.reverse

/-- `str.rstrip(chars)`: drop characters of `cs` from the right end. -/
def pyRStrip (s : List Char) (cs : List Char) : List Char :=
  (s.reverse.dropWhile (fun c => cs.contains c)).reverse

/-- `a.startswith(b)` / list-of-chars prefix test. -/
def boolPre : List Char → List Char → Bool
  | [], _ => true
  | _ :: _, [] => false
  | a :: as, b :: bs => a = b && boolPre as bs

/-- `a.endswith(b)`: suffix test, via reversal. -/
def boolSuf (s pat : List Char) : Bool :=
  boolPre pat.reverse s.reverse

theorem boolPre_append_self (p z : List Char) : boolPre p (p ++ z) = true := by
  induction p with
  | nil => simp [boolPre]
  | cons a as ih => simp [boolPre, ih]

theorem boolSuf_append_self (x y : List Char) : boolSuf (x ++ y) y = true := by
  simp [boolSuf, List.reverse_append, boolPre_append_self]

theorem boolPre_extend {p s : List Char} (t : List Char) (h : boolPre p s = true) :
    boolPre p (s ++ t) = true := by
  induction p generalizing s with
  | nil => simp [boolPre]
  | cons a as ih =>
    cases s with
    | nil => simp [boolPre] at h
    | cons b bs =>
      simp only [boolPre, Bool.and_eq_true, decide_eq_true_eq] at h ⊢
      exact ⟨h.1, ih h.2⟩

theorem boolSuf_of_append {y z : List Char} (x : List Char) (h : boolSuf y z = true) :
    boolSuf (x ++ y) z = true := by
  simpa [boolSuf, List.reverse_append] using boolPre_extend x.reverse h

/-- `pat in s`: substring occurrence test. -/
def containsSub : List Char → List Char → Bool
  | _, [] => true
  | [], _ :: _ => false
  | s@(_ :: tl), pat => boolPre pat s || containsSub tl pat

/-- `s.replace(pat, rep)` for a nonempty `pat`: replace every
non-overlapping occurrence, scanning left to right.  (The pipeline never
calls `replace` with an empty pattern; that case returns `s` unchanged.) -/
def listReplace (s pat rep : List Char) : List Char :=
  match hp : pat with
  | [] => s
  | _ :: _ =>
    match hs : s with
    | [] => []
    | c :: tl =>
      if h : boolPre pat s = true then
        rep ++ listReplace (s.drop pat.length) pat rep
      else
        c :: listReplace tl pat rep
termination_by s.length
decreasing_by
  · simp only [hs]
    have : pat.length ≠ 0 := by simp [hp]
    simp only [List.length_drop, List.length_cons]
    omega
  · simp [hs]

/-! ## C9: `build_openai_endpoint` -/

/-- `build_openai_endpoint` (source lines 592–598): strip trailing `/`,
return unchanged if the result ends in `/chat/completions`, append
`/chat/completions` if it ends in `/v1`, else append
`/v1/chat/completions`. -/
def build_openai_endpoint (base_url : List Char) : List Char :=
  let base := pyRStrip base_url ['/']
  if boolSuf base "/chat/completions".toList then base
  else if boolSuf base "/v1".toList then base ++ "/chat/completions".toList
  else base ++ "/v1/chat/completions".toList

/-- C9 counterexample: the claim says a stripped base is returned
unchanged only when it already ends in `/v1/chat/completions`; the code
keys on the shorter suffix `/chat/completions`.  For
`http://h/api/chat/completions` (which ends in neither
`/v1/chat/completions` nor `/v1`) the claim predicts that
`/v1/chat/completions` is appended, but the code returns it unchanged. -/
theorem build_openai_endpoint_claim_cex :
    build_openai_endpoint "http://h/api/chat/completions".toList
      = "http://h/api/chat/completions".toList ∧
    build_openai_endpoint "http://h/api/chat/completions".toList
      ≠ "http://h/api/chat/completions".toList ++ "/v1/chat/completions".toList := by
  constructor
  · decide
  · decide

/-- C9 (amended): with the trailing slashes stripped, the base is returned
unchanged exactly when it already ends in `/chat/completions`; otherwise
`/chat/completions` is appended when it ends in `/v1`, and
`/v1/chat/completions` is appended in every other case.  In every case the
result ends in `/chat/completions`. -/
theorem build_openai_endpoint_spec (base_url : List Char) :
    (boolSuf (pyRStrip base_url ['/']) "/chat/completions".toList = true →
      build_openai_endpoint base_url = pyRStrip base_url ['/']) ∧
    (boolSuf (pyRStrip base_url ['/']) "/chat/completions".toList = false →
      boolSuf (pyRStrip base_url ['/']) "/v1".toList = true →
      build_openai_endpoint base_url
        = pyRStrip base_url ['/'] ++ "/chat/completions".toList) ∧
    (boolSuf (pyRStrip base_url ['/']) "/chat/completions".toList = false →
      boolSuf (pyRStrip base_url ['/']) "/v1".toList = false →
      build_openai_endpoint base_url
        = pyRStrip base_url ['/'] ++ "/v1/chat/completions".toList) ∧
    boolSuf (build_openai_endpoint base_url) "/chat/completions".toList = true := by
  refine ⟨?_, ?_, ?_, ?_⟩
  · intro h
    simp only [build_openai_endpoint]
    rw [if_pos h]
  · intro h1 h2
    simp only [build_openai_endpoint]
    rw [if_neg (by simp only [h1]; decide), if_pos h2]
  · intro h1 h2
    simp only [build_openai_endpoint]
    rw [if_neg (by simp only [h1]; decide), if_neg (by simp only [h2]; decide)]
  · by_cases h1 : boolSuf (pyRStrip base_url ['/']) "/chat/completions".toList = true
    · simp only [build_openai_endpoint]
      rw [if_pos h1]
      exact h1
    · by_cases h2 : boolSuf (pyRStrip base_url ['/']) "/v1".toList = true
      · simp only [build_openai_endpoint]
        rw [if_neg h1, if_pos h2]
        exact boolSuf_of_append _ (by decide)
      · simp only [build_openai_endpoint]
        rw [if_neg h1, if_neg h2]
        exact boolSuf_of_append _ (by decide)

theorem build_openai_endpoint_spec_witness :
    build_openai_endpoint "https://api.openai.com".toList
      = "https://api.openai.com".toList ++ "/v1/chat/completions".toList := by
  have e : pyRStrip "https://api.openai.com".toList ['/']
      = "https://api.openai.com".toList := by decide
  have h := (build_openai_endpoint_spec "https://api.openai.com".toList).2.2.1
    (by decide) (by decide)
  rw [h, e]

/-! ## Temporary placeholder tokens -/

/-- Does the synthetic-token regex `__RNPH_\d+__` match at the head of
`s`?  (`\d+` is greedy; digits and `_` are disjoint, so maximal munch is
exact.) -/
def tempTokenAt (s : List Char) : Bool :=
  boolPre "__RNPH_".toList s &&
    (let r := s.drop 7
     let ds := r.takeWhile Char.isDigit
     !ds.isEmpty && boolPre "__".toList (r.drop ds.length))

/-- `TEMP_PLACEHOLDER_RE.search`: does `__RNPH_\d+__` match anywhere? -/
def has_temp_placeholders : List Char → Bool
  | [] => false
  | s@(_ :: tl) => tempTokenAt s || has_temp_placeholders tl

/-! ## C2: `normalize_translation_count` -/

/-- `normalize_translation_count` (source lines 772–810).  The
`warn_once` calls only log; they do not affect the returned value and are
omitted. -/
def normalize_translation_count (result source_texts : List (List Char)) :
    List (List Char) :=
  let expected := source_texts.length
  let got := result.length
  if got = expected then result
  else if expected = 0 then []
  else if got = 0 then source_texts
  else if expected < got then
    if expected = 1 then
      match result.find? (fun cand =>
          !(pyStrip cand).isEmpty &&
            decide (pyStrip cand ≠ pyStrip source_texts.headI)) with
      | some cand => [cand]
      | none => result.take expected
    else result.take expected
  else result ++ source_texts.drop got

/-- The overflow rule exactly as the claim words it: with `expected = 1`
and more candidates than sources, return the first candidate whose
*trimmed text differs from the trimmed source* (no non-emptiness
requirement). -/
def c2ClaimedSingleOverflow (result source_texts : List (List Char)) :
    Option (List Char) :=
  result.find? (fun cand => decide (pyStrip cand ≠ pyStrip source_texts.headI))

/-- C2 counterexample: for `result = ["", "y"]`, `sources = ["x"]` the
claim picks the first candidate whose trimmed text differs from the
trimmed source, which is `""`; the code additionally requires the trimmed
candidate to be non-empty and therefore returns `["y"]`. -/
theorem normalize_translation_count_claim_cex :
    c2ClaimedSingleOverflow [[], ['y']] [['x']] = some [] ∧
    normalize_translation_count [[], ['y']] [['x']] = [['y']] ∧
    normalize_translation_count [[], ['y']] [['x']] ≠ [[]] := by
  refine ⟨by decide, by decide, by decide⟩

/-- C2 (amended): writing `expected = len(sources)`, `got = len(result)`:
`got = expected` returns `result`; `expected = 0` returns `[]`; `got = 0`
(with `expected ≠ 0`) returns `sources`; `got > expected` with
`expected = 1` returns `[c]` for the first candidate `c` whose trimmed
text is **non-empty and** differs from the trimmed source, when one
exists; `got > expected` otherwise returns `result[:expected]`;
`0 < got < expected` returns `result ++ sources[got:]`. -/
theorem normalize_translation_count_spec (result source_texts : List (List Char)) :
    (result.length = source_texts.length →
      normalize_translation_count result source_texts = result) ∧
    (source_texts.length = 0 →
      normalize_translation_count result source_texts = []) ∧
    (result.length = 0 → source_texts.length ≠ 0 →
      normalize_translation_count result source_texts = source_texts) ∧
    (source_texts.length = 1 → 1 < result.length →
      ∀ c, result.find? (fun cand =>
          !(pyStrip cand).isEmpty &&
            decide (pyStrip cand ≠ pyStrip source_texts.headI)) = some c →
        normalize_translation_count result source_texts = [c]) ∧
    (source_texts.length < result.length → source_texts.length ≠ 0 →
      (source_texts.length = 1 →
        result.find? (fun cand =>
          !(pyStrip cand).isEmpty &&
            decide (pyStrip cand ≠ pyStrip source_texts.headI)) = none) →
      normalize_translation_count result source_texts
        = result.take source_texts.length) ∧
    (0 < result.length → result.length < source_texts.length →
      normalize_translation_count result source_texts
        = result ++ source_texts.drop result.length) := by
  refine ⟨?_, ?_, ?_, ?_, ?_, ?_⟩
  · intro h
    simp only [normalize_translation_count]
    rw [if_pos h]
  · intro h
    simp only [normalize_translation_count]
    by_cases hg : result.length = source_texts.length
    · rw [if_pos hg]
      have : result = [] := List.length_eq_zero.mp (hg.trans h)
      simp [this]
    · rw [if_neg hg, if_pos h]
  · intro h0 hne
    simp only [normalize_translation_count]
    rw [if_neg (by omega), if_neg hne, if_pos h0]
  · intro h1 hlt c hfind
    simp only [normalize_translation_count]
    rw [if_neg (by omega), if_neg (by omega), if_neg (by omega),
      if_pos (by omega), if_pos h1, hfind]
  · intro hlt hne hfind
    simp only [normalize_translation_count]
    rw [if_neg (by omega), if_neg hne, if_neg (by omega), if_pos hlt]
    by_cases h1 : source_texts.length = 1
    · rw [if_pos h1, hfind h1]
    · rw [if_neg h1]
  · intro hpos hlt
    simp only [normalize_translation_count]
    rw [if_neg (by omega), if_neg (by omega), if_neg (by omega),
      if_neg (by omega)]

theorem normalize_translation_count_spec_witness :
    normalize_translation_count [['a']] [['x'], ['y']] = [['a'], ['y']] := by
  have h := (normalize_translation_count_spec [['a']] [['x'], ['y']]).2.2.2.2.2
    (by decide) (by decide)
  rw [h]
  decide

/-! ## C5: `TranslationCache.get` / `TranslationCache.set` -/

/-- One stored cache entry (the value of `self.entries[key]`).  The
source stores these as JSON dicts; `translation` being a string is
enforced by `get`'s `isinstance` check, which this typed field makes
automatic. -/
structure CacheEntry where
  provider : List Char
  source : List Char
  translation : List Char
deriving DecidableEq, Repr

/-- `self.entries.get(key)` on the entry dict, modelled as an association
list. -/
def cacheLookup (entries : List (List Char × CacheEntry)) (key : List Char) :
    Option CacheEntry :=
  (entries.find? (fun e => decide (e.1 = key))).map (fun e => e.2)

/-- `TranslationCache.get` (source lines 996–1010).  `_hash_key` calls
`hashlib.sha1` (an external library); it is modelled as an explicit
function argument `h`, so every theorem below holds for the real hash in
particular. -/
def cache_get (h : List Char → List Char → List Char)
    (entries : List (List Char × CacheEntry))
    (provider_key source_text : List Char) : Option (List Char) :=
  match cacheLookup entries (h provider_key source_text) with
  | none => none
  | some entry =>
    if entry.source ≠ source_text then none
    else if entry.provider ≠ provider_key then none
    else if has_temp_placeholders entry.translation then none
    else some entry.translation

/-- `TranslationCache.set` (source lines 1012–1018): upsert by hash key
(dict assignment; the entry order is irrelevant to lookups). -/
def cache_set (h : List Char → List Char → List Char)
    (entries : List (List Char × CacheEntry))
    (provider_key source_text translation : List Char) :
    List (List Char × CacheEntry) :=
  entries.filter (fun e => decide (e.1 ≠ h provider_key source_text)) ++
    [(h provider_key source_text,
      ⟨provider_key, source_text, translation⟩)]

/-- C5: a lookup returns a translation only if the entry stored at
`hash(pk, source)` has provider exactly `pk`, source exactly `source`,
and a translation free of temporary placeholder tokens; and after
`set pk source tr` on an empty cache, a `get` under any different
provider key (e.g. a different model or target language) misses even for
the identical source text — for every hash function, hence for SHA-1. -/
theorem translation_cache_spec (h : List Char → List Char → List Char)
    (entries : List (List Char × CacheEntry))
    (pk src tr pk2 : List Char) :
    (cache_get h entries pk src = some tr →
      ∃ e, cacheLookup entries (h pk src) = some e ∧ e.provider = pk ∧
        e.source = src ∧ e.translation = tr ∧
        has_temp_placeholders tr = false) ∧
    (pk2 ≠ pk → cache_get h (cache_set h [] pk src tr) pk2 src = none) := by
  constructor
  · intro hget
    cases hl : cacheLookup entries (h pk src) with
    | none => simp [cache_get, hl] at hget
    | some e =>
      by_cases hs : e.source = src
      · by_cases hp : e.provider = pk
        · by_cases ht : has_temp_placeholders e.translation = true
          · simp [cache_get, hl, hs, hp, ht] at hget
          · have htr : e.translation = tr := by
              simpa [cache_get, hl, hs, hp, ht] using hget
            refine ⟨e, rfl, hp, hs, htr, ?_⟩
            rw [← htr]
            simpa using ht
        · simp [cache_get, hl, hs, hp] at hget
      · simp [cache_get, hl, hs] at hget
  · intro hne
    by_cases hk : h pk src = h pk2 src
    · simp [cache_get, cache_set, cacheLookup, hk, Ne.symm hne]
    · simp [cache_get, cache_set, cacheLookup, hk]

theorem translation_cache_spec_witness :
    cache_get (fun pk s => pk ++ '\n' :: s)
      (cache_set (fun pk s => pk ++ '\n' :: s) []
        "openai|e|m1|zh".toList "Hello".toList "nihao".toList)
      "openai|e|m2|zh".toList "Hello".toList = none := by
  have h := (translation_cache_spec (fun pk s => pk ++ '\n' :: s) []
    "openai|e|m1|zh".toList "Hello".toList "nihao".toList
    "openai|e|m2|zh".toList).2 (by decide)
  exact h

/-! ## Line grammar (`COMMENT_SAY_RE`, `OLD_RE`, `NEW_RE`, `SAY_RE`)

The four line regexes are deterministic up to the optional speaker group:
every quantifier is followed by a character it cannot consume (`\s*` by a
non-space, `\w*` by a space, the string body by an unescaped quote), so
each is embedded as a direct recursive matcher.  The one real
alternative, `(?:[A-Za-z_]\w*\s+)?`, is greedy: the speaker branch is
tried first and the branch without it requires the quote immediately. -/

/-- Regex `\w` (ASCII). -/
def wordChar (c : Char) : Bool := c.isAlpha || c.isDigit || c = '_'

/-- Regex `[A-Za-z_]`. -/
def alphaUnder (c : Char) : Bool := c.isAlpha || c = '_'

/-- Parse `((?:[^"\\]|\\.)*)"`: the quoted-string body (escape pairs kept
verbatim, as the regex group captures them) up to the first unescaped
closing quote; returns the group and the text after the quote. -/
def parseBody : List Char → Option (List Char × List Char)
  | [] => none
  | c :: r =>
    if c = '"' then some ([], r)
    else if c = '\\' then
      match r with
      | [] => none
      | d :: r2 => (parseBody r2).map (fun p => ('\\' :: d :: p.1, p.2))
    else (parseBody r).map (fun p => (c :: p.1, p.2))

/-- The branch of `(?:[A-Za-z_]\w*\s+)?"..."(\s*)$` without the speaker
group: the quote must come at once. -/
def parseQuotedBare : List Char → Option (List Char × List Char × List Char)
  | [] => none
  | c :: r =>
    if c = '"' then
      (parseBody r).bind (fun p =>
        if p.2.all pySpace then some ([], p.1, p.2) else none)
    else none

/-- The rest of the greedy speaker branch once speaker word and
whitespace are consumed: the opening quote, the body, the all-space
suffix. -/
def speakerQuoted (c : Char) (w sp : List Char) :
    List Char → Option (List Char × List Char × List Char)
  | [] => none
  | d :: r3 =>
    if d = '"' then
      (parseBody r3).bind (fun p =>
        if p.2.all pySpace then some (c :: (w ++ sp), p.1, p.2) else none)
    else none

/-- Parse `(?:[A-Za-z_]\w*\s+)?"((?:[^"\\]|\\.)*)"(\s*)$` at `s`,
returning (consumed text before the opening quote, body group, suffix
group).  The speaker branch is greedy; whenever it fails the regex
backtracks to the bare branch. -/
def parseQuoted : List Char → Option (List Char × List Char × List Char)
  | [] => none
  | c :: r =>
    if alphaUnder c then
      let w := r.takeWhile wordChar
      let r2 := r.drop w.length
      let sp := r2.takeWhile pySpace
      if sp.isEmpty then parseQuotedBare (c :: r)
      else
        (speakerQuoted c w sp (r2.drop sp.length)).elim
          (parseQuotedBare (c :: r)) some
    else parseQuotedBare (c :: r)

/-- `SAY_RE` (source line 44): groups (prefix, text, suffix). -/
def matchSayLine (line : List Char) :
    Option (List Char × List Char × List Char) :=
  let ws := line.takeWhile pySpace
  (parseQuoted (line.drop ws.length)).map (fun m => (ws ++ m.1, m.2.1, m.2.2))

/-- `COMMENT_SAY_RE` (source line 35); only the `text` group is ever
used by the caller. -/
def matchCommentSayLine (line : List Char) : Option (List Char) :=
  let ws := line.takeWhile pySpace
  match line.drop ws.length with
  | '#' :: r =>
    let ws2 := r.takeWhile pySpace
    (parseQuoted (r.drop ws2.length)).map (fun m => m.2.1)
  | _ => none

/-- The tail of `OLD_RE`/`NEW_RE` after `\s*KW\s+`: quote, body,
all-space suffix. -/
def keywordQuoted (ws kw sp : List Char) :
    List Char → Option (List Char × List Char × List Char)
  | [] => none
  | d :: r3 =>
    if d = '"' then
      (parseBody r3).bind (fun p =>
        if p.2.all pySpace then some (ws ++ kw ++ sp, p.1, p.2) else none)
    else none

/-- Shared shape of `OLD_RE` / `NEW_RE` (source lines 38 and 41):
`^(\s*KW\s+)"((?:[^"\\]|\\.)*)"(\s*)$` for a literal keyword `KW`. -/
def matchKeywordLine (kw : List Char) (line : List Char) :
    Option (List Char × List Char × List Char) :=
  let ws := line.takeWhile pySpace
  let r := line.drop ws.length
  if boolPre kw r then
    let r2 := r.drop kw.length
    let sp := r2.takeWhile pySpace
    if sp.isEmpty then none
    else keywordQuoted ws kw sp (r2.drop sp.length)
  else none

def matchOldLine (line : List Char) :
    Option (List Char × List Char × List Char) :=
  matchKeywordLine "old".toList line

def matchNewLine (line : List Char) :
    Option (List Char × List Char × List Char) :=
  matchKeywordLine "new".toList line

/-- `raw_line.rstrip("\r\n")`. -/
def rstripCRLF (s : List Char) : List Char := pyRStrip s ['\r', '\n']

/-- `line.lstrip().startswith("#")`. -/
def lstripStartsHash (line : List Char) : Bool :=
  match line.dropWhile pySpace with
  | '#' :: _ => true
  | _ => false

/-- One extracted job (dataclass `LineJob`, source lines 1051–1057).
The dataclass fields `prefix`/`suffix` are reserved words here and are
named `pre`/`suf`. -/
structure LineJob where
  line_index : Nat
  pre : List Char
  suf : List Char
  source_text : List Char
  current_text : List Char
deriving DecidableEq, Repr

/-- The scanning loop of `collect_line_jobs` (source lines 1060–1118),
with the loop state (`pending_old`, `pending_comment`) explicit. -/
def collectAux (overwrite : Bool) :
    List (List Char) → Nat → Option (List Char) → Option (List Char) →
      List LineJob
  | [], _, _, _ => []
  | raw :: rest, i, pending_old, pending_comment =>
    let line := rstripCRLF raw
    match matchCommentSayLine line with
    | some txt => collectAux overwrite rest (i + 1) pending_old (some txt)
    | none =>
      match matchOldLine line with
      | some m => collectAux overwrite rest (i + 1) (some m.2.1) pending_comment
      | none =>
        match matchNewLine line with
        | some m =>
          let current := m.2.1
          let source := pending_old.getD current
          let tail := collectAux overwrite rest (i + 1) none none
          if overwrite || decide (current = source) ||
              has_temp_placeholders current then
            ⟨i, m.1, m.2.2, source, current⟩ :: tail
          else tail
        | none =>
          match (if lstripStartsHash line then none else matchSayLine line) with
          | some m =>
            let current := m.2.1
            let source := pending_comment.getD current
            let tail := collectAux overwrite rest (i + 1) none none
            if overwrite || decide (current = source) ||
                has_temp_placeholders current then
              ⟨i, m.1, m.2.2, source, current⟩ :: tail
            else tail
          | none =>
            if !(pyStrip line).isEmpty && !lstripStartsHash line then
              collectAux overwrite rest (i + 1) none none
            else
              collectAux overwrite rest (i + 1) pending_old pending_comment

/-- `collect_line_jobs(lines, overwrite)`. -/
def collect_line_jobs (lines : List (List Char)) (overwrite : Bool) :
    List LineJob :=
  collectAux overwrite lines 0 none none

/-- The state transition of one scanned line, jobs ignored (used to name
the state `collect_line_jobs` has reached at any position). -/
def stepState (st : Option (List Char) × Option (List Char))
    (raw : List Char) : Option (List Char) × Option (List Char) :=
  let line := rstripCRLF raw
  match matchCommentSayLine line with
  | some txt => (st.1, some txt)
  | none =>
    match matchOldLine line with
    | some m => (some m.2.1, st.2)
    | none =>
      match matchNewLine line with
      | some _ => (none, none)
      | none =>
        match (if lstripStartsHash line then none else matchSayLine line) with
        | some _ => (none, none)
        | none =>
          if !(pyStrip line).isEmpty && !lstripStartsHash line then (none, none)
          else st

theorem collectAux_index_ge (ov : Bool) (lines : List (List Char)) :
    ∀ (i : Nat) (po pc : Option (List Char)) (j : LineJob),
      j ∈ collectAux ov lines i po pc → i ≤ j.line_index := by
  induction lines with
  | nil => intro i po pc j hj; simp [collectAux] at hj
  | cons raw rest ih =>
    intro i po pc j hj
    have step : ∀ po' pc', j ∈ collectAux ov rest (i + 1) po' pc' →
        i ≤ j.line_index := fun po' pc' h =>
      le_trans (Nat.le_succ i) (ih (i + 1) po' pc' j h)
    cases hc : matchCommentSayLine (rstripCRLF raw) with
    | some txt =>
      simp only [collectAux, hc] at hj
      exact step _ _ hj
    | none =>
      cases ho : matchOldLine (rstripCRLF raw) with
      | some m =>
        simp only [collectAux, hc, ho] at hj
        exact step _ _ hj
      | none =>
        cases hn : matchNewLine (rstripCRLF raw) with
        | some m =>
          simp only [collectAux, hc, ho, hn] at hj
          split at hj
          · rcases List.mem_cons.mp hj with rfl | hj'
            · exact le_refl i
            · exact step _ _ hj'
          · exact step _ _ hj
        | none =>
          cases hs : (if lstripStartsHash (rstripCRLF raw) then none
              else matchSayLine (rstripCRLF raw)) with
          | some m =>
            simp only [collectAux, hc, ho, hn, hs] at hj
            split at hj
            · rcases List.mem_cons.mp hj with rfl | hj'
              · exact le_refl i
              · exact step _ _ hj'
            · exact step _ _ hj
          | none =>
            simp only [collectAux, hc, ho, hn, hs] at hj
            split at hj
            · exact step _ _ hj
            · exact step _ _ hj

theorem collectAux_index_lt (ov : Bool) (lines : List (List Char)) :
    ∀ (i : Nat) (po pc : Option (List Char)) (j : LineJob),
      j ∈ collectAux ov lines i po pc → j.line_index < i + lines.length := by
  induction lines with
  | nil => intro i po pc j hj; simp [collectAux] at hj
  | cons raw rest ih =>
    intro i po pc j hj
    have step : ∀ po' pc', j ∈ collectAux ov rest (i + 1) po' pc' →
        j.line_index < i + (raw :: rest).length := by
      intro po' pc' h
      have := ih (i + 1) po' pc' j h
      simp only [List.length_cons]
      omega
    cases hc : matchCommentSayLine (rstripCRLF raw) with
    | some txt =>
      simp only [collectAux, hc] at hj
      exact step _ _ hj
    | none =>
      cases ho : matchOldLine (rstripCRLF raw) with
      | some m =>
        simp only [collectAux, hc, ho] at hj
        exact step _ _ hj
      | none =>
        cases hn : matchNewLine (rstripCRLF raw) with
        | some m =>
          simp only [collectAux, hc, ho, hn] at hj
          split at hj
          · rcases List.mem_cons.mp hj with rfl | hj'
            · simp only [List.length_cons]; omega
            · exact step _ _ hj'
          · exact step _ _ hj
        | none =>
          cases hs : (if lstripStartsHash (rstripCRLF raw) then none
              else matchSayLine (rstripCRLF raw)) with
          | some m =>
            simp only [collectAux, hc, ho, hn, hs] at hj
            split at hj
            · rcases List.mem_cons.mp hj with rfl | hj'
              · simp only [List.length_cons]; omega
              · exact step _ _ hj'
            · exact step _ _ hj
          | none =>
            simp only [collectAux, hc, ho, hn, hs] at hj
            split at hj
            · exact step _ _ hj
            · exact step _ _ hj

theorem collectAux_append (ov : Bool) (L1 : List (List Char)) :
    ∀ (L2 : List (List Char)) (i : Nat) (po pc : Option (List Char)),
      collectAux ov (L1 ++ L2) i po pc =
        collectAux ov L1 i po pc ++
          collectAux ov L2 (i + L1.length)
            (L1.foldl stepState (po, pc)).1 (L1.foldl stepState (po, pc)).2 := by
  induction L1 with
  | nil => intro L2 i po pc; simp [collectAux]
  | cons raw rest ih =>
    intro L2 i po pc
    have harith : i + (raw :: rest).length = (i + 1) + rest.length := by
      simp only [List.length_cons]; omega
    simp only [List.cons_append, List.foldl_cons, harith]
    cases hc : matchCommentSayLine (rstripCRLF raw) with
    | some txt =>
      simp only [collectAux, hc, stepState, ih]
    | none =>
      cases ho : matchOldLine (rstripCRLF raw) with
      | some m =>
        simp only [collectAux, hc, ho, stepState, ih]
      | none =>
        cases hn : matchNewLine (rstripCRLF raw) with
        | some m =>
          simp only [collectAux, hc, ho, hn, stepState, ih]
          split
          · simp
          · rfl
        | none =>
          cases hs : (if lstripStartsHash (rstripCRLF raw) then none
              else matchSayLine (rstripCRLF raw)) with
          | some m =>
            simp only [collectAux, hc, ho, hn, hs, stepState, ih]
            split
            · simp
            · rfl
          | none =>
            simp only [collectAux, hc, ho, hn, hs, stepState, ih]
            split
            · rfl
            · rfl

theorem collectAux_new_step (ov : Bool) (raw : List Char)
    (rest : List (List Char)) (i : Nat) (po pc : Option (List Char))
    (pre txt suf : List Char)
    (hc : matchCommentSayLine (rstripCRLF raw) = none)
    (ho : matchOldLine (rstripCRLF raw) = none)
    (hn : matchNewLine (rstripCRLF raw) = some (pre, txt, suf)) :
    collectAux ov (raw :: rest) i po pc =
      (if ov || decide (txt = po.getD txt) || has_temp_placeholders txt then
        [⟨i, pre, suf, po.getD txt, txt⟩] else []) ++
        collectAux ov rest (i + 1) none none := by
  simp only [collectAux, hc, ho, hn]
  by_cases hcond :
      (ov || decide (txt = po.getD txt) || has_temp_placeholders txt) = true
  · rw [if_pos hcond, if_pos hcond]
    rfl
  · rw [if_neg hcond, if_neg hcond]
    rfl

theorem collectAux_say_step (ov : Bool) (raw : List Char)
    (rest : List (List Char)) (i : Nat) (po pc : Option (List Char))
    (pre txt suf : List Char)
    (hc : matchCommentSayLine (rstripCRLF raw) = none)
    (ho : matchOldLine (rstripCRLF raw) = none)
    (hn : matchNewLine (rstripCRLF raw) = none)
    (hh : lstripStartsHash (rstripCRLF raw) = false)
    (hs : matchSayLine (rstripCRLF raw) = some (pre, txt, suf)) :
    collectAux ov (raw :: rest) i po pc =
      (if ov || decide (txt = pc.getD txt) || has_temp_placeholders txt then
        [⟨i, pre, suf, pc.getD txt, txt⟩] else []) ++
        collectAux ov rest (i + 1) none none := by
  simp only [collectAux, hc, ho, hn, hh, Bool.false_eq_true, if_false, hs]
  by_cases hcond :
      (ov || decide (txt = pc.getD txt) || has_temp_placeholders txt) = true
  · rw [if_pos hcond, if_pos hcond]
    rfl
  · rw [if_neg hcond, if_neg hcond]
    rfl

theorem collectAux_only_if (ov : Bool) (lines : List (List Char)) :
    ∀ (i : Nat) (po pc : Option (List Char)) (j : LineJob),
      j ∈ collectAux ov lines i po pc →
      ov = true ∨ j.current_text = j.source_text ∨
        has_temp_placeholders j.current_text = true := by
  induction lines with
  | nil => intro i po pc j hj; simp [collectAux] at hj
  | cons raw rest ih =>
    intro i po pc j hj
    cases hc : matchCommentSayLine (rstripCRLF raw) with
    | some txt =>
      simp only [collectAux, hc] at hj
      exact ih _ _ _ _ hj
    | none =>
      cases ho : matchOldLine (rstripCRLF raw) with
      | some m =>
        simp only [collectAux, hc, ho] at hj
        exact ih _ _ _ _ hj
      | none =>
        cases hn : matchNewLine (rstripCRLF raw) with
        | some m =>
          simp only [collectAux, hc, ho, hn] at hj
          by_cases hcond : (ov || decide (m.2.1 = po.getD m.2.1) ||
              has_temp_placeholders m.2.1) = true
          · rw [if_pos hcond] at hj
            rcases List.mem_cons.mp hj with rfl | hj'
            · exact or_assoc.mp
                (by simpa [Bool.or_eq_true, decide_eq_true_eq] using hcond)
            · exact ih _ _ _ _ hj'
          · rw [if_neg hcond] at hj
            exact ih _ _ _ _ hj
        | none =>
          cases hs : (if lstripStartsHash (rstripCRLF raw) then none
              else matchSayLine (rstripCRLF raw)) with
          | some m =>
            simp only [collectAux, hc, ho, hn, hs] at hj
            by_cases hcond : (ov || decide (m.2.1 = pc.getD m.2.1) ||
                has_temp_placeholders m.2.1) = true
            · rw [if_pos hcond] at hj
              rcases List.mem_cons.mp hj with rfl | hj'
              · exact or_assoc.mp
                  (by simpa [Bool.or_eq_true, decide_eq_true_eq] using hcond)
              · exact ih _ _ _ _ hj'
            · rw [if_neg hcond] at hj
              exact ih _ _ _ _ hj
          | none =>
            simp only [collectAux, hc, ho, hn, hs] at hj
            split at hj
            · exact ih _ _ _ _ hj
            · exact ih _ _ _ _ hj

/-- C3: the resumability filter.  Part 1: every job `collect_line_jobs`
emits satisfies `overwrite ∨ current = source ∨ leftover placeholder
token`.  Parts 2 and 3: conversely, a line matching `new "..."` (resp. a
bare speaker-optional quoted line) at any position of the input produces
a job at exactly that index **iff** overwrite is set, or its current text
equals its source text (the pending `old`/comment value when present,
else itself), or its current text still contains a `__RNPH_<n>__`
token. -/
theorem collect_line_jobs_resumability (ov : Bool)
    (L1 L2 : List (List Char)) (raw : List Char) (pre txt suf : List Char) :
    (∀ j ∈ collect_line_jobs (L1 ++ raw :: L2) ov,
        ov = true ∨ j.current_text = j.source_text ∨
          has_temp_placeholders j.current_text = true) ∧
    (matchCommentSayLine (rstripCRLF raw) = none →
      matchOldLine (rstripCRLF raw) = none →
      matchNewLine (rstripCRLF raw) = some (pre, txt, suf) →
      ((∃ j ∈ collect_line_jobs (L1 ++ raw :: L2) ov,
          j.line_index = L1.length) ↔
        (ov = true ∨
          txt = ((L1.foldl stepState (none, none)).1).getD txt ∨
          has_temp_placeholders txt = true))) ∧
    (matchCommentSayLine (rstripCRLF raw) = none →
      matchOldLine (rstripCRLF raw) = none →
      matchNewLine (rstripCRLF raw) = none →
      lstripStartsHash (rstripCRLF raw) = false →
      matchSayLine (rstripCRLF raw) = some (pre, txt, suf) →
      ((∃ j ∈ collect_line_jobs (L1 ++ raw :: L2) ov,
          j.line_index = L1.length) ↔
        (ov = true ∨
          txt = ((L1.foldl stepState (none, none)).2).getD txt ∨
          has_temp_placeholders txt = true))) := by
  have happ : collect_line_jobs (L1 ++ raw :: L2) ov =
      collectAux ov L1 0 none none ++
        collectAux ov (raw :: L2) L1.length
          (L1.foldl stepState (none, none)).1
          (L1.foldl stepState (none, none)).2 := by
    have := collectAux_append ov L1 (raw :: L2) 0 none none
    simpa [collect_line_jobs, Nat.zero_add] using this
  refine ⟨?_, ?_, ?_⟩
  · intro j hj
    exact collectAux_only_if ov _ 0 none none j hj
  · intro hc ho hn
    have hstep := collectAux_new_step ov raw L2 L1.length
      (L1.foldl stepState (none, none)).1
      (L1.foldl stepState (none, none)).2 pre txt suf hc ho hn
    constructor
    · rintro ⟨j, hj, hidx⟩
      rw [happ] at hj
      rcases List.mem_append.mp hj with h1 | h2
      · have := collectAux_index_lt ov L1 0 none none j h1
        omega
      · rw [hstep] at h2
        rcases List.mem_append.mp h2 with h3 | h4
        · by_cases hcond : (ov ||
              decide (txt = ((L1.foldl stepState (none, none)).1).getD txt) ||
              has_temp_placeholders txt) = true
          · exact or_assoc.mp
              (by simpa [Bool.or_eq_true, decide_eq_true_eq] using hcond)
          · rw [if_neg hcond] at h3
            simp at h3
        · have := collectAux_index_ge ov L2 (L1.length + 1) none none j h4
          omega
    · intro hrhs
      have hcond : (ov ||
          decide (txt = ((L1.foldl stepState (none, none)).1).getD txt) ||
          has_temp_placeholders txt) = true := by
        simp only [Bool.or_eq_true, decide_eq_true_eq]
        tauto
      refine ⟨⟨L1.length, pre, suf,
        ((L1.foldl stepState (none, none)).1).getD txt, txt⟩, ?_, rfl⟩
      rw [happ]
      refine List.mem_append_right _ ?_
      rw [hstep]
      refine List.mem_append_left _ ?_
      rw [if_pos hcond]
      exact List.mem_singleton.mpr rfl
  · intro hc ho hn hh hs
    have hstep := collectAux_say_step ov raw L2 L1.length
      (L1.foldl stepState (none, none)).1
      (L1.foldl stepState (none, none)).2 pre txt suf hc ho hn hh hs
    constructor
    · rintro ⟨j, hj, hidx⟩
      rw [happ] at hj
      rcases List.mem_append.mp hj with h1 | h2
      · have := collectAux_index_lt ov L1 0 none none j h1
        omega
      · rw [hstep] at h2
        rcases List.mem_append.mp h2 with h3 | h4
        · by_cases hcond : (ov ||
              decide (txt = ((L1.foldl stepState (none, none)).2).getD txt) ||
              has_temp_placeholders txt) = true
          · exact or_assoc.mp
              (by simpa [Bool.or_eq_true, decide_eq_true_eq] using hcond)
          · rw [if_neg hcond] at h3
            simp at h3
        · have := collectAux_index_ge ov L2 (L1.length + 1) none none j h4
          omega
    · intro hrhs
      have hcond : (ov ||
          decide (txt = ((L1.foldl stepState (none, none)).2).getD txt) ||
          has_temp_placeholders txt) = true := by
        simp only [Bool.or_eq_true, decide_eq_true_eq]
        tauto
      refine ⟨⟨L1.length, pre, suf,
        ((L1.foldl stepState (none, none)).2).getD txt, txt⟩, ?_, rfl⟩
      rw [happ]
      refine List.mem_append_right _ ?_
      rw [hstep]
      refine List.mem_append_left _ ?_
      rw [if_pos hcond]
      exact List.mem_singleton.mpr rfl

theorem collect_line_jobs_resumability_witness :
    ∃ j ∈ collect_line_jobs ["# \"Hi\"".toList, "    \"Hi\"".toList] false,
      j.line_index = 1 := by
  have h := (collect_line_jobs_resumability false ["# \"Hi\"".toList] []
    "    \"Hi\"".toList "    ".toList "Hi".toList [] ).2.2
    (by decide) (by decide) (by decide) (by decide) (by decide)
  exact h.mpr (Or.inr (Or.inl (by decide)))

/-- C4 counterexample: for lines `old "A"`, `# "B"`, `new "C"` the claim
says the comment clears `pending_old`, so the `new` line should take its
own current text `C` as source; the code keeps `pending_old` across the
comment and the produced job's source text is `A`. -/
theorem comment_keeps_pending_old_cex :
    (collect_line_jobs
        ["old \"A\"".toList, "# \"B\"".toList, "new \"C\"".toList] true).map
      (fun j => j.source_text) = [['A']] ∧
    (['A'] : List Char) ≠ ['C'] := by
  constructor
  · decide
  · decide

/-- C4 (amended): a comment line holding a speaker-optional quoted string
sets `pending_comment` to that quoted text and leaves `pending_old`
unchanged (it does **not** clear it); consequently a later `new "..."`
line still takes a pending `old` value, not its own current text, as
source when such a comment intervenes. -/
theorem comment_line_transition (ov : Bool) (raw : List Char)
    (rest : List (List Char)) (i : Nat) (po pc : Option (List Char))
    (txt : List Char)
    (hc : matchCommentSayLine (rstripCRLF raw) = some txt) :
    collectAux ov (raw :: rest) i po pc =
      collectAux ov rest (i + 1) po (some txt) ∧
    stepState (po, pc) raw = (po, some txt) := by
  constructor
  · simp only [collectAux, hc]
  · simp only [stepState, hc]

theorem comment_line_transition_witness :
    collectAux true ["# \"B\"".toList, "new \"C\"".toList] 0
        (some ['A']) none =
      collectAux true ["new \"C\"".toList] 1 (some ['A']) (some ['B']) ∧
    stepState (some ['A'], none) "# \"B\"".toList = (some ['A'], some ['B']) := by
  have h := comment_line_transition true "# \"B\"".toList
    ["new \"C\"".toList] 0 (some ['A']) none ['B'] (by decide)
  exact h

/-! ## C10: `escape_renpy_string` -/

/-- `escape_renpy_string` (source lines 1045–1048): double backslashes,
escape quotes, fold line endings to `\n`, then turn newlines into the
two-character sequence `\n`. -/
def escape_renpy_string (text : List Char) : List Char :=
  let e1 := listReplace text ['\\'] ['\\', '\\']
  let e2 := listReplace e1 ['"'] ['\\', '"']
  let e3 := listReplace e2 ['\r', '\n'] ['\n']
  let e4 := listReplace e3 ['\r'] ['\n']
  listReplace e4 ['\n'] ['\\', 'n']

theorem listReplace_nil (pat rep : List Char) : listReplace [] pat rep = [] := by
  cases pat <;> simp [listReplace]

theorem listReplace_pos (s pat rep : List Char) (hpat : pat ≠ [])
    (h : boolPre pat s = true) :
    listReplace s pat rep = rep ++ listReplace (s.drop pat.length) pat rep := by
  cases pat with
  | nil => exact absurd rfl hpat
  | cons p ps =>
    cases s with
    | nil => simp [boolPre] at h
    | cons c tl => simp only [listReplace, h, dite_true]

theorem listReplace_neg (c : Char) (tl pat rep : List Char) (hpat : pat ≠ [])
    (h : boolPre pat (c :: tl) = false) :
    listReplace (c :: tl) pat rep = c :: listReplace tl pat rep := by
  cases pat with
  | nil => exact absurd rfl hpat
  | cons p ps => simp only [listReplace, h, Bool.false_eq_true, dite_false]

theorem boolPre_cons_false {p c : Char} (ps cs : List Char) (h : p ≠ c) :
    boolPre (p :: ps) (c :: cs) = false := by
  simp only [boolPre]
  rw [decide_eq_false h]
  simp

/-- Decomposition of an escaped string into backslash pairs and plain
characters: the shape every pass of `escape_renpy_string` preserves. -/
inductive EscStr (pairOk : Char → Prop) (plainOk : Char → Prop) :
    List Char → Prop where
  | nil : EscStr pairOk plainOk []
  | pair (c : Char) (r : List Char) : pairOk c → EscStr pairOk plainOk r →
      EscStr pairOk plainOk ('\\' :: c :: r)
  | plain (c : Char) (r : List Char) : c ≠ '\\' → plainOk c →
      EscStr pairOk plainOk r → EscStr pairOk plainOk (c :: r)

theorem escape_pass1 (t : List Char) :
    EscStr (fun c => c = '\\') (fun _ => True)
      (listReplace t ['\\'] ['\\', '\\']) := by
  induction t with
  | nil => rw [listReplace_nil]; exact .nil
  | cons c tl ih =>
    by_cases hc : c = '\\'
    · subst hc
      rw [listReplace_pos _ _ _ (by simp) (by simp [boolPre])]
      exact .pair '\\' _ rfl ih
    · rw [listReplace_neg _ _ _ _ (by simp) (boolPre_cons_false _ _ (fun he => hc he.symm))]
      exact .plain c _ hc trivial ih

theorem escape_pass2 {s : List Char}
    (hs : EscStr (fun c => c = '\\') (fun _ => True) s) :
    EscStr (fun c => c = '\\' ∨ c = '"') (fun c => c ≠ '"')
      (listReplace s ['"'] ['\\', '"']) := by
  induction hs with
  | nil => rw [listReplace_nil]; exact .nil
  | pair c r hc _ ih =>
    subst hc
    rw [listReplace_neg _ _ _ _ (by simp) (by simp [boolPre]),
      listReplace_neg _ _ _ _ (by simp) (by simp [boolPre])]
    exact .pair '\\' _ (Or.inl rfl) ih
  | plain c r hbs _ _ ih =>
    by_cases hq : c = '"'
    · subst hq
      rw [listReplace_pos _ _ _ (by simp) (by simp [boolPre])]
      exact .pair '"' _ (Or.inr rfl) ih
    · rw [listReplace_neg _ _ _ _ (by simp) (boolPre_cons_false _ _ (fun he => hq he.symm))]
      exact .plain c _ hbs hq ih

theorem escape_pass3 {s : List Char}
    (hs : EscStr (fun c => c = '\\' ∨ c = '"') (fun c => c ≠ '"') s) :
    EscStr (fun c => c = '\\' ∨ c = '"') (fun c => c ≠ '"')
      (listReplace s ['\r', '\n'] ['\n']) := by
  induction hs with
  | nil => rw [listReplace_nil]; exact .nil
  | pair c r hc _ ih =>
    have hc1 : c ≠ '\r' := by rcases hc with rfl | rfl <;> decide
    rw [listReplace_neg _ _ _ _ (by simp) (boolPre_cons_false _ _ (by decide)),
      listReplace_neg _ _ _ _ (by simp) (boolPre_cons_false _ _ (fun he => hc1 he.symm))]
    exact .pair c _ hc ih
  | plain c r hbs hq hr ih =>
    by_cases hcr : boolPre ['\r', '\n'] (c :: r) = true
    · have hc : c = '\r' := by
        cases r with
        | nil => simp [boolPre] at hcr
        | cons d rr =>
          simp only [boolPre, Bool.and_eq_true, decide_eq_true_eq] at hcr
          exact hcr.1.symm
      subst hc
      cases r with
      | nil => simp [boolPre] at hcr
      | cons d rr =>
        have hd : d = '\n' := by
          simp only [boolPre, Bool.and_eq_true, decide_eq_true_eq] at hcr
          rcases hcr with ⟨-, hd, -⟩
          exact hd.symm
        subst hd
        rw [listReplace_pos _ _ _ (by simp) hcr]
        have e : (('\r' :: '\n' :: rr).drop
            (['\r', '\n'] : List Char).length) = rr := rfl
        rw [e]
        -- ih is about r = '\n' :: rr; one scan step relates it to rr
        rw [listReplace_neg _ _ _ _ (by simp) (boolPre_cons_false _ _ (by decide))] at ih
        cases ih with
        | plain _ _ _ _ htail => exact .plain '\n' _ (by decide) (by decide) htail
    · rw [listReplace_neg _ _ _ _ (by simp) (by simpa using hcr)]
      exact .plain c _ hbs hq ih

theorem escape_pass4 {s : List Char}
    (hs : EscStr (fun c => c = '\\' ∨ c = '"') (fun c => c ≠ '"') s) :
    EscStr (fun c => c = '\\' ∨ c = '"') (fun c => c ≠ '"' ∧ c ≠ '\r')
      (listReplace s ['\r'] ['\n']) := by
  induction hs with
  | nil => rw [listReplace_nil]; exact .nil
  | pair c r hc _ ih =>
    have hc1 : ('\r' : Char) ≠ c := by rcases hc with rfl | rfl <;> decide
    rw [listReplace_neg _ _ _ _ (by simp) (boolPre_cons_false _ _ (by decide)),
      listReplace_neg _ _ _ _ (by simp) (boolPre_cons_false _ _ hc1)]
    exact .pair c _ hc ih
  | plain c r hbs hq ih ihr =>
    by_cases hcr : c = '\r'
    · subst hcr
      rw [listReplace_pos _ _ _ (by simp) (by simp [boolPre])]
      exact .plain '\n' _ (by decide) (by decide) ihr
    · rw [listReplace_neg _ _ _ _ (by simp)
        (boolPre_cons_false _ _ (fun he => hcr he.symm))]
      exact .plain c _ hbs ⟨hq, hcr⟩ ihr

theorem escape_pass5 {s : List Char}
    (hs : EscStr (fun c => c = '\\' ∨ c = '"')
      (fun c => c ≠ '"' ∧ c ≠ '\r') s) :
    EscStr (fun c => c = '\\' ∨ c = '"' ∨ c = 'n')
      (fun c => c ≠ '"' ∧ c ≠ '\r' ∧ c ≠ '\n')
      (listReplace s ['\n'] ['\\', 'n']) := by
  induction hs with
  | nil => rw [listReplace_nil]; exact .nil
  | pair c r hc _ ih =>
    have hc1 : ('\n' : Char) ≠ c := by rcases hc with rfl | rfl <;> decide
    rw [listReplace_neg _ _ _ _ (by simp) (boolPre_cons_false _ _ (by decide)),
      listReplace_neg _ _ _ _ (by simp) (boolPre_cons_false _ _ hc1)]
    refine .pair c _ ?_ ih
    rcases hc with rfl | rfl
    · exact Or.inl rfl
    · exact Or.inr (Or.inl rfl)
  | plain c r hbs hq ih ihr =>
    by_cases hlf : c = '\n'
    · subst hlf
      rw [listReplace_pos _ _ _ (by simp) (by simp [boolPre])]
      exact .pair 'n' _ (Or.inr (Or.inr rfl)) ihr
    · rw [listReplace_neg _ _ _ _ (by simp)
        (boolPre_cons_false _ _ (fun he => hlf he.symm))]
      exact .plain c _ hbs ⟨hq.1, hq.2, hlf⟩ ihr

/-- The token structure of `escape_renpy_string`'s output: backslash
pairs `\\`, `\"`, `\n` and plain characters that are none of
backslash, quote, CR, LF. -/
theorem escape_renpy_string_struct (t : List Char) :
    EscStr (fun c => c = '\\' ∨ c = '"' ∨ c = 'n')
      (fun c => c ≠ '"' ∧ c ≠ '\r' ∧ c ≠ '\n')
      (escape_renpy_string t) :=
  escape_pass5 (escape_pass4 (escape_pass3 (escape_pass2 (escape_pass1 t))))

theorem escStr_no_crlf {s : List Char}
    (hs : EscStr (fun c => c = '\\' ∨ c = '"' ∨ c = 'n')
      (fun c => c ≠ '"' ∧ c ≠ '\r' ∧ c ≠ '\n') s) :
    ∀ c ∈ s, c ≠ '\n' ∧ c ≠ '\r' := by
  induction hs with
  | nil => intro c hc; simp at hc
  | pair c r hc _ ih =>
    intro x hx
    rcases List.mem_cons.mp hx with rfl | hx2
    · exact ⟨by decide, by decide⟩
    · rcases List.mem_cons.mp hx2 with rfl | hx3
      · rcases hc with rfl | rfl | rfl <;> exact ⟨by decide, by decide⟩
      · exact ih x hx3
  | plain c r _ hpl _ ih =>
    intro x hx
    rcases List.mem_cons.mp hx with rfl | hx2
    · exact ⟨hpl.2.2, hpl.2.1⟩
    · exact ih x hx2

theorem escStr_quote_escaped {pairOk plainOk : Char → Prop} {s : List Char}
    (hs : EscStr pairOk plainOk s) (hq : ∀ c, plainOk c → c ≠ '"') :
    ∀ a b, s = a ++ '"' :: b → ∃ a2, a = a2 ++ ['\\'] := by
  induction hs with
  | nil =>
    intro a b h
    exact absurd h.symm (by simp)
  | pair c r hc _ ih =>
    intro a b h
    cases a with
    | nil =>
      simp only [List.nil_append, List.cons.injEq] at h
      exact absurd h.1.symm (by decide)
    | cons x a2 =>
      simp only [List.cons_append, List.cons.injEq] at h
      obtain ⟨rfl, h2⟩ := h
      cases a2 with
      | nil =>
        exact ⟨[], rfl⟩
      | cons y a3 =>
        simp only [List.cons_append, List.cons.injEq] at h2
        obtain ⟨rfl, h3⟩ := h2
        obtain ⟨a4, rfl⟩ := ih a3 b h3
        exact ⟨'\\' :: c :: a4, by simp⟩
  | plain c r hbs hpl _ ih =>
    intro a b h
    cases a with
    | nil =>
      simp only [List.nil_append, List.cons.injEq] at h
      exact absurd h.1 (hq c hpl)
    | cons x a2 =>
      simp only [List.cons_append, List.cons.injEq] at h
      obtain ⟨rfl, h2⟩ := h
      obtain ⟨a4, rfl⟩ := ih a2 b h2
      exact ⟨c :: a4, by simp⟩

theorem escStr_parseBody {pairOk plainOk : Char → Prop} {s : List Char}
    (hs : EscStr pairOk plainOk s) (hq : ∀ c, plainOk c → c ≠ '"') :
    ∀ rest, parseBody (s ++ '"' :: rest) = some (s, rest) := by
  induction hs with
  | nil =>
    intro rest
    rw [List.nil_append, parseBody.eq_def]
    simp
  | pair c r _ _ ih =>
    intro rest
    rw [List.cons_append, List.cons_append, parseBody.eq_def]
    simp [ih rest]
  | plain c r hbs hpl _ ih =>
    intro rest
    rw [List.cons_append, parseBody.eq_def]
    simp [hq c hpl, hbs, ih rest]

theorem pySpace_not_wordChar {c : Char} (h : pySpace c = true) :
    wordChar c = false := by
  simp only [pySpace, Bool.or_eq_true, decide_eq_true_eq] at h
  rcases h with ⟨⟨⟨⟨rfl | rfl⟩ | rfl⟩ | rfl⟩ | rfl⟩ | rfl <;> decide

theorem pySpace_quote : pySpace '"' = false := by decide

theorem alphaUnder_not_space {c : Char} (h : alphaUnder c = true) :
    pySpace c = false := by
  by_contra hc
  have hsp : pySpace c = true := by
    revert hc
    cases pySpace c <;> simp
  simp only [pySpace, Bool.or_eq_true, decide_eq_true_eq] at hsp
  rcases hsp with ⟨⟨⟨⟨rfl | rfl⟩ | rfl⟩ | rfl⟩ | rfl⟩ | rfl <;> simp [alphaUnder] at h

theorem takeWhile_append_all {p : Char → Bool} {w rest : List Char}
    (hw : ∀ c ∈ w, p c = true)
    (hr : rest = [] ∨ ∃ d rr, rest = d :: rr ∧ p d = false) :
    (w ++ rest).takeWhile p = w := by
  induction w with
  | nil =>
    rcases hr with rfl | ⟨d, rr, rfl, hd⟩
    · rfl
    · simp [List.takeWhile_cons, hd]
  | cons c cs ih =>
    have hc := hw c (List.mem_cons_self c cs)
    simp only [List.cons_append, List.takeWhile_cons, hc, if_true]
    rw [ih (fun x hx => hw x (List.mem_cons_of_mem c hx))]

theorem mem_of_takeWhile {p : Char → Bool} {l : List Char} :
    ∀ c ∈ l.takeWhile p, p c = true := by
  induction l with
  | nil => intro c hc; simp at hc
  | cons x xs ih =>
    intro c hc
    rw [List.takeWhile_cons] at hc
    by_cases hx : p x = true
    · rw [if_pos hx] at hc
      rcases List.mem_cons.mp hc with rfl | hc2
      · exact hx
      · exact ih c hc2
    · rw [if_neg hx] at hc
      simp at hc

theorem parseQuotedBare_inv {s p2 b suf : List Char}
    (h : parseQuotedBare s = some (p2, b, suf)) :
    p2 = [] ∧ suf.all pySpace = true := by
  cases s with
  | nil => simp [parseQuotedBare] at h
  | cons c r =>
    simp only [parseQuotedBare] at h
    by_cases hc : c = '"'
    · rw [if_pos hc] at h
      cases hb : parseBody r with
      | none => rw [hb] at h; simp at h
      | some p =>
        rw [hb] at h
        by_cases hall : p.2.all pySpace = true
        · rw [Option.some_bind, if_pos hall] at h
          simp only [Option.some.injEq, Prod.mk.injEq] at h
          obtain ⟨rfl, -, rfl⟩ := h
          exact ⟨rfl, hall⟩
        · rw [Option.some_bind, if_neg hall] at h
          simp at h
    · rw [if_neg hc] at h
      simp at h

theorem speakerQuoted_inv {c : Char} {w sp s p2 b suf : List Char}
    (h : speakerQuoted c w sp s = some (p2, b, suf)) :
    p2 = c :: (w ++ sp) ∧ suf.all pySpace = true := by
  cases s with
  | nil => simp [speakerQuoted] at h
  | cons d r3 =>
    simp only [speakerQuoted] at h
    by_cases hd : d = '"'
    · rw [if_pos hd] at h
      cases hb : parseBody r3 with
      | none => rw [hb] at h; simp at h
      | some p =>
        rw [hb] at h
        by_cases hall : p.2.all pySpace = true
        · rw [Option.some_bind, if_pos hall] at h
          simp only [Option.some.injEq, Prod.mk.injEq] at h
          obtain ⟨rfl, -, rfl⟩ := h
          exact ⟨rfl, hall⟩
        · rw [Option.some_bind, if_neg hall] at h
          simp at h
    · rw [if_neg hd] at h
      simp at h

theorem parseQuoted_inv {s p2 b suf : List Char}
    (h : parseQuoted s = some (p2, b, suf)) :
    suf.all pySpace = true ∧
      (p2 = [] ∨ ∃ c w sp, p2 = c :: (w ++ sp) ∧ alphaUnder c = true ∧
        (∀ x ∈ w, wordChar x = true) ∧ sp ≠ [] ∧
        (∀ x ∈ sp, pySpace x = true)) := by
  cases s with
  | nil => simp [parseQuoted] at h
  | cons c r =>
    simp only [parseQuoted] at h
    by_cases ha : alphaUnder c = true
    · rw [if_pos ha] at h
      by_cases hsp :
          ((r.drop (r.takeWhile wordChar).length).takeWhile pySpace).isEmpty = true
      · rw [if_pos hsp] at h
        obtain ⟨h1, h2⟩ := parseQuotedBare_inv h
        exact ⟨h2, Or.inl h1⟩
      · rw [if_neg hsp] at h
        cases hq : speakerQuoted c (r.takeWhile wordChar)
            ((r.drop (r.takeWhile wordChar).length).takeWhile pySpace)
            ((r.drop (r.takeWhile wordChar).length).drop
              ((r.drop (r.takeWhile wordChar).length).takeWhile pySpace).length)
            with
        | none =>
          rw [hq] at h
          simp only [Option.elim_none] at h
          obtain ⟨h1, h2⟩ := parseQuotedBare_inv h
          exact ⟨h2, Or.inl h1⟩
        | some out =>
          rw [hq] at h
          simp only [Option.elim_some] at h
          rw [h] at hq
          obtain ⟨h1, h2⟩ := speakerQuoted_inv hq
          refine ⟨h2, Or.inr ⟨c, r.takeWhile wordChar,
            (r.drop (r.takeWhile wordChar).length).takeWhile pySpace,
            h1, ha, ?_, ?_, ?_⟩⟩
          · exact fun x hx => mem_of_takeWhile x hx
          · intro hne
            rw [hne] at hsp
            exact hsp rfl
          · exact fun x hx => mem_of_takeWhile x hx
    · rw [if_neg ha] at h
      obtain ⟨h1, h2⟩ := parseQuotedBare_inv h
      exact ⟨h2, Or.inl h1⟩

theorem isEmpty_false_of_ne {l : List Char} (h : l ≠ []) :
    l.isEmpty = false := by
  cases l with
  | nil => exact absurd rfl h
  | cons x xs => rfl

theorem parseQuoted_replay {p2 e suf : List Char}
    (hcase : p2 = [] ∨ ∃ c w sp, p2 = c :: (w ++ sp) ∧ alphaUnder c = true ∧
      (∀ x ∈ w, wordChar x = true) ∧ sp ≠ [] ∧ (∀ x ∈ sp, pySpace x = true))
    (hsuf : suf.all pySpace = true)
    (hbody : ∀ rest, parseBody (e ++ '"' :: rest) = some (e, rest)) :
    parseQuoted (p2 ++ '"' :: (e ++ '"' :: suf)) = some (p2, e, suf) := by
  rcases hcase with rfl | ⟨c, w, sp, rfl, ha, hw, hsp0, hsps⟩
  · rw [List.nil_append]
    simp only [parseQuoted]
    rw [if_neg (by decide : ¬ alphaUnder '"' = true)]
    simp only [parseQuotedBare, if_true]
    rw [hbody suf, Option.some_bind, if_pos hsuf]
  · rw [List.cons_append]
    simp only [parseQuoted]
    rw [if_pos ha]
    have h1 : ((w ++ sp) ++ '"' :: (e ++ '"' :: suf)).takeWhile wordChar = w := by
      rw [List.append_assoc]
      refine takeWhile_append_all hw ?_
      cases hsp : sp with
      | nil => exact absurd hsp hsp0
      | cons d rr =>
        right
        refine ⟨d, rr ++ '"' :: (e ++ '"' :: suf), by simp, ?_⟩
        exact pySpace_not_wordChar (hsps d (hsp ▸ List.mem_cons_self d rr))
    rw [h1]
    have h2 : ((w ++ sp) ++ '"' :: (e ++ '"' :: suf)).drop w.length
        = sp ++ '"' :: (e ++ '"' :: suf) := by
      rw [List.append_assoc]
      exact List.drop_left w _
    rw [h2]
    have h3 : (sp ++ '"' :: (e ++ '"' :: suf)).takeWhile pySpace = sp := by
      refine takeWhile_append_all hsps ?_
      right
      exact ⟨'"', e ++ '"' :: suf, rfl, pySpace_quote⟩
    rw [h3]
    rw [if_neg (by rw [isEmpty_false_of_ne hsp0]; simp)]
    have h4 : (sp ++ '"' :: (e ++ '"' :: suf)).drop sp.length
        = '"' :: (e ++ '"' :: suf) := List.drop_left sp _
    rw [h4]
    simp only [speakerQuoted, if_true]
    rw [hbody suf, Option.some_bind, if_pos hsuf]
    simp

theorem head_witness {k0 : Char} {ks Z : List Char}
    (hk0 : pySpace k0 = false) :
    (k0 :: ks) ++ Z = [] ∨
      ∃ d rr, (k0 :: ks) ++ Z = d :: rr ∧ pySpace d = false :=
  Or.inr ⟨k0, ks ++ Z, by simp, hk0⟩

theorem matchSayLine_replay {line pre txt suf : List Char} (e : List Char)
    (h : matchSayLine line = some (pre, txt, suf))
    (hbody : ∀ rest, parseBody (e ++ '"' :: rest) = some (e, rest)) :
    matchSayLine (pre ++ '"' :: (e ++ '"' :: suf)) = some (pre, e, suf) := by
  simp only [matchSayLine] at h
  cases hq : parseQuoted (line.drop (line.takeWhile pySpace).length) with
  | none => rw [hq] at h; simp at h
  | some m =>
    obtain ⟨p2, b, sf⟩ := m
    rw [hq] at h
    simp only [Option.map_some', Option.some.injEq, Prod.mk.injEq] at h
    obtain ⟨hpre, -, hsf⟩ := h
    rw [hsf] at hq
    obtain ⟨hsufAll, hcase⟩ := parseQuoted_inv hq
    have hws : ∀ x ∈ line.takeWhile pySpace, pySpace x = true :=
      fun x hx => mem_of_takeWhile x hx
    rw [← hpre]
    simp only [matchSayLine]
    have h1 : ((line.takeWhile pySpace ++ p2) ++ '"' :: (e ++ '"' :: suf)).takeWhile
        pySpace = line.takeWhile pySpace := by
      rw [List.append_assoc]
      refine takeWhile_append_all hws ?_
      rcases hcase with rfl | ⟨c, w, sp, rfl, ha, -, -, -⟩
      · right
        exact ⟨'"', e ++ '"' :: suf, rfl, pySpace_quote⟩
      · right
        exact ⟨c, (w ++ sp) ++ '"' :: (e ++ '"' :: suf), rfl,
          alphaUnder_not_space ha⟩
    rw [h1]
    have h2 : ((line.takeWhile pySpace ++ p2) ++ '"' :: (e ++ '"' :: suf)).drop
        (line.takeWhile pySpace).length = p2 ++ '"' :: (e ++ '"' :: suf) := by
      rw [List.append_assoc]
      exact List.drop_left _ _
    rw [h2, parseQuoted_replay hcase hsufAll hbody]
    rfl

theorem keywordQuoted_inv {ws kw sp s p2 b suf : List Char}
    (h : keywordQuoted ws kw sp s = some (p2, b, suf)) :
    p2 = ws ++ kw ++ sp ∧ suf.all pySpace = true := by
  cases s with
  | nil => simp [keywordQuoted] at h
  | cons d r3 =>
    simp only [keywordQuoted] at h
    by_cases hd : d = '"'
    · rw [if_pos hd] at h
      cases hb : parseBody r3 with
      | none => rw [hb] at h; simp at h
      | some p =>
        rw [hb] at h
        by_cases hall : p.2.all pySpace = true
        · rw [Option.some_bind, if_pos hall] at h
          simp only [Option.some.injEq, Prod.mk.injEq] at h
          obtain ⟨rfl, -, rfl⟩ := h
          exact ⟨rfl, hall⟩
        · rw [Option.some_bind, if_neg hall] at h
          simp at h
    · rw [if_neg hd] at h
      simp at h

theorem matchKeywordLine_replay {kw line pre txt suf : List Char}
    (e : List Char) (k0 : Char) (ks : List Char)
    (hkw : kw = k0 :: ks) (hk0 : pySpace k0 = false)
    (h : matchKeywordLine kw line = some (pre, txt, suf))
    (hbody : ∀ rest, parseBody (e ++ '"' :: rest) = some (e, rest)) :
    matchKeywordLine kw (pre ++ '"' :: (e ++ '"' :: suf))
      = some (pre, e, suf) := by
  simp only [matchKeywordLine] at h
  by_cases hb : boolPre kw (line.drop (line.takeWhile pySpace).length) = true
  · rw [if_pos hb] at h
    by_cases hsp : (((line.drop (line.takeWhile pySpace).length).drop
        kw.length).takeWhile pySpace).isEmpty = true
    · rw [if_pos hsp] at h
      simp at h
    · rw [if_neg hsp] at h
      obtain ⟨hpre, hsufAll⟩ := keywordQuoted_inv h
      have hws : ∀ x ∈ line.takeWhile pySpace, pySpace x = true :=
        fun x hx => mem_of_takeWhile x hx
      have hsps : ∀ x ∈ ((line.drop (line.takeWhile pySpace).length).drop
          kw.length).takeWhile pySpace, pySpace x = true :=
        fun x hx => mem_of_takeWhile x hx
      have hspne : ((line.drop (line.takeWhile pySpace).length).drop
          kw.length).takeWhile pySpace ≠ [] := by
        intro hne
        rw [hne] at hsp
        exact hsp rfl
      subst hpre
      simp only [matchKeywordLine]
      have h1 : (((line.takeWhile pySpace ++ kw ++
          ((line.drop (line.takeWhile pySpace).length).drop
            kw.length).takeWhile pySpace)) ++ '"' :: (e ++ '"' :: suf)).takeWhile
          pySpace = line.takeWhile pySpace := by
        rw [List.append_assoc, List.append_assoc]
        subst hkw
        exact takeWhile_append_all hws (head_witness hk0)
      rw [h1]
      have h2 : ((line.takeWhile pySpace ++ kw ++
          ((line.drop (line.takeWhile pySpace).length).drop
            kw.length).takeWhile pySpace) ++ '"' :: (e ++ '"' :: suf)).drop
          (line.takeWhile pySpace).length
          = kw ++ (((line.drop (line.takeWhile pySpace).length).drop
              kw.length).takeWhile pySpace ++ '"' :: (e ++ '"' :: suf)) := by
        rw [List.append_assoc, List.append_assoc]
        exact List.drop_left _ _
      rw [h2]
      rw [if_pos (boolPre_append_self kw _)]
      have h3 : (kw ++ (((line.drop (line.takeWhile pySpace).length).drop
          kw.length).takeWhile pySpace ++ '"' :: (e ++ '"' :: suf))).drop
          kw.length
          = ((line.drop (line.takeWhile pySpace).length).drop
              kw.length).takeWhile pySpace ++ '"' :: (e ++ '"' :: suf) :=
        List.drop_left _ _
      rw [h3]
      have h4 : (((line.drop (line.takeWhile pySpace).length).drop
          kw.length).takeWhile pySpace ++ '"' :: (e ++ '"' :: suf)).takeWhile
          pySpace
          = ((line.drop (line.takeWhile pySpace).length).drop
              kw.length).takeWhile pySpace := by
        refine takeWhile_append_all hsps ?_
        right
        exact ⟨'"', e ++ '"' :: suf, rfl, pySpace_quote⟩
      rw [h4]
      rw [if_neg (by rw [isEmpty_false_of_ne hspne]; simp)]
      have h5 : (((line.drop (line.takeWhile pySpace).length).drop
          kw.length).takeWhile pySpace ++ '"' :: (e ++ '"' :: suf)).drop
          (((line.drop (line.takeWhile pySpace).length).drop
            kw.length).takeWhile pySpace).length
          = '"' :: (e ++ '"' :: suf) := List.drop_left _ _
      rw [h5]
      simp only [keywordQuoted, if_true]
      rw [hbody suf, Option.some_bind, if_pos hsufAll]
  · rw [if_neg hb] at h
    simp at h

/-- C10: `escape_renpy_string` keeps a rewritten line on one line and
inside the grammar: its output contains no LF or CR; every double quote
in it is immediately preceded by a backslash; and gluing it between
quotes with the prefix/suffix of any line that matched `SAY_RE` (resp.
`NEW_RE`) yields a line that again matches the same regex with the same
prefix and suffix and the escaped text as body. -/
theorem escape_renpy_string_line_safety (t : List Char) :
    (∀ c ∈ escape_renpy_string t, c ≠ '\n' ∧ c ≠ '\r') ∧
    (∀ a b, escape_renpy_string t = a ++ '"' :: b →
      ∃ a2, a = a2 ++ ['\\']) ∧
    (∀ line pre txt suf, matchSayLine line = some (pre, txt, suf) →
      matchSayLine (pre ++ '"' :: (escape_renpy_string t ++ '"' :: suf)) =
        some (pre, escape_renpy_string t, suf)) ∧
    (∀ line pre txt suf, matchNewLine line = some (pre, txt, suf) →
      matchNewLine (pre ++ '"' :: (escape_renpy_string t ++ '"' :: suf)) =
        some (pre, escape_renpy_string t, suf)) := by
  have hstruct := escape_renpy_string_struct t
  have hqe : ∀ c, (c ≠ '"' ∧ c ≠ '\r' ∧ c ≠ '\n') → c ≠ '"' :=
    fun c hc => hc.1
  have hbody := escStr_parseBody hstruct hqe
  refine ⟨escStr_no_crlf hstruct, escStr_quote_escaped hstruct hqe, ?_, ?_⟩
  · intro line pre txt suf h
    exact matchSayLine_replay _ h hbody
  · intro line pre txt suf h
    simp only [matchNewLine] at h ⊢
    exact matchKeywordLine_replay _ 'n' "ew".toList (by decide) (by decide)
      h hbody

theorem escape_renpy_string_line_safety_witness :
    matchSayLine ("    ".toList ++ '"' ::
        (escape_renpy_string "a\"b\nc".toList ++ '"' :: [])) =
      some ("    ".toList, escape_renpy_string "a\"b\nc".toList, []) := by
  exact (escape_renpy_string_line_safety "a\"b\nc".toList).2.2.1
    "    \"x\"".toList "    ".toList "x".toList [] (by decide)

/-! ## C1: `mask_placeholders` / `restore_placeholders`

`PLACEHOLDER_RE` (source line 29) alternates bracket tags, brace tags,
`%(name)<letter>`, `%[sdif]` and backslash escapes; `re.sub` scans left
to right, replacing each match with `__RNPH_<n>__` numbered in order
(source lines 1026–1035); `restore_placeholders` (source lines
1038–1042) replaces each token back, in insertion order. -/

/-- Decimal digits of `n`, most significant first (Python `f"{n}"`). -/
def natDigits (n : Nat) : List Char :=
  if h : n < 10 then [Char.ofNat (48 + n)]
  else natDigits (n / 10) ++ [Char.ofNat (48 + n % 10)]
termination_by n
decreasing_by
  exact Nat.div_lt_self (by omega) (by omega)

/-- The synthetic token `__RNPH_<i>__`. -/
def tokenChars (i : Nat) : List Char :=
  "__RNPH_".toList ++ natDigits i ++ "__".toList

/-- One placeholder-class character. -/
def isDigitCh (c : Char) : Prop := ∃ d, d < 10 ∧ c = Char.ofNat (48 + d)

theorem natDigits_digits (n : Nat) : ∀ c ∈ natDigits n, isDigitCh c := by
  induction n using Nat.strong_induction_on with
  | _ n ih =>
    intro c hc
    rw [natDigits] at hc
    by_cases h : n < 10
    · rw [dif_pos h] at hc
      rcases List.mem_singleton.mp hc with rfl
      exact ⟨n, h, rfl⟩
    · rw [dif_neg h] at hc
      rcases List.mem_append.mp hc with h1 | h2
      · exact ih (n / 10) (Nat.div_lt_self (by omega) (by omega)) c h1
      · rcases List.mem_singleton.mp h2 with rfl
        exact ⟨n % 10, Nat.mod_lt _ (by omega), rfl⟩

theorem isDigitCh_ne_underscore {c : Char} (h : isDigitCh c) : c ≠ '_' := by
  obtain ⟨d, hd, rfl⟩ := h
  interval_cases d <;> decide

theorem isDigitCh_ne_R {c : Char} (h : isDigitCh c) : c ≠ 'R' := by
  obtain ⟨d, hd, rfl⟩ := h
  interval_cases d <;> decide

/-- Numeric value of a digit string (for injectivity of `natDigits`). -/
def digitsVal (l : List Char) : Nat :=
  l.foldl (fun acc c => 10 * acc + (c.toNat - 48)) 0

theorem digitsVal_append (a : List Char) (c : Char) :
    digitsVal (a ++ [c]) = 10 * digitsVal a + (c.toNat - 48) := by
  simp [digitsVal, List.foldl_append]

theorem charOfNat_digit_toNat {d : Nat} (hd : d < 10) :
    (Char.ofNat (48 + d)).toNat = 48 + d := by
  interval_cases d <;> decide

theorem digitsVal_natDigits (n : Nat) : digitsVal (natDigits n) = n := by
  induction n using Nat.strong_induction_on with
  | _ n ih =>
    rw [natDigits]
    by_cases h : n < 10
    · rw [dif_pos h]
      simp [digitsVal, charOfNat_digit_toNat h]
    · rw [dif_neg h]
      rw [digitsVal_append, ih (n / 10) (Nat.div_lt_self (by omega) (by omega)),
        charOfNat_digit_toNat (Nat.mod_lt _ (by omega))]
      omega

theorem natDigits_inj {m n : Nat} (h : natDigits m = natDigits n) : m = n := by
  have := congrArg digitsVal h
  rwa [digitsVal_natDigits, digitsVal_natDigits] at this

/-- Match one alternative shape `OPEN content CLOSE` where the content is
a nonempty run of characters on which `stop` is false and the run must be
terminated by exactly `closeC`. -/
def matchDelim (openC closeC : Char) (stop : Char → Bool) (r : List Char) :
    Option (List Char × List Char) :=
  let content := r.takeWhile (fun x => !(stop x))
  if content.isEmpty then none
  else
    match r.drop content.length with
    | [] => none
    | d :: rest =>
      if d = closeC then some (openC :: (content ++ [closeC]), rest) else none

/-- `PLACEHOLDER_RE` tried at one position, alternatives in regex order:
`\[[^\]\n]+\]`, `\{[^{}\n]+\}`, `%\([^)]+\)[a-zA-Z]`, `%[sdif]`,
`\\[nrt]`.  Returns the matched text and the rest. -/
def matchPlaceholder : List Char → Option (List Char × List Char)
  | [] => none
  | c :: r =>
    if c = '[' then matchDelim '[' ']' (fun x => x = ']' || x = '\n') r
    else if c = '{' then
      matchDelim '{' '}' (fun x => x = '{' || x = '}' || x = '\n') r
    else if c = '%' then
      match r with
      | [] => none
      | d :: r2 =>
        if d = '(' then
          match matchDelim '(' ')' (fun x => x = ')') r2 with
          | none => none
          | some (m2, rest2) =>
            match rest2 with
            | [] => none
            | l :: rest3 =>
              if l.isAlpha then some ('%' :: (m2 ++ [l]), rest3) else none
        else if d = 's' || d = 'd' || d = 'i' || d = 'f' then
          some (['%', d], r2)
        else none
    else if c = '\\' then
      match r with
      | [] => none
      | l :: rest =>
        if l = 'n' || l = 'r' || l = 't' then some (['\\', l], rest) else none
    else none

theorem takeWhile_drop_split (p : Char → Bool) (r : List Char) :
    r = r.takeWhile p ++ r.drop (r.takeWhile p).length := by
  induction r with
  | nil => rfl
  | cons c tl ih =>
    rw [List.takeWhile_cons]
    by_cases hc : p c = true
    · rw [if_pos hc]
      simp only [List.length_cons, List.drop_succ_cons, List.cons_append]
      exact congrArg (c :: ·) ih
    · rw [if_neg hc]
      simp

theorem matchDelim_split (c0 : Char) {openC closeC : Char}
    {stop : Char → Bool} {r m rest : List Char}
    (h : matchDelim openC closeC stop r = some (m, rest)) :
    c0 :: r = (c0 :: m.tail) ++ rest ∧ m ≠ [] ∧ m = openC :: m.tail := by
  simp only [matchDelim] at h
  by_cases he : (r.takeWhile (fun x => !(stop x))).isEmpty = true
  · rw [if_pos he] at h; simp at h
  · rw [if_neg he] at h
    cases hd : r.drop (r.takeWhile (fun x => !(stop x))).length with
    | nil => rw [hd] at h; simp at h
    | cons d rr =>
      simp only [hd] at h
      by_cases hdc : d = closeC
      · rw [if_pos hdc] at h
        simp only [Option.some.injEq, Prod.mk.injEq] at h
        obtain ⟨hm, hrest⟩ := h
        subst hdc
        constructor
        · rw [← hm, ← hrest]
          have := takeWhile_drop_split (fun x => !(stop x)) r
          rw [hd] at this
          conv_lhs => rw [this]
          simp
        · rw [← hm]
          exact ⟨by simp, by simp⟩
      · rw [if_neg hdc] at h; simp at h

theorem matchPlaceholder_split {s m rest : List Char}
    (h : matchPlaceholder s = some (m, rest)) :
    s = m ++ rest ∧ m ≠ [] ∧
      (∃ c0 m2, m = c0 :: m2 ∧
        (c0 = '[' ∨ c0 = '{' ∨ c0 = '%' ∨ c0 = '\\')) := by
  cases s with
  | nil => simp [matchPlaceholder] at h
  | cons c r =>
    simp only [matchPlaceholder] at h
    by_cases h1 : c = '['
    · rw [if_pos h1] at h
      subst h1
      obtain ⟨hs, hne, hm⟩ := matchDelim_split '[' h
      refine ⟨by rw [hm]; exact hs, hne, ?_⟩
      exact ⟨'[', m.tail, hm, Or.inl rfl⟩
    · rw [if_neg h1] at h
      by_cases h2 : c = '{'
      · rw [if_pos h2] at h
        subst h2
        obtain ⟨hs, hne, hm⟩ := matchDelim_split '{' h
        refine ⟨by rw [hm]; exact hs, hne, ?_⟩
        exact ⟨'{', m.tail, hm, Or.inr (Or.inl rfl)⟩
      · rw [if_neg h2] at h
        by_cases h3 : c = '%'
        · rw [if_pos h3] at h
          split at h
          · simp at h
          · rename_i d r2
            by_cases h4 : d = '('
            · rw [if_pos h4] at h
              cases hdel : matchDelim '(' ')' (fun x => x = ')') r2 with
              | none => rw [hdel] at h; simp at h
              | some p =>
                obtain ⟨m2, rest2⟩ := p
                simp only [hdel] at h
                split at h
                · simp at h
                · rename_i l rest3
                  by_cases h5 : l.isAlpha = true
                  · rw [if_pos h5] at h
                    simp only [Option.some.injEq, Prod.mk.injEq] at h
                    obtain ⟨hm, hrest⟩ := h
                    obtain ⟨hs2, -, hm2⟩ := matchDelim_split d hdel
                    subst h3; subst h4
                    refine ⟨?_, by rw [← hm]; simp, ?_⟩
                    · rw [← hm, ← hrest]
                      have ht : r2 = m2.tail ++ l :: rest3 := by
                        have := congrArg List.tail hs2
                        simpa using this
                      rw [ht, hm2]
                      simp
                    · exact ⟨'%', m2 ++ [l], hm.symm,
                        Or.inr (Or.inr (Or.inl rfl))⟩
                  · rw [if_neg h5] at h; simp at h
            · rw [if_neg h4] at h
              by_cases h6 : (d = 's' || d = 'd' || d = 'i' || d = 'f') = true
              · rw [if_pos h6] at h
                simp only [Option.some.injEq, Prod.mk.injEq] at h
                obtain ⟨hm, hrest⟩ := h
                subst h3
                refine ⟨by rw [← hm, ← hrest]; simp, by rw [← hm]; simp, ?_⟩
                exact ⟨'%', [d], hm.symm, Or.inr (Or.inr (Or.inl rfl))⟩
              · rw [if_neg h6] at h; simp at h
        · rw [if_neg h3] at h
          by_cases h7 : c = '\\'
          · rw [if_pos h7] at h
            split at h
            · simp at h
            · rename_i l rest2
              by_cases h8 : (l = 'n' || l = 'r' || l = 't') = true
              · rw [if_pos h8] at h
                simp only [Option.some.injEq, Prod.mk.injEq] at h
                obtain ⟨hm, hrest⟩ := h
                subst h7
                refine ⟨by rw [← hm, ← hrest]; simp, by rw [← hm]; simp, ?_⟩
                exact ⟨'\\', [l], hm.symm, Or.inr (Or.inr (Or.inr rfl))⟩
              · rw [if_neg h8] at h; simp at h
          · rw [if_neg h7] at h
            simp at h

theorem matchPlaceholder_len {s m rest : List Char}
    (h : matchPlaceholder s = some (m, rest)) : rest.length < s.length := by
  obtain ⟨hs, hne, -⟩ := matchPlaceholder_split h
  rw [hs, List.length_append]
  cases m with
  | nil => exact absurd rfl hne
  | cons a b => simp only [List.length_cons]; omega

/-- One chunk of the scanned text: an unmatched character or the `n`-th
placeholder match. -/
inductive Seg where
  | plain (c : Char)
  | ph (i : Nat) (orig : List Char)
deriving DecidableEq, Repr

/-- The masked rendering: tokens for matches, characters unchanged. -/
def renderM : List Seg → List Char
  | [] => []
  | .plain c :: L => c :: renderM L
  | .ph i _ :: L => tokenChars i ++ renderM L

/-- The original rendering: every chunk as it stood in the input. -/
def renderO : List Seg → List Char
  | [] => []
  | .plain c :: L => c :: renderO L
  | .ph _ m :: L => m ++ renderO L

/-- The left-to-right scan of `re.sub`: try the pattern at each position,
on a match emit a numbered chunk and continue after it. -/
def maskScan (s : List Char) (k : Nat) : List Seg :=
  match s with
  | [] => []
  | c :: tl =>
    if hm : (matchPlaceholder (c :: tl)).isSome then
      let mr := (matchPlaceholder (c :: tl)).get hm
      .ph k mr.1 :: maskScan mr.2 (k + 1)
    else .plain c :: maskScan tl k
termination_by s.length
decreasing_by
  · exact matchPlaceholder_len (Option.some_get hm).symm
  · simp

/-- The token → original mapping, in insertion order. -/
def segTokens : List Seg → List (Nat × List Char)
  | [] => []
  | .plain _ :: L => segTokens L
  | .ph i m :: L => (i, m) :: segTokens L

/-- `mask_placeholders` (source lines 1026–1035). -/
def mask_placeholders (text : List Char) :
    List Char × List (Nat × List Char) :=
  (renderM (maskScan text 0), segTokens (maskScan text 0))

/-- `restore_placeholders` (source lines 1038–1042): replace every token
by its original, in insertion order. -/
def restore_placeholders (text : List Char)
    (mapping : List (Nat × List Char)) : List Char :=
  mapping.foldl (fun acc p => listReplace acc (tokenChars p.1) p.2) text

theorem maskScan_nil (k : Nat) : maskScan [] k = [] := by
  rw [maskScan]

theorem maskScan_cons_some {c : Char} {tl : List Char}
    {mr : List Char × List Char} (k : Nat)
    (hm : matchPlaceholder (c :: tl) = some mr) :
    maskScan (c :: tl) k = .ph k mr.1 :: maskScan mr.2 (k + 1) := by
  rw [maskScan]
  rw [dif_pos (by rw [hm]; rfl)]
  simp only [hm]
  rfl

theorem maskScan_cons_none {c : Char} {tl : List Char} (k : Nat)
    (hm : matchPlaceholder (c :: tl) = none) :
    maskScan (c :: tl) k = .plain c :: maskScan tl k := by
  rw [maskScan]
  rw [dif_neg (by rw [hm]; simp)]

theorem renderO_maskScan (s : List Char) (k : Nat) :
    renderO (maskScan s k) = s := by
  suffices H : ∀ n s k, List.length s ≤ n → renderO (maskScan s k) = s from
    H s.length s k le_rfl
  intro n
  induction n with
  | zero =>
    intro s k hlen
    have : s = [] := List.length_eq_zero.mp (Nat.le_zero.mp hlen)
    subst this
    rw [maskScan_nil]
    rfl
  | succ n ih =>
    intro s k hlen
    cases s with
    | nil => rw [maskScan_nil]; rfl
    | cons c tl =>
      cases hm : matchPlaceholder (c :: tl) with
      | none =>
        rw [maskScan_cons_none k hm]
        simp only [renderO]
        rw [ih tl k (by simp only [List.length_cons] at hlen; omega)]
      | some mr =>
        rw [maskScan_cons_some k hm]
        simp only [renderO]
        obtain ⟨hs, hne, -⟩ := matchPlaceholder_split hm
        have hlt : mr.2.length ≤ n := by
          have := matchPlaceholder_len hm
          simp only [List.length_cons] at this hlen
          omega
        rw [ih mr.2 (k + 1) hlt]
        exact hs.symm

theorem maskScan_idx_ge (n : Nat) :
    ∀ (s : List Char) (k i : Nat) (m : List Char), s.length ≤ n →
      Seg.ph i m ∈ maskScan s k → k ≤ i := by
  induction n with
  | zero =>
    intro s k i m hlen hmem
    have : s = [] := List.length_eq_zero.mp (Nat.le_zero.mp hlen)
    subst this
    rw [maskScan_nil] at hmem
    simp at hmem
  | succ n ih =>
    intro s k i m hlen hmem
    cases s with
    | nil => rw [maskScan_nil] at hmem; simp at hmem
    | cons c tl =>
      cases hm : matchPlaceholder (c :: tl) with
      | none =>
        rw [maskScan_cons_none k hm] at hmem
        rcases List.mem_cons.mp hmem with heq | hmem2
        · exact absurd heq (by simp)
        · exact ih tl k i m (by simp only [List.length_cons] at hlen; omega)
            hmem2
      | some mr =>
        rw [maskScan_cons_some k hm] at hmem
        rcases List.mem_cons.mp hmem with heq | hmem2
        · cases heq
          exact le_refl k
        · have hlt : mr.2.length ≤ n := by
            have := matchPlaceholder_len hm
            simp only [List.length_cons] at this hlen
            omega
          exact le_trans (Nat.le_succ k) (ih mr.2 (k + 1) i m hlt hmem2)

theorem maskScan_origs (n : Nat) :
    ∀ (s : List Char) (k i : Nat) (m : List Char), s.length ≤ n →
      Seg.ph i m ∈ maskScan s k →
      ∃ c0 m2, m = c0 :: m2 ∧
        (c0 = '[' ∨ c0 = '{' ∨ c0 = '%' ∨ c0 = '\\') := by
  induction n with
  | zero =>
    intro s k i m hlen hmem
    have : s = [] := List.length_eq_zero.mp (Nat.le_zero.mp hlen)
    subst this
    rw [maskScan_nil] at hmem
    simp at hmem
  | succ n ih =>
    intro s k i m hlen hmem
    cases s with
    | nil => rw [maskScan_nil] at hmem; simp at hmem
    | cons c tl =>
      cases hm : matchPlaceholder (c :: tl) with
      | none =>
        rw [maskScan_cons_none k hm] at hmem
        rcases List.mem_cons.mp hmem with heq | hmem2
        · exact absurd heq (by simp)
        · exact ih tl k i m (by simp only [List.length_cons] at hlen; omega)
            hmem2
      | some mr =>
        rw [maskScan_cons_some k hm] at hmem
        rcases List.mem_cons.mp hmem with heq | hmem2
        · cases heq
          obtain ⟨-, -, hhead⟩ := matchPlaceholder_split hm
          exact hhead
        · have hlt : mr.2.length ≤ n := by
            have := matchPlaceholder_len hm
            simp only [List.length_cons] at this hlen
            omega
          exact ih mr.2 (k + 1) i m hlt hmem2

theorem boolPre_iff {p s : List Char} :
    boolPre p s = true ↔ ∃ t, s = p ++ t := by
  constructor
  · intro h
    induction p generalizing s with
    | nil => exact ⟨s, rfl⟩
    | cons a as ih =>
      cases s with
      | nil => simp [boolPre] at h
      | cons b bs =>
        simp only [boolPre, Bool.and_eq_true, decide_eq_true_eq] at h
        obtain ⟨rfl, h2⟩ := h
        obtain ⟨t, rfl⟩ := ih h2
        exact ⟨t, rfl⟩
  · rintro ⟨t, rfl⟩
    exact boolPre_append_self p t

theorem containsSub_iff {s p : List Char} :
    containsSub s p = true ↔ ∃ a b, s = a ++ (p ++ b) := by
  constructor
  · intro h
    induction s with
    | nil =>
      cases p with
      | nil => exact ⟨[], [], rfl⟩
      | cons x xs => simp [containsSub] at h
    | cons c tl ih =>
      cases p with
      | nil => exact ⟨[], c :: tl, rfl⟩
      | cons x xs =>
        simp only [containsSub, Bool.or_eq_true] at h
        rcases h with h1 | h2
        · obtain ⟨t, ht⟩ := boolPre_iff.mp h1
          exact ⟨[], t, ht⟩
        · obtain ⟨a, b, hab⟩ := ih h2
          exact ⟨c :: a, b, by rw [hab]; rfl⟩
  · rintro ⟨a, b, rfl⟩
    induction a with
    | nil =>
      cases p with
      | nil => cases b <;> rfl
      | cons x xs =>
        simp only [List.nil_append, List.cons_append, containsSub, Bool.or_eq_true]
        exact Or.inl (by simpa using boolPre_append_self (x :: xs) b)
    | cons c a2 ih =>
      cases p with
      | nil => simp [containsSub]
      | cons x xs =>
        simp only [List.cons_append, containsSub, Bool.or_eq_true]
        exact Or.inr ih

/-- The literal characters `RNPH`: the anchor every synthetic token
contains exactly once. -/
def rnAnchor : List Char := ['R', 'N', 'P', 'H']

/-- Input texts the round trip is proved for: no occurrence of `RNPH`. -/
def rnphFree (s : List Char) : Prop := containsSub s rnAnchor = false

theorem rnphFree_iff {s : List Char} :
    rnphFree s ↔ ∀ a b, s ≠ a ++ (rnAnchor ++ b) := by
  unfold rnphFree
  constructor
  · intro h a b heq
    have : containsSub s rnAnchor = true := containsSub_iff.mpr ⟨a, b, heq⟩
    rw [h] at this
    exact absurd this (by simp)
  · intro h
    by_contra hc
    have : containsSub s rnAnchor = true := by
      revert hc
      cases containsSub s rnAnchor <;> simp
    obtain ⟨a, b, hab⟩ := containsSub_iff.mp this
    exact h a b hab

theorem rnphFree_append_left {a b : List Char} (h : rnphFree (a ++ b)) :
    rnphFree a := by
  rw [rnphFree_iff] at h ⊢
  intro x y hxy
  exact h x (y ++ b) (by rw [hxy]; simp)

theorem rnphFree_append_right {a b : List Char} (h : rnphFree (a ++ b)) :
    rnphFree b := by
  rw [rnphFree_iff] at h ⊢
  intro x y hxy
  exact h (a ++ x) y (by rw [hxy]; simp)

theorem listReplace_no_occ {s pat rep : List Char}
    (h : ∀ a b, s ≠ a ++ (pat ++ b)) :
    listReplace s pat rep = s := by
  induction s with
  | nil => exact listReplace_nil pat rep
  | cons c tl ih =>
    have hpat : pat ≠ [] := by
      intro hp
      exact h [] (c :: tl) (by simp [hp])
    have hnp : boolPre pat (c :: tl) = false := by
      by_contra hb
      have : boolPre pat (c :: tl) = true := by
        revert hb
        cases boolPre pat (c :: tl) <;> simp
      obtain ⟨t, ht⟩ := boolPre_iff.mp this
      exact h [] t (by rw [ht]; simp)
    rw [listReplace_neg c tl pat rep hpat hnp]
    rw [ih]
    intro a b hab
    exact h (c :: a) b (by rw [hab]; rfl)

theorem listReplace_split {p pat Q rep : List Char} (hpat : pat ≠ [])
    (hfirst : ∀ a b, p ++ (pat ++ Q) = a ++ (pat ++ b) → p.length ≤ a.length)
    (hQ : ∀ a b, Q ≠ a ++ (pat ++ b)) :
    listReplace (p ++ (pat ++ Q)) pat rep = p ++ (rep ++ Q) := by
  induction p with
  | nil =>
    simp only [List.nil_append]
    rw [listReplace_pos _ _ _ hpat (boolPre_append_self pat Q)]
    rw [List.drop_left pat Q]
    rw [listReplace_no_occ hQ]
  | cons c p2 ih =>
    have hnp : boolPre pat (c :: (p2 ++ (pat ++ Q))) = false := by
      by_contra hb
      have : boolPre pat (c :: (p2 ++ (pat ++ Q))) = true := by
        revert hb
        cases boolPre pat (c :: (p2 ++ (pat ++ Q))) <;> simp
      obtain ⟨t, ht⟩ := boolPre_iff.mp this
      have hcontr : (c :: p2) ++ (pat ++ Q) = [] ++ (pat ++ t) := by
        simpa using ht
      have := hfirst [] t hcontr
      simp at this
    rw [List.cons_append]
    rw [listReplace_neg c _ pat rep hpat hnp]
    have hf2 : ∀ a b, p2 ++ (pat ++ Q) = a ++ (pat ++ b) →
        p2.length ≤ a.length := by
      intro a b hab
      have := hfirst (c :: a) b (by rw [List.cons_append, hab]; rfl)
      simpa using this
    rw [ih hf2]
    simp

theorem tokenChars_eq (i : Nat) :
    tokenChars i =
      '_' :: '_' :: 'R' :: 'N' :: 'P' :: 'H' :: '_' ::
        (natDigits i ++ ['_', '_']) := rfl

theorem digits_skip {d : List Char} (hd : ∀ c ∈ d, isDigitCh c) :
    ∀ {M x y : List Char},
      d ++ ('_' :: '_' :: M) = x ++ (rnAnchor ++ y) →
      ∃ x2, x = d ++ ('_' :: '_' :: x2) ∧ M = x2 ++ (rnAnchor ++ y) := by
  induction d with
  | nil =>
    intro M x y h
    simp only [List.nil_append] at h
    cases x with
    | nil => exact absurd (List.cons.inj h).1 (by decide)
    | cons a x1 =>
      obtain ⟨ha, h2⟩ := List.cons.inj h
      cases x1 with
      | nil => exact absurd (List.cons.inj h2).1 (by decide)
      | cons b x2 =>
        obtain ⟨hb, h3⟩ := List.cons.inj h2
        exact ⟨x2, by rw [← ha, ← hb]; simp, h3⟩
  | cons c d2 ih =>
    intro M x y h
    cases x with
    | nil =>
      simp only [List.nil_append, List.cons_append] at h
      have := (List.cons.inj h).1
      exact absurd this (isDigitCh_ne_R (hd c (List.mem_cons_self c d2)))
    | cons a x1 =>
      simp only [List.cons_append] at h
      obtain ⟨ha, h2⟩ := List.cons.inj h
      obtain ⟨x2, hx1, hM⟩ := ih (fun z hz => hd z (List.mem_cons_of_mem c hz)) h2
      exact ⟨x2, by rw [← ha, hx1]; rfl, hM⟩

theorem token_anchor_cases {j : Nat} {M x y : List Char}
    (h : tokenChars j ++ M = x ++ (rnAnchor ++ y)) :
    (x = ['_', '_'] ∧ y = '_' :: ((natDigits j ++ ['_', '_']) ++ M)) ∨
    (∃ x9, x = tokenChars j ++ x9 ∧ M = x9 ++ (rnAnchor ++ y)) := by
  rw [tokenChars_eq] at h
  rcases x with _ | ⟨a1, x⟩
  · exact absurd (List.cons.inj h).1 (by decide)
  obtain ⟨e1, h⟩ := List.cons.inj h
  rcases x with _ | ⟨a2, x⟩
  · exact absurd (List.cons.inj h).1 (by decide)
  obtain ⟨e2, h⟩ := List.cons.inj h
  rcases x with _ | ⟨a3, x⟩
  · -- aligned: the anchor is this token's own RNPH
    obtain ⟨-, h⟩ := List.cons.inj h
    obtain ⟨-, h⟩ := List.cons.inj h
    obtain ⟨-, h⟩ := List.cons.inj h
    obtain ⟨-, h⟩ := List.cons.inj h
    exact Or.inl ⟨by rw [← e1, ← e2], by simpa using h.symm⟩
  obtain ⟨e3, h⟩ := List.cons.inj h
  rcases x with _ | ⟨a4, x⟩
  · exact absurd (List.cons.inj h).1 (by decide)
  obtain ⟨e4, h⟩ := List.cons.inj h
  rcases x with _ | ⟨a5, x⟩
  · exact absurd (List.cons.inj h).1 (by decide)
  obtain ⟨e5, h⟩ := List.cons.inj h
  rcases x with _ | ⟨a6, x⟩
  · exact absurd (List.cons.inj h).1 (by decide)
  obtain ⟨e6, h⟩ := List.cons.inj h
  rcases x with _ | ⟨a7, x9⟩
  · exact absurd (List.cons.inj h).1 (by decide)
  obtain ⟨e7, h⟩ := List.cons.inj h
  have h' : natDigits j ++ ('_' :: '_' :: M) = x9 ++ (rnAnchor ++ y) := by
    simpa using h
  obtain ⟨x10, hx9, hM⟩ := digits_skip (natDigits_digits j) h'
  refine Or.inr ⟨x10, ?_, hM⟩
  rw [← e1, ← e2, ← e3, ← e4, ← e5, ← e6, ← e7, hx9, tokenChars_eq]
  simp

theorem rn_suffix_head {p2 w2 : List Char} {d : Char}
    (hw : rnAnchor = p2 ++ (d :: w2)) :
    d = 'R' ∨ d = 'N' ∨ d = 'P' ∨ d = 'H' := by
  rcases p2 with _ | ⟨b1, _ | ⟨b2, _ | ⟨b3, _ | ⟨b4, p6⟩⟩⟩⟩
  · exact Or.inl ((List.cons.inj hw).1).symm
  · obtain ⟨-, hw⟩ := List.cons.inj hw
    exact Or.inr (Or.inl ((List.cons.inj hw).1).symm)
  · obtain ⟨-, hw⟩ := List.cons.inj hw
    obtain ⟨-, hw⟩ := List.cons.inj hw
    exact Or.inr (Or.inr (Or.inl ((List.cons.inj hw).1).symm))
  · obtain ⟨-, hw⟩ := List.cons.inj hw
    obtain ⟨-, hw⟩ := List.cons.inj hw
    obtain ⟨-, hw⟩ := List.cons.inj hw
    exact Or.inr (Or.inr (Or.inr ((List.cons.inj hw).1).symm))
  · obtain ⟨-, hw⟩ := List.cons.inj hw
    obtain ⟨-, hw⟩ := List.cons.inj hw
    obtain ⟨-, hw⟩ := List.cons.inj hw
    obtain ⟨-, hw⟩ := List.cons.inj hw
    exact absurd hw.symm (by simp)

/-- Every occurrence of `RNPH` in a masked rendering is the anchor of one
of its tokens, provided the original text is `RNPH`-free. -/
theorem struct_rn (L : List Seg) :
    ∀ (p : List Char), rnphFree (p ++ renderO L) →
      ∀ x y, p ++ renderM L = x ++ (rnAnchor ++ y) →
      ∃ L1 i m L2, L = L1 ++ (Seg.ph i m :: L2) ∧
        x = (p ++ renderM L1) ++ ['_', '_'] ∧
        y = '_' :: ((natDigits i ++ ['_', '_']) ++ renderM L2) := by
  induction L with
  | nil =>
    intro p hfree x y h
    simp only [renderM, List.append_nil] at h
    simp only [renderO, List.append_nil] at hfree
    rw [rnphFree_iff] at hfree
    exact absurd h (hfree x y)
  | cons seg L' ih =>
    intro p hfree x y h
    cases seg with
    | plain c =>
      simp only [renderM, renderO] at h hfree
      have h' : (p ++ [c]) ++ renderM L' = x ++ (rnAnchor ++ y) := by
        rw [← h]; simp
      have hfree' : rnphFree ((p ++ [c]) ++ renderO L') := by
        have : p ++ (c :: renderO L') = (p ++ [c]) ++ renderO L' := by simp
        rwa [this] at hfree
      obtain ⟨L1, i, m, L2, hL, hx, hy⟩ := ih (p ++ [c]) hfree' x y h'
      refine ⟨.plain c :: L1, i, m, L2, by rw [hL]; rfl, ?_, hy⟩
      rw [hx]
      simp [renderM]
    | ph j mj =>
      simp only [renderM, renderO] at h hfree
      rcases List.append_eq_append_iff.mp h with ⟨x2, hx2, h2⟩ | ⟨p2, hp2, h2⟩
      · -- the occurrence starts at or after this token
        rcases token_anchor_cases h2 with ⟨hxa, hya⟩ | ⟨x9, hx9, hM⟩
        · refine ⟨[], j, mj, L', by simp, ?_, ?_⟩
          · rw [hx2, hxa]
            simp [renderM]
          · exact hya
        · have hfreeL' : rnphFree ([] ++ renderO L') := by
            simp only [List.nil_append]
            exact rnphFree_append_right (rnphFree_append_right hfree)
          obtain ⟨L1, i, m, L2, hL, hx, hy⟩ := ih [] hfreeL' x9 y hM
          refine ⟨.ph j mj :: L1, i, m, L2, by rw [hL]; rfl, ?_, hy⟩
          rw [hx2, hx9, hx]
          simp [renderM]
      · -- the occurrence begins inside `p`
        rcases List.append_eq_append_iff.mp h2.symm with ⟨w, hw, hzw⟩ |
          ⟨w, hw, hyw⟩
        swap
        · have hfp : rnphFree p := rnphFree_append_left hfree
          rw [rnphFree_iff] at hfp
          exact absurd (by rw [hp2, hw]) (hfp x w)
        · cases w with
          | nil =>
            have hp2rn : p2 = rnAnchor := by simpa using hw.symm
            have hfp : rnphFree p := rnphFree_append_left hfree
            rw [rnphFree_iff] at hfp
            refine absurd ?_ (hfp x [])
            rw [hp2, hp2rn]
            simp
          | cons d w2 =>
            have hd := rn_suffix_head hw
            have h0 : '_' = d := by
              have h1 : tokenChars j ++ renderM L' = d :: (w2 ++ y) := by
                rw [hzw]; rfl
              rw [tokenChars_eq] at h1
              exact (List.cons.inj h1).1
            rcases hd with rfl | rfl | rfl | rfl <;> exact absurd h0 (by decide)

theorem digits_match {d1 d2 r1 r2 : List Char}
    (h1 : ∀ c ∈ d1, isDigitCh c) (h2 : ∀ c ∈ d2, isDigitCh c)
    (h : d1 ++ ('_' :: r1) = d2 ++ ('_' :: r2)) : d1 = d2 ∧ r1 = r2 := by
  induction d1 generalizing d2 with
  | nil =>
    cases d2 with
    | nil => simpa using h
    | cons c d2' =>
      simp only [List.nil_append, List.cons_append] at h
      have := (List.cons.inj h).1
      exact absurd this.symm
        (isDigitCh_ne_underscore (h2 c (List.mem_cons_self c d2')))
  | cons c d1' ih =>
    cases d2 with
    | nil =>
      simp only [List.nil_append, List.cons_append] at h
      have := (List.cons.inj h).1
      exact absurd this
        (isDigitCh_ne_underscore (h1 c (List.mem_cons_self c d1')))
    | cons c2 d2' =>
      simp only [List.cons_append] at h
      obtain ⟨hc, h'⟩ := List.cons.inj h
      obtain ⟨hd, hr⟩ := ih (fun z hz => h1 z (List.mem_cons_of_mem c hz))
        (fun z hz => h2 z (List.mem_cons_of_mem c2 hz)) h'
      exact ⟨by rw [hc, hd], hr⟩

/-- An occurrence of the token `__RNPH_<j>__` inside a masked rendering of
an `RNPH`-free original can only be one of the emitted tokens. -/
theorem token_occ {L : List Seg} {p a b : List Char} {j : Nat}
    (hfree : rnphFree (p ++ renderO L))
    (h : p ++ renderM L = a ++ (tokenChars j ++ b)) :
    ∃ L1 m L2, L = L1 ++ (Seg.ph j m :: L2) ∧
      a = p ++ renderM L1 ∧ b = renderM L2 := by
  have h' : p ++ renderM L =
      (a ++ ['_', '_']) ++
        (rnAnchor ++ ('_' :: ((natDigits j ++ ['_', '_']) ++ b))) := by
    rw [h, tokenChars_eq]
    simp [rnAnchor]
  obtain ⟨L1, i, m, L2, hL, hx, hy⟩ := struct_rn L p hfree _ _ h'
  have ha : a = p ++ renderM L1 := List.append_cancel_right hx
  have hy' : natDigits j ++ ('_' :: ('_' :: b)) =
      natDigits i ++ ('_' :: ('_' :: renderM L2)) := by
    have := (List.cons.inj hy).2
    simpa using this
  obtain ⟨hdj, hrest⟩ :=
    digits_match (natDigits_digits j) (natDigits_digits i) hy'
  have hij : j = i := natDigits_inj hdj
  have hb : b = renderM L2 := by
    have := (List.cons.inj hrest).2
    exact this
  exact ⟨L1, m, L2, by rw [hL, hij], ha, hb⟩

/-- Placeholder indices appear in strictly increasing order from `k`. -/
def segOrd : List Seg → Nat → Prop
  | [], _ => True
  | .plain _ :: L, k => segOrd L k
  | .ph i _ :: L, k => k ≤ i ∧ segOrd L (i + 1)

theorem segOrd_ge {L : List Seg} {k : Nat} (h : segOrd L k) :
    ∀ i m, Seg.ph i m ∈ L → k ≤ i := by
  induction L generalizing k with
  | nil => intro i m hm; simp at hm
  | cons seg L' ih =>
    intro i m hm
    cases seg with
    | plain c =>
      simp only [segOrd] at h
      rcases List.mem_cons.mp hm with heq | hm2
      · exact absurd heq (by simp)
      · exact ih h i m hm2
    | ph i2 m2 =>
      simp only [segOrd] at h
      rcases List.mem_cons.mp hm with heq | hm2
      · obtain ⟨he1, -⟩ := Seg.ph.inj heq
        rw [he1]
        exact h.1
      · exact le_trans (le_trans h.1 (Nat.le_succ i2)) (ih h.2 i m hm2)

theorem maskScan_segOrd (n : Nat) :
    ∀ (s : List Char) (k : Nat), s.length ≤ n → segOrd (maskScan s k) k := by
  induction n with
  | zero =>
    intro s k hlen
    have : s = [] := List.length_eq_zero.mp (Nat.le_zero.mp hlen)
    subst this
    rw [maskScan_nil]
    trivial
  | succ n ih =>
    intro s k hlen
    cases s with
    | nil => rw [maskScan_nil]; trivial
    | cons c tl =>
      cases hm : matchPlaceholder (c :: tl) with
      | none =>
        rw [maskScan_cons_none k hm]
        simp only [segOrd]
        exact ih tl k (by simp only [List.length_cons] at hlen; omega)
      | some mr =>
        rw [maskScan_cons_some k hm]
        refine ⟨le_refl k, ?_⟩
        have hlt : mr.2.length ≤ n := by
          have := matchPlaceholder_len hm
          simp only [List.length_cons] at this hlen
          omega
        exact ih mr.2 (k + 1) hlt

/-- Folding the replacements over the token mapping restores the original
rendering, for any `RNPH`-free context `p` and original. -/
theorem restore_renderM (L : List Seg) :
    ∀ (p : List Char) (k : Nat), segOrd L k → rnphFree (p ++ renderO L) →
      (segTokens L).foldl
          (fun acc q => listReplace acc (tokenChars q.1) q.2)
          (p ++ renderM L) = p ++ renderO L := by
  induction L with
  | nil =>
    intro p k _ _
    simp [segTokens, renderM, renderO]
  | cons seg L' ih =>
    intro p k hord hfree
    cases seg with
    | plain c =>
      simp only [segTokens, renderM, renderO, segOrd] at hord hfree ⊢
      have := ih (p ++ [c]) k hord (by simpa using hfree)
      simpa using this
    | ph i m =>
      simp only [segTokens, renderM, renderO, segOrd] at hord hfree ⊢
      simp only [List.foldl_cons]
      have hstep :
          listReplace (p ++ (tokenChars i ++ renderM L')) (tokenChars i) m =
            p ++ (m ++ renderM L') := by
        refine listReplace_split (by rw [tokenChars_eq]; simp) ?_ ?_
        · intro a b hab
          have hfree' : rnphFree (p ++ renderO (Seg.ph i m :: L')) := by
            simpa [renderO] using hfree
          obtain ⟨L1, m1, L2, -, ha, -⟩ :=
            @token_occ (Seg.ph i m :: L') _ _ _ _ hfree'
              (by simpa [renderM] using hab)
          rw [ha]
          simp
        · intro a b hab
          have hfreeL' : rnphFree ([] ++ renderO L') := by
            simp only [List.nil_append]
            exact rnphFree_append_right (rnphFree_append_right hfree)
          obtain ⟨L1, m1, L2, hL, -, -⟩ :=
            @token_occ L' [] _ _ _ hfreeL' (by simpa using hab)
          have hmem : Seg.ph i m1 ∈ L' := by
            rw [hL]
            exact List.mem_append_right _ (List.mem_cons_self _ _)
          have := segOrd_ge hord.2 i m1 hmem
          omega
      rw [hstep]
      have h2 : p ++ (m ++ renderM L') = (p ++ m) ++ renderM L' := by simp
      have h3 : (p ++ m) ++ renderO L' = p ++ (m ++ renderO L') := by simp
      rw [h2, ← h3]
      exact ih (p ++ m) (i + 1) hord.2
        (by rw [h3]; simpa [renderO] using hfree)

/-- C1: placeholder codec round trip.  As stated the claim fails: an input
that itself contains `RNPH` (e.g. a literal `__RNPH_0__` before a real
placeholder) collides with the synthetic tokens and is corrupted.  Amended
form proved here: for every input with no occurrence of `RNPH`,
`restore_placeholders` applied to the output of `mask_placeholders`
reproduces the input exactly, for zero, one, or many placeholder matches. -/
theorem mask_restore_round_trip (t : List Char)
    (h : containsSub t rnAnchor = false) :
    restore_placeholders (mask_placeholders t).1 (mask_placeholders t).2 =
      t := by
  have hfree : rnphFree ([] ++ renderO (maskScan t 0)) := by
    simp only [List.nil_append]
    rw [renderO_maskScan]
    exact h
  have hmain := restore_renderM (maskScan t 0) [] 0
    (maskScan_segOrd t.length t 0 le_rfl) hfree
  simp only [List.nil_append, renderO_maskScan] at hmain
  simpa only [mask_placeholders, restore_placeholders] using hmain

/-- The claim's unrestricted round trip fails on an input that already
contains a synthetic token: `__RNPH_0__[a]` masks to `__RNPH_0____RNPH_0__`
and restores to `[a][a]`. -/
theorem mask_restore_claim_cex :
    restore_placeholders (mask_placeholders "__RNPH_0__[a]".toList).1
        (mask_placeholders "__RNPH_0__[a]".toList).2 ≠
      "__RNPH_0__[a]".toList := by
  have hd0 : natDigits 0 = ['0'] := by rw [natDigits]; decide
  have htok : tokenChars 0 = "__RNPH_0__".toList := by
    rw [tokenChars_eq, hd0]
    rfl
  have hscan : maskScan "__RNPH_0__[a]".toList 0 =
      [.plain '_', .plain '_', .plain 'R', .plain 'N', .plain 'P', .plain 'H',
       .plain '_', .plain '0', .plain '_', .plain '_',
       .ph 0 ('[' :: 'a' :: ']' :: [])] := by
    rw [show "__RNPH_0__[a]".toList =
        '_' :: '_' :: 'R' :: 'N' :: 'P' :: 'H' :: '_' :: '0' :: '_' :: '_' ::
          '[' :: 'a' :: ']' :: [] from rfl]
    rw [maskScan_cons_none 0
      (rfl : matchPlaceholder ('_' :: '_' :: 'R' :: 'N' :: 'P' :: 'H' :: '_' :: '0' :: '_' :: '_' :: '[' :: 'a' :: ']' :: []) = none)]
    rw [maskScan_cons_none 0
      (rfl : matchPlaceholder ('_' :: 'R' :: 'N' :: 'P' :: 'H' :: '_' :: '0' :: '_' :: '_' :: '[' :: 'a' :: ']' :: []) = none)]
    rw [maskScan_cons_none 0
      (rfl : matchPlaceholder ('R' :: 'N' :: 'P' :: 'H' :: '_' :: '0' :: '_' :: '_' :: '[' :: 'a' :: ']' :: []) = none)]
    rw [maskScan_cons_none 0
      (rfl : matchPlaceholder ('N' :: 'P' :: 'H' :: '_' :: '0' :: '_' :: '_' :: '[' :: 'a' :: ']' :: []) = none)]
    rw [maskScan_cons_none 0
      (rfl : matchPlaceholder ('P' :: 'H' :: '_' :: '0' :: '_' :: '_' :: '[' :: 'a' :: ']' :: []) = none)]
    rw [maskScan_cons_none 0
      (rfl : matchPlaceholder ('H' :: '_' :: '0' :: '_' :: '_' :: '[' :: 'a' :: ']' :: []) = none)]
    rw [maskScan_cons_none 0
      (rfl : matchPlaceholder ('_' :: '0' :: '_' :: '_' :: '[' :: 'a' :: ']' :: []) = none)]
    rw [maskScan_cons_none 0
      (rfl : matchPlaceholder ('0' :: '_' :: '_' :: '[' :: 'a' :: ']' :: []) = none)]
    rw [maskScan_cons_none 0
      (rfl : matchPlaceholder ('_' :: '_' :: '[' :: 'a' :: ']' :: []) = none)]
    rw [maskScan_cons_none 0
      (rfl : matchPlaceholder ('_' :: '[' :: 'a' :: ']' :: []) = none)]
    rw [maskScan_cons_some 0
        (rfl :
          matchPlaceholder ('[' :: 'a' :: ']' :: []) =
            some ('[' :: 'a' :: ']' :: [], [])),
      maskScan_nil]
    decide
  have heval : listReplace "__RNPH_0____RNPH_0__".toList
      "__RNPH_0__".toList "[a]".toList = "[a][a]".toList := by
    rw [listReplace_pos _ _ _ (by decide) (by decide)]
    have h1 : ("__RNPH_0____RNPH_0__".toList).drop
        ("__RNPH_0__".toList).length = "__RNPH_0__".toList := by decide
    rw [h1]
    rw [listReplace_pos _ _ _ (by decide) (by decide)]
    have h2 : ("__RNPH_0__".toList).drop ("__RNPH_0__".toList).length =
        ([] : List Char) := by decide
    rw [h2, listReplace_nil]
    decide
  have hmask1 : (mask_placeholders "__RNPH_0__[a]".toList).1 =
      "__RNPH_0____RNPH_0__".toList := by
    simp only [mask_placeholders, hscan, renderM, htok]
    decide
  have hmask2 : (mask_placeholders "__RNPH_0__[a]".toList).2 =
      [(0, "[a]".toList)] := by
    simp only [mask_placeholders, hscan, segTokens]
    decide
  have hrest : restore_placeholders "__RNPH_0____RNPH_0__".toList
      [(0, "[a]".toList)] = "[a][a]".toList := by
    simp only [restore_placeholders, List.foldl_cons, List.foldl_nil, htok]
    exact heval
  rw [hmask1, hmask2, hrest]
  decide

theorem mask_restore_round_trip_witness :
    containsSub "Hello [who], {b}50%% \\n done".toList rnAnchor = false ∧
    restore_placeholders
        (mask_placeholders "Hello [who], {b}50%% \\n done".toList).1
        (mask_placeholders "Hello [who], {b}50%% \\n done".toList).2 =
      "Hello [who], {b}50%% \\n done".toList :=
  ⟨by decide,
    mask_restore_round_trip "Hello [who], {b}50%% \\n done".toList
      (by decide)⟩

/-! ## C7: `apply_translations_to_file` -/

/-- Python string `<` (code-point lexicographic). -/
def strLt : List Char → List Char → Bool
  | [], [] => false
  | [], _ :: _ => true
  | _ :: _, [] => false
  | a :: as, b :: bs =>
    if a.val < b.val then true
    else if a.val = b.val then strLt as bs else false

def insertLe (x : List Char) : List (List Char) → List (List Char)
  | [] => [x]
  | y :: ys => if strLt y x then y :: insertLe x ys else x :: y :: ys

/-- `sorted(set(...))`. -/
def sortedUnique (xs : List (List Char)) : List (List Char) :=
  xs.eraseDups.foldr insertLe []

/-- `dict.get`. -/
def mapGet (m : List (List Char × List Char)) (k : List Char) :
    Option (List Char) :=
  match m with
  | [] => none
  | (k2, v) :: rest => if k2 = k then some v else mapGet rest k

/-- `FileStats` (source lines 1206–1213). -/
structure FileStats where
  translated : Nat
  skipped : Nat
  failed : Nat
  deferred : Nat
  quota_exceeded : Bool
  changed : Bool
deriving DecidableEq, Repr

def emptyStats : FileStats := ⟨0, 0, 0, 0, false, false⟩

/-- The line-ending probe of the rewrite loop (`endswith` tests). -/
def lineEnding (old_line : List Char) : List Char :=
  if boolSuf old_line ['\r', '\n'] then ['\r', '\n']
  else if boolSuf old_line ['\n'] then ['\n'] else []

/-- One iteration of the rewrite loop of `apply_translations_to_file`
(source lines 1241–1261). -/
def applyJob (lines : List (List Char)) (stats : FileStats)
    (tm : List (List Char × List Char)) (job : LineJob) :
    List (List Char) × FileStats :=
  match mapGet tm job.source_text with
  | none => (lines, { stats with deferred := stats.deferred + 1 })
  | some translated =>
    let escaped := escape_renpy_string translated
    let old_line := lines.getD job.line_index []
    let ending := lineEnding old_line
    let new_line := job.pre ++ '"' :: (escaped ++ '"' :: (job.suf ++ ending))
    if new_line = old_line then
      (lines, { stats with skipped := stats.skipped + 1 })
    else
      (lines.set job.line_index new_line,
        { stats with translated := stats.translated + 1, changed := true })

/-- `apply_translations_to_file` (source lines 1216–1266) with file IO
made explicit: input lines with endings in, final lines and stats out;
`translate_unique_texts` abstracted as the function `tr` from the sorted
unique sources to a translation map and a quota flag.  The file is
written back iff the returned `changed` flag is set. -/
def apply_translations_to_file (lines : List (List Char))
    (tr : List (List Char) → List (List Char × List Char) × Bool)
    (overwrite : Bool) (max_lines : Int) :
    List (List Char) × FileStats :=
  let jobs0 := collect_line_jobs lines overwrite
  if jobs0.isEmpty then (lines, emptyStats)
  else
    let jobs := if max_lines > 0 then jobs0.take max_lines.toNat else jobs0
    let res := tr (sortedUnique (jobs.map (fun j => j.source_text)))
    jobs.foldl (fun acc job => applyJob acc.1 acc.2 res.1 job)
      (lines, { emptyStats with quota_exceeded := res.2 })

theorem collectAux_overwrite_filter (lines : List (List Char)) :
    ∀ (i : Nat) (po pc : Option (List Char)),
      collectAux false lines i po pc =
        (collectAux true lines i po pc).filter
          (fun j => decide (j.current_text = j.source_text) ||
            has_temp_placeholders j.current_text) := by
  induction lines with
  | nil => intro i po pc; simp [collectAux]
  | cons raw rest ih =>
    intro i po pc
    cases hc : matchCommentSayLine (rstripCRLF raw) with
    | some txt =>
      simp only [collectAux, hc]
      exact ih _ _ _
    | none =>
      cases ho : matchOldLine (rstripCRLF raw) with
      | some m =>
        simp only [collectAux, hc, ho]
        exact ih _ _ _
      | none =>
        cases hn : matchNewLine (rstripCRLF raw) with
        | some m =>
          simp only [collectAux, hc, ho, hn]
          rw [if_pos (show (true || decide (m.2.1 = po.getD m.2.1) ||
              has_temp_placeholders m.2.1) = true by simp)]
          rw [List.filter_cons]
          by_cases hcond : (decide (m.2.1 = po.getD m.2.1) ||
              has_temp_placeholders m.2.1) = true
          · rw [if_pos (by simpa using hcond), if_pos (by simpa using hcond)]
            rw [ih]
          · rw [if_neg (by simpa using hcond), if_neg (by simpa using hcond)]
            exact ih _ _ _
        | none =>
          cases hs : (if lstripStartsHash (rstripCRLF raw) then none
              else matchSayLine (rstripCRLF raw)) with
          | some m =>
            simp only [collectAux, hc, ho, hn, hs]
            rw [if_pos (show (true || decide (m.2.1 = pc.getD m.2.1) ||
                has_temp_placeholders m.2.1) = true by simp)]
            rw [List.filter_cons]
            by_cases hcond : (decide (m.2.1 = pc.getD m.2.1) ||
                has_temp_placeholders m.2.1) = true
            · rw [if_pos (by simpa using hcond), if_pos (by simpa using hcond)]
              rw [ih]
            · rw [if_neg (by simpa using hcond), if_neg (by simpa using hcond)]
              exact ih _ _ _
          | none =>
            simp only [collectAux, hc, ho, hn, hs]
            by_cases hb : (!(pyStrip (rstripCRLF raw)).isEmpty &&
                !lstripStartsHash (rstripCRLF raw)) = true
            · rw [if_pos hb, if_pos hb]
              exact ih _ _ _
            · rw [if_neg hb, if_neg hb]
              exact ih _ _ _

/-- C7: idempotence of the orchestrator.  Part 1: when every job the
scanner would extract in overwrite mode has a current text that differs
from its source and carries no `__RNPH_<n>__` token, a resume-mode run
(`overwrite = false`) finds no jobs, changes no line, reports empty
stats (`changed = false`, so the file is not written), and never calls
the translation layer.  Part 2: in general, a job whose reconstructed
line — prefix, quoted escaped translation, suffix, original ending —
equals the stored line is counted as skipped and leaves every line
unchanged. -/
theorem apply_translations_idempotent :
    (∀ (lines : List (List Char))
        (tr : List (List Char) → List (List Char × List Char) × Bool)
        (ml : Int),
      (∀ j ∈ collect_line_jobs lines true,
          j.current_text ≠ j.source_text ∧
          has_temp_placeholders j.current_text = false) →
      apply_translations_to_file lines tr false ml = (lines, emptyStats)) ∧
    (∀ (lines : List (List Char)) (stats : FileStats)
        (tm : List (List Char × List Char)) (job : LineJob)
        (translated : List Char),
      mapGet tm job.source_text = some translated →
      job.pre ++ '"' :: (escape_renpy_string translated ++ '"' ::
          (job.suf ++ lineEnding (lines.getD job.line_index []))) =
        lines.getD job.line_index [] →
      applyJob lines stats tm job =
        (lines, { stats with skipped := stats.skipped + 1 })) := by
  constructor
  · intro lines tr ml hfull
    have hnil : collect_line_jobs lines false = [] := by
      rw [collect_line_jobs, collectAux_overwrite_filter lines 0 none none]
      rw [List.filter_eq_nil_iff]
      intro j hj
      obtain ⟨hne, hnt⟩ := hfull j hj
      simp [hne, hnt]
    simp [apply_translations_to_file, hnil]
  · intro lines stats tm job translated hget hrecon
    simp only [applyJob, hget]
    rw [if_pos hrecon]

theorem apply_translations_idempotent_witness :
    (∀ j ∈ collect_line_jobs
        ["old \"A\"\n".toList, "new \"B\"\n".toList] true,
        j.current_text ≠ j.source_text ∧
        has_temp_placeholders j.current_text = false) ∧
    apply_translations_to_file
        ["old \"A\"\n".toList, "new \"B\"\n".toList]
        (fun _ => ([], false)) false 0 =
      (["old \"A\"\n".toList, "new \"B\"\n".toList], emptyStats) ∧
    applyJob ["--\"".toList ++ escape_renpy_string ['t'] ++ "\"!".toList]
        emptyStats [(['s'], ['t'])] ⟨0, "--".toList, ['!'], ['s'], ['c']⟩ =
      (["--\"".toList ++ escape_renpy_string ['t'] ++ "\"!".toList],
        { emptyStats with skipped := emptyStats.skipped + 1 }) := by
  refine ⟨by decide, ?_, ?_⟩
  · exact apply_translations_idempotent.1
      ["old \"A\"\n".toList, "new \"B\"\n".toList]
      (fun _ => ([], false)) 0 (by decide)
  · exact apply_translations_idempotent.2
      ["--\"".toList ++ escape_renpy_string ['t'] ++ "\"!".toList]
      emptyStats [(['s'], ['t'])] ⟨0, "--".toList, ['!'], ['s'], ['c']⟩ ['t']
      rfl (by simp [lineEnding, boolSuf, boolPre])

/-! ## C8: quota handling -/

/-- One backend response: the parsed `translations` texts of a successful
form POST, or the message of the exception the attempt raised. -/
inductive DResp where
  | ok (translations : List (List Char))
  | err (message : List Char)

/-- Outcome of `DeepLTranslator.translate_batch`: normal return,
`QuotaExceededError`, or the final `RuntimeError` after all retries. -/
inductive BatchOutcome where
  | success (result : List (List Char))
  | quota (message : List Char)
  | failure (message : List Char)

/-- The quota test of the `except` handler (source lines 968–970). -/
def isQuotaMessage (message : List Char) : Bool :=
  containsSub message "HTTP 456".toList ||
    containsSub message "Quota exceeded".toList

/-- The length-mismatch `RuntimeError` message (source lines 963–966). -/
def lengthErrMsg (expected got : Nat) : List Char :=
  "Expected ".toList ++ natDigits expected ++
    " translations, got ".toList ++ natDigits got ++ ['.']

/-- The retry loop of `DeepLTranslator.translate_batch` (source lines
938–974): `fuel` attempts remain, `attempt` numbers the next request,
`resp` is the backend; returns the outcome and the number of requests
issued. -/
def translate_batch_deepl (resp : Nat → DResp) (texts : List (List Char)) :
    Nat → Nat → Option (List Char) → BatchOutcome × Nat
  | 0, _, last_err =>
    (.failure ("DeepL translation failed: ".toList ++
      (last_err.getD "None".toList)), 0)
  | fuel + 1, attempt, _ =>
    match resp attempt with
    | .ok tr =>
      if tr.length = texts.length then (.success tr, 1)
      else
        let message := lengthErrMsg texts.length tr.length
        if isQuotaMessage message then (.quota message, 1)
        else
          let rec2 := translate_batch_deepl resp texts fuel (attempt + 1)
            (some message)
          (rec2.1, rec2.2 + 1)
    | .err message =>
      if isQuotaMessage message then (.quota message, 1)
      else
        let rec2 := translate_batch_deepl resp texts fuel (attempt + 1)
          (some message)
        (rec2.1, rec2.2 + 1)

/-- State threaded through `translate_unique_texts`: the results map, the
quota flag, and counters for backend requests and `cache.save()` calls. -/
structure RunState where
  results : List (List Char × List Char)
  quota_hit : Bool
  requests : Nat
  saves : Nat
deriving DecidableEq, Repr

/-- Python dict assignment on an association list. -/
def mapSet (m : List (List Char × List Char)) (k v : List Char) :
    List (List Char × List Char) :=
  match m with
  | [] => [(k, v)]
  | (k2, v2) :: rest =>
    if k2 = k then (k, v) :: rest else (k2, v2) :: mapSet rest k v

/-- `translated_result[:len(batch)]` written into the `None`-initialised
slot list. -/
def tmOf (res : List (List Char)) (n : Nat) : List (Option (List Char)) :=
  (res.take n).map some ++ List.replicate (n - res.length) none

/-- The application loop (source lines 1181–1194): restore placeholders,
strip, fall back to the original on empty or token-carrying results,
record into the map and the cache. -/
def applyResults (results : List (List Char × List Char)) :
    List (List Char × Option (List Char)) → List (List Char × List Char)
  | [] => results
  | (_, none) :: rest => applyResults results rest
  | (original, some item) :: rest =>
    let restored0 := pyStrip (restore_placeholders item
      (mask_placeholders original).2)
    let r1 := if restored0.isEmpty then original else restored0
    let r2 := if has_temp_placeholders r1 then original else r1
    applyResults (mapSet results original r2) rest

/-- The fallback single-request loop (source lines 1168–1179): returns
the updated slots, whether quota was hit, and the requests issued. -/
def fallbackSingles (tb : List (List Char) → BatchOutcome) :
    List (List Char) → List (Option (List Char)) × Bool × Nat
  | [] => ([], false, 0)
  | single :: rest =>
    match tb [single] with
    | .success sr =>
      let r := fallbackSingles tb rest
      (((if sr.isEmpty then none else some (sr.headD [])) :: r.1), r.2.1,
        r.2.2 + 1)
    | .quota _ =>
      (none :: rest.map (fun _ => none), true, 1)
    | .failure _ =>
      let r := fallbackSingles tb rest
      (none :: r.1, r.2.1, r.2.2 + 1)

/-- One iteration of the batch loop of `translate_unique_texts` (source
lines 1149–1200); the returned flag is the `break`. -/
def batchStep (tb : List (List Char) → BatchOutcome) (st : RunState)
    (batch : List (List Char)) : RunState × Bool :=
  let masked_batch := batch.map (fun t => (mask_placeholders t).1)
  match tb masked_batch with
  | .quota _ =>
    ({ st with
        quota_hit := true
        requests := st.requests + 1
        saves := st.saves + 1 }, true)
  | .success res =>
    let tm := tmOf res batch.length
    let results := applyResults st.results (batch.zip tm)
    ({ st with
        results := results
        requests := st.requests + 1
        saves := st.saves + 1 }, st.quota_hit)
  | .failure _ =>
    let fb := fallbackSingles tb masked_batch
    let qh := st.quota_hit || fb.2.1
    let results := applyResults st.results (batch.zip fb.1)
    ({ st with
        results := results
        quota_hit := qh
        requests := st.requests + 1 + fb.2.2
        saves := st.saves + 1 }, qh)

def runBatches (tb : List (List Char) → BatchOutcome) :
    List (List (List Char)) → RunState → RunState
  | [], st => st
  | b :: bs, st =>
    let r := batchStep tb st b
    if r.2 then r.1 else runBatches tb bs r.1

/-- `chunked(items, size)` (source lines 1121–1122). -/
def chunked (items : List (List Char)) (size : Nat) :
    List (List (List Char)) :=
  if items = [] ∨ size = 0 then []
  else items.take size :: chunked (items.drop size) size
termination_by items.length
decreasing_by
  rename_i h
  push_neg at h
  cases items with
  | nil => exact absurd rfl h.1
  | cons a tl => simp [List.length_drop]; omega

/-- `translate_unique_texts` (source lines 1125–1203): the cache pre-pass
feeds `results`, uncached texts are batched and run; `cached` is
`cache.get` with the run's provider key applied. -/
def translate_unique_texts (tb : List (List Char) → BatchOutcome)
    (cached : List Char → Option (List Char)) (batch_size : Nat)
    (unique_texts : List (List Char)) : RunState :=
  let results := unique_texts.foldl
    (fun acc t => match cached t with
      | some c => mapSet acc t c
      | none => acc) []
  let pending := unique_texts.filter (fun t => (cached t).isNone)
  if pending.isEmpty then ⟨results, false, 0, 0⟩
  else runBatches tb (chunked pending batch_size) ⟨results, false, 0, 0⟩

/-- C8: quota handling.  Part 1: when an attempt of
`DeepLTranslator.translate_batch` raises with a message containing
`HTTP 456` or `Quota exceeded`, the loop re-raises `QuotaExceededError`
at once — exactly one request is issued, whatever retry budget remains.
Part 2: when the batch loop of `translate_unique_texts` catches
`QuotaExceededError`, it stops: exactly one further request was issued,
the cache is saved once more, the quota flag is set, and the results map
— every translation resolved by earlier batches and the cache pre-pass —
is returned unchanged, with all remaining batches left unprocessed. -/
theorem quota_handling :
    (∀ (resp : Nat → DResp) (texts : List (List Char)) (fuel attempt : Nat)
        (last : Option (List Char)) (msg : List Char),
      resp attempt = .err msg → isQuotaMessage msg = true →
      translate_batch_deepl resp texts (fuel + 1) attempt last =
        (.quota msg, 1)) ∧
    (∀ (tb : List (List Char) → BatchOutcome) (b : List (List Char))
        (rest : List (List (List Char))) (st : RunState) (msg : List Char),
      tb (b.map (fun t => (mask_placeholders t).1)) = .quota msg →
      runBatches tb (b :: rest) st =
        { st with
            quota_hit := true
            requests := st.requests + 1
            saves := st.saves + 1 }) := by
  constructor
  · intro resp texts fuel attempt last msg hresp hq
    simp [translate_batch_deepl, hresp, hq]
  · intro tb b rest st msg htb
    simp [runBatches, batchStep, htb]

theorem quota_handling_witness :
    translate_batch_deepl (fun _ => .err "HTTP 456 from u: x".toList)
        [['x']] 3 1 none = (.quota "HTTP 456 from u: x".toList, 1) ∧
    runBatches (fun _ => .quota ['q']) [[['a']], [['b']]]
        ⟨[(['s'], ['t'])], false, 2, 1⟩ = ⟨[(['s'], ['t'])], true, 3, 2⟩ := by
  constructor
  · exact quota_handling.1 (fun _ => .err "HTTP 456 from u: x".toList)
      [['x']] 2 1 none "HTTP 456 from u: x".toList rfl (by decide)
  · exact quota_handling.2 (fun _ => .quota ['q']) [['a']] [[['b']]]
      ⟨[(['s'], ['t'])], false, 2, 1⟩ ['q'] rfl

/-! ## C6: `extract_first_json_array`

The `json` standard library is embedded: a strict recursive-descent
parser (`json.loads` / `JSONDecoder.raw_decode` semantics — strings with
escapes and `\uXXXX`, arrays, objects, numbers, constants, no trailing
commas, control characters rejected inside strings), then the extraction
pipeline of source lines 667–769. -/

inductive JVal where
  | str (s : List Char)
  | num (raw : List Char)
  | bool (b : Bool)
  | null
  | arr (xs : List JVal)
  | obj (kvs : List (List Char × JVal))
deriving BEq, Repr

/-- JSON inter-token whitespace. -/
def isJsonWs (c : Char) : Bool :=
  c = ' ' || c = '\t' || c = '\n' || c = '\r'

def skipWs (s : List Char) : List Char := s.dropWhile isJsonWs

def hexVal (c : Char) : Option Nat :=
  if '0' ≤ c ∧ c ≤ '9' then some (c.toNat - 48)
  else if 'a' ≤ c ∧ c ≤ 'f' then some (c.toNat - 87)
  else if 'A' ≤ c ∧ c ≤ 'F' then some (c.toNat - 55)
  else none

/-- The body of a JSON string, after the opening quote: strict — raw
control characters are rejected, escapes decoded, surrogate pairs
combined. -/
def parseStringBody : Nat → List Char → Option (List Char × List Char)
  | 0, _ => none
  | _ + 1, [] => none
  | fuel + 1, c :: r =>
    if c = '"' then some ([], r)
    else if c = '\\' then
      match r with
      | [] => none
      | e :: r2 =>
        if e = 'u' then
          match r2 with
          | h1 :: h2 :: h3 :: h4 :: r3 =>
            match hexVal h1, hexVal h2, hexVal h3, hexVal h4 with
            | some a, some b, some c2, some d =>
              let n := ((a * 16 + b) * 16 + c2) * 16 + d
              if 0xD800 ≤ n ∧ n < 0xDC00 then
                match r3 with
                | '\\' :: 'u' :: g1 :: g2 :: g3 :: g4 :: r4 =>
                  match hexVal g1, hexVal g2, hexVal g3, hexVal g4 with
                  | some a2, some b2, some c3, some d2 =>
                    let n2 := ((a2 * 16 + b2) * 16 + c3) * 16 + d2
                    if 0xDC00 ≤ n2 ∧ n2 < 0xE000 then
                      (parseStringBody fuel r4).map (fun p =>
                        (Char.ofNat (0x10000 + (n - 0xD800) * 0x400 +
                          (n2 - 0xDC00)) :: p.1, p.2))
                    else
                      (parseStringBody fuel r3).map (fun p =>
                        (Char.ofNat n :: p.1, p.2))
                  | _, _, _, _ =>
                    (parseStringBody fuel r3).map (fun p =>
                      (Char.ofNat n :: p.1, p.2))
                | _ =>
                  (parseStringBody fuel r3).map (fun p =>
                    (Char.ofNat n :: p.1, p.2))
              else
                (parseStringBody fuel r3).map (fun p =>
                  (Char.ofNat n :: p.1, p.2))
            | _, _, _, _ => none
          | _ => none
        else
          match
            (if e = '"' then some '"'
             else if e = '\\' then some '\\'
             else if e = '/' then some '/'
             else if e = 'b' then some '\x08'
             else if e = 'f' then some '\x0C'
             else if e = 'n' then some '\n'
             else if e = 'r' then some '\x0D'
             else if e = 't' then some '\t' else none) with
          | some ch => (parseStringBody fuel r2).map (fun p => (ch :: p.1, p.2))
          | none => none
    else if c.toNat < 0x20 then none
    else (parseStringBody fuel r).map (fun p => (c :: p.1, p.2))

def isDigit (c : Char) : Bool := '0' ≤ c && c ≤ '9'

/-- `NUMBER_RE` of the json scanner:
`(-?(?:0|[1-9]\d*))(\.\d+)?([eE][-+]?\d+)?`; returns the raw match. -/
def parseNumber (s : List Char) : Option (List Char × List Char) :=
  let (neg, s1) :=
    match s with
    | '-' :: r => (['-'], r)
    | _ => (([] : List Char), s)
  match s1 with
  | [] => none
  | c :: r =>
    if c = '0' then
      let (frac, s2) := numFrac r
      let (ex, s3) := numExp s2
      some (neg ++ '0' :: (frac ++ ex), s3)
    else if isDigit c then
      let ds := r.takeWhile isDigit
      let r2 := r.drop ds.length
      let (frac, s2) := numFrac r2
      let (ex, s3) := numExp s2
      some (neg ++ c :: ds ++ frac ++ ex, s3)
    else none
where
  numFrac (s : List Char) : List Char × List Char :=
    match s with
    | '.' :: r =>
      let ds := r.takeWhile isDigit
      if ds.isEmpty then ([], s) else ('.' :: ds, r.drop ds.length)
    | _ => ([], s)
  numExp (s : List Char) : List Char × List Char :=
    match s with
    | e :: r =>
      if e = 'e' ∨ e = 'E' then
        let (sgn, r2) :=
          match r with
          | '+' :: r3 => (['+'], r3)
          | '-' :: r3 => (['-'], r3)
          | _ => (([] : List Char), r)
        let ds := r2.takeWhile isDigit
        if ds.isEmpty then ([], s) else (e :: sgn ++ ds, r2.drop ds.length)
      else ([], s)
    | [] => ([], s)

/-- Python dict assignment while building a parsed object. -/
def jset (m : List (List Char × JVal)) (k : List Char) (v : JVal) :
    List (List Char × JVal) :=
  match m with
  | [] => [(k, v)]
  | (k2, v2) :: rest =>
    if k2 = k then (k, v) :: rest else (k2, v2) :: jset rest k v

mutual

/-- `JSONDecoder.raw_decode` at one position: scan a single JSON value,
returning it and the unconsumed rest. -/
def parseValue : Nat → List Char → Option (JVal × List Char)
  | 0, _ => none
  | _ + 1, [] => none
  | fuel + 1, c :: r =>
    if c = '"' then
      (parseStringBody (fuel + 1) r).map (fun p => (.str p.1, p.2))
    else if c = '{' then parseObjBody fuel (skipWs r)
    else if c = '[' then parseArrBody fuel (skipWs r)
    else if boolPre "null".toList (c :: r) then
      some (.null, (c :: r).drop 4)
    else if boolPre "true".toList (c :: r) then
      some (.bool true, (c :: r).drop 4)
    else if boolPre "false".toList (c :: r) then
      some (.bool false, (c :: r).drop 5)
    else
      match parseNumber (c :: r) with
      | some (raw, rest) => some (.num raw, rest)
      | none =>
        if boolPre "NaN".toList (c :: r) then
          some (.num "NaN".toList, (c :: r).drop 3)
        else if boolPre "Infinity".toList (c :: r) then
          some (.num "Infinity".toList, (c :: r).drop 8)
        else if boolPre "-Infinity".toList (c :: r) then
          some (.num "-Infinity".toList, (c :: r).drop 9)
        else none

/-- Array elements after `[` and whitespace, when not `]`. -/
def parseElems (fuel : Nat) (s : List Char) :
    Option (List JVal × List Char) :=
  match fuel with
  | 0 => none
  | fuel + 1 =>
    match parseValue fuel s with
    | none => none
    | some (v, r) =>
      match skipWs r with
      | ']' :: r2 => some ([v], r2)
      | ',' :: r2 =>
        (parseElems fuel (skipWs r2)).map (fun p => (v :: p.1, p.2))
      | _ => none

def parseArrBody (fuel : Nat) (s : List Char) :
    Option (JVal × List Char) :=
  match s with
  | ']' :: r => some (.arr [], r)
  | _ => (parseElems fuel s).map (fun p => (.arr p.1, p.2))

/-- Object members after `{` and whitespace, when not `}`. -/
def parseMembers (fuel : Nat) (s : List Char) :
    Option (List (List Char × JVal) × List Char) :=
  match fuel with
  | 0 => none
  | fuel + 1 =>
    match s with
    | '"' :: r =>
      match parseStringBody fuel r with
      | none => none
      | some (k, r2) =>
        match skipWs r2 with
        | ':' :: r3 =>
          match parseValue fuel (skipWs r3) with
          | none => none
          | some (v, r4) =>
            match skipWs r4 with
            | '}' :: r5 => some ([(k, v)], r5)
            | ',' :: r5 =>
              (parseMembers fuel (skipWs r5)).map
                (fun p => ((k, v) :: p.1, p.2))
            | _ => none
        | _ => none
    | _ => none

def parseObjBody (fuel : Nat) (s : List Char) :
    Option (JVal × List Char) :=
  match s with
  | '}' :: r => some (.obj [], r)
  | _ =>
    (parseMembers fuel s).map
      (fun p => (.obj (p.1.foldl (fun m q => jset m q.1 q.2) []), p.2))

end

/-- `decoder.raw_decode(s)` with the value at position 0. -/
def rawDecode (s : List Char) : Option (JVal × List Char) :=
  parseValue (s.length + 1) s

/-- `json.loads`: a single value with only whitespace around it. -/
def jsonLoads (s : List Char) : Option JVal :=
  match parseValue (s.length + 1) (skipWs s) with
  | some (v, rest) => if skipWs rest = [] then some v else none
  | none => none

/-- `value.get(key)` on a parsed object. -/
def jget (m : List (List Char × JVal)) (k : List Char) : Option JVal :=
  match m with
  | [] => none
  | (k2, v) :: rest => if k2 = k then some v else jget rest k

def asStringList : List JVal → Option (List (List Char))
  | [] => some []
  | .str s :: rest => (asStringList rest).map (fun xs => s :: xs)
  | _ :: _ => none

/-- `extract_string_array` (source lines 667–675). -/
def extract_string_array (value : JVal) : Option (List (List Char)) :=
  match value with
  | .arr xs => asStringList xs
  | .obj kvs =>
    tryKeys kvs ["translations".toList, "texts".toList, "output".toList,
      "result".toList, "data".toList]
  | _ => none
where
  tryKeys (kvs : List (List Char × JVal)) :
      List (List Char) → Option (List (List Char))
    | [] => none
    | k :: rest =>
      match jget kvs k with
      | some (.arr xs) =>
        match asStringList xs with
        | some out => some out
        | none => tryKeys kvs rest
      | _ => tryKeys kvs rest

/-- `\s` of the `re` module (ASCII-relevant part). -/
def isReWs (c : Char) : Bool :=
  c = ' ' || c = '\t' || c = '\n' || c = '\r' || c = '\x0b' || c = '\x0c'

/-- One pass of `re.sub(r",\s*([\]}])", r"\1", s)`. -/
def commaFix : Nat → List Char → List Char
  | 0, s => s
  | _ + 1, [] => []
  | fuel + 1, c :: r =>
    if c = ',' then
      match r.drop (r.takeWhile isReWs).length with
      | b :: r2 =>
        if b = ']' ∨ b = '}' then b :: commaFix fuel r2
        else ',' :: commaFix fuel r
      | [] => ',' :: commaFix fuel r
    else c :: commaFix fuel r

def fixLoop : Nat → List Char → List Char
  | 0, s => s
  | fuel + 1, s =>
    let s2 := commaFix s.length s
    if s2 = s then s else fixLoop fuel s2

/-- `sanitize_json_like_text` (source lines 678–684): strip, remove
leading BOMs, then delete trailing commas until a fixed point. -/
def sanitize_json_like_text (text : List Char) : List Char :=
  let cleaned := (pyStrip text).dropWhile (fun c => c = '﻿')
  fixLoop (cleaned.length + 1) cleaned

/-- First occurrence split: `(before, after-pattern)`. -/
def splitFirst (pat : List Char) : List Char → Option (List Char × List Char)
  | [] => if pat = [] then some ([], []) else none
  | c :: tl =>
    if boolPre pat (c :: tl) then some ([], (c :: tl).drop pat.length)
    else (splitFirst pat tl).map (fun p => (c :: p.1, p.2))

/-- ASCII lowercase for the `re.IGNORECASE` fence prefix. -/
def lowerEq (a b : Char) : Bool :=
  a = b || (a.toNat + 32 = b.toNat ∧ 'A' ≤ a ∧ a ≤ 'Z')

def jsonPreCI (s : List Char) : Bool :=
  match s with
  | j :: s2 :: o :: n :: _ =>
    lowerEq j 'j' && lowerEq s2 's' && lowerEq o 'o' && lowerEq n 'n'
  | _ => false

/-- `re.findall(r"```(?:json)?\s*([\s\S]*?)```", text, re.IGNORECASE)`
(source line 733): non-overlapping matches left to right, lazy body. -/
def findFencesF : Nat → List Char → List (List Char)
  | 0, _ => []
  | _ + 1, [] => []
  | fuel + 1, c :: tl =>
    if boolPre "```".toList (c :: tl) then
      let r := (c :: tl).drop 3
      let r2 := if jsonPreCI r then r.drop 4 else r
      let r3 := r2.dropWhile isReWs
      match splitFirst "```".toList r3 with
      | some (content, after) => content :: findFencesF fuel after
      | none => findFencesF fuel tl
    else findFencesF fuel tl

def findFences (text : List Char) : List (List Char) :=
  findFencesF text.length text

/-- The body of `r'"((?:[^"\\]|\\.)*)"'` after its opening quote. -/
def quotedBody : List Char → Option (List Char × List Char)
  | [] => none
  | c :: r =>
    if c = '"' then some ([], r)
    else if c = '\\' then
      match r with
      | [] => none
      | e :: r2 => (quotedBody r2).map (fun p => ('\\' :: e :: p.1, p.2))
    else (quotedBody r).map (fun p => (c :: p.1, p.2))

/-- `re.findall(r'"((?:[^"\\]|\\.)*)"', segment)` (source line 700). -/
def findQuoted : Nat → List Char → List (List Char)
  | 0, _ => []
  | _ + 1, [] => []
  | fuel + 1, c :: r =>
    if c = '"' then
      match quotedBody r with
      | some (content, rest) => content :: findQuoted fuel rest
      | none => findQuoted fuel r
    else findQuoted fuel r

/-- `decode_json_string_fragment` (source lines 687–691). -/
def decode_json_string_fragment (fragment : List Char) : List Char :=
  match jsonLoads ('"' :: (fragment ++ ['"'])) with
  | some (.str s) => s
  | _ =>
    listReplace (listReplace fragment ['\\', '"'] ['"']) ['\\', '\\'] ['\\']

/-- Lazy group of `r'\[\s*"([\s\S]+?)\]\s*$'` after the quote: the
shortest nonempty prefix followed by `]` and then only whitespace. -/
def lazyGroup1 : List Char → Option (List Char)
  | [] => none
  | c :: r =>
    if (match r with
        | ']' :: w => w.all isReWs
        | _ => false) then some [c]
    else (lazyGroup1 r).map (fun g => c :: g)

/-- `re.search(r'\[\s*"([\s\S]+?)\]\s*$', segment)` (source line 705). -/
def searchBroken1 : List Char → Option (List Char)
  | [] => none
  | c :: r =>
    if c = '[' then
      match r.dropWhile isReWs with
      | '"' :: r2 =>
        (match lazyGroup1 r2 with
         | some g => some g
         | none => searchBroken1 r)
      | _ => searchBroken1 r
    else searchBroken1 r

/-- `re.search(r'\[\s*"([\s\S]+)$', segment)` (source line 712). -/
def searchBroken2 : List Char → Option (List Char)
  | [] => none
  | c :: r =>
    if c = '[' then
      match r.dropWhile isReWs with
      | '"' :: (c2 :: r2) => some (c2 :: r2)
      | _ => searchBroken2 r
    else searchBroken2 r

/-- `.rstrip('",')`. -/
def rstripQC (s : List Char) : List Char :=
  (s.reverse.dropWhile (fun c => c = '"' || c = ',')).reverse

/-- `candidate[start:end+1]` for `start = find("[")`, `end = rfind("]")`
when `start != -1 and end > start`, else the whole text
(source lines 697–701). -/
def segmentOf (candidate : List Char) : List Char :=
  match candidate.findIdx? (fun c => c = '['),
      candidate.reverse.findIdx? (fun c => c = ']') with
  | some st, some rj =>
    let en := candidate.length - 1 - rj
    if st < en then (candidate.drop st).take (en + 1 - st) else candidate
  | _, _ => candidate

def relaxedB2 (segment : List Char) : Option (List (List Char)) :=
  match searchBroken2 segment with
  | some g =>
    let value := rstripQC (pyStrip g)
    if !value.isEmpty then some [value] else none
  | none => none

/-- `extract_relaxed_string_array` (source lines 694–716). -/
def extract_relaxed_string_array (text : List Char) :
    Option (List (List Char)) :=
  let segment := segmentOf (sanitize_json_like_text text)
  let quoted := findQuoted segment.length segment
  if !quoted.isEmpty then some (quoted.map decode_json_string_fragment)
  else
    match searchBroken1 segment with
    | some g =>
      let value := rstripQC (pyStrip g)
      if !value.isEmpty then some [value] else relaxedB2 segment
    | none => relaxedB2 segment

/-- The `raw_decode` scan over every `[`/`{` position (source lines
757–766). -/
def scanPositions : List Char → Option (List (List Char))
  | [] => none
  | c :: r =>
    if c = '[' ∨ c = '{' then
      match rawDecode (c :: r) with
      | some (v, _) =>
        (match extract_string_array v with
         | some arr => some arr
         | none => scanPositions r)
      | none => scanPositions r
    else scanPositions r

/-- One `parse_input`: `json.loads` plus direct extraction, then the
bracket scan (source lines 748–766). -/
def tryParseInput (p : List Char) : Option (List (List Char)) :=
  match jsonLoads p with
  | some v =>
    (match extract_string_array v with
     | some arr => some arr
     | none => scanPositions p)
  | none => scanPositions p

def tryInputs : List (List Char) → Option (List (List Char))
  | [] => none
  | p :: rest =>
    match tryParseInput p with
    | some arr => some arr
    | none => tryInputs rest

/-- `parse_inputs` of one candidate (source lines 742–746). -/
def parseInputsOf (candidate : List Char) : List (List Char) :=
  let s := sanitize_json_like_text candidate
  if s = candidate then [candidate] else [candidate, s]

/-- The candidate list: the stripped text, then each stripped nonempty
fenced block (source lines 731–739). -/
def candidatesOf (t : List Char) : List (List Char) :=
  t :: (findFences t).filterMap (fun b =>
    let b2 := pyStrip b
    if b2.isEmpty then none else some b2)

/-- `extract_first_json_array` (source lines 726–769), failure modelled
as `Except.error` with the raised message. -/
def extract_first_json_array (text : List Char) :
    Except (List Char) (List (List Char)) :=
  let t := pyStrip text
  if t.isEmpty then .error "Model response is empty.".toList
  else
    match tryInputs ((candidatesOf t).flatMap parseInputsOf) with
    | some arr => .ok arr
    | none =>
      match extract_relaxed_string_array t with
      | some arr => .ok arr
      | none =>
        .error ("Model response is not a valid JSON string array: ".toList
          ++ t.take 500)

/-- Characters that need no JSON escaping and steer no extraction
heuristic: printable, not `"`, `\`, a bracket, a brace, or a backtick. -/
def safeChar (c : Char) : Bool :=
  0x20 ≤ c.toNat &&
    !(c = '"' || c = '\\' || c = '[' || c = ']' || c = '{' || c = '}' ||
      c = '`' || c = '﻿')

def safeList (xs : List (List Char)) : Bool :=
  xs.all (fun x => x.all safeChar)

/-- `json.dumps` of a list of such strings (default separators). -/
def jquote (x : List Char) : List Char := '"' :: (x ++ ['"'])

def jdumpSep : List (List Char) → List Char
  | [] => []
  | [x] => jquote x
  | x :: rest => jquote x ++ ',' :: ' ' :: jdumpSep rest

def jdump (xs : List (List Char)) : List Char := '[' :: (jdumpSep xs ++ [']'])

theorem safeChar_facts {c : Char} (h : safeChar c = true) :
    c ≠ '"' ∧ c ≠ '\\' ∧ ¬ c.toNat < 0x20 ∧ c ≠ '[' ∧ c ≠ ']' ∧
    c ≠ '{' ∧ c ≠ '}' ∧ c ≠ '`' ∧ c ≠ '﻿' := by
  simp only [safeChar, Bool.and_eq_true, Bool.not_eq_true', Bool.or_eq_false_iff,
    decide_eq_false_iff_not, decide_eq_true_eq] at h
  obtain ⟨h1, h2⟩ := h
  refine ⟨?_, ?_, by omega, ?_, ?_, ?_, ?_, ?_, ?_⟩ <;> tauto

theorem skipWs_nonws {c : Char} (r : List Char) (h : isJsonWs c = false) :
    skipWs (c :: r) = c :: r := by
  simp [skipWs, List.dropWhile_cons, h]

theorem parseStringBody_safe (x : List Char) (hx : ∀ c ∈ x, safeChar c = true) :
    ∀ (fuel : Nat) (rest : List Char), x.length < fuel →
      parseStringBody fuel (x ++ '"' :: rest) = some (x, rest) := by
  induction x with
  | nil =>
    intro fuel rest hf
    match fuel, hf with
    | f + 1, _ => simp [parseStringBody]
  | cons c tl ih =>
    intro fuel rest hf
    match fuel, hf with
    | f + 1, hf =>
      obtain ⟨hq, hb, hctl, -⟩ := safeChar_facts (hx c (List.mem_cons_self c tl))
      simp only [List.cons_append, parseStringBody, if_neg hq, if_neg hb,
        if_neg hctl, List.append_eq]
      rw [ih (fun z hz => hx z (List.mem_cons_of_mem c hz)) f rest
        (by simp only [List.length_cons] at hf; omega)]
      rfl

theorem parseValue_str (x : List Char) (hx : ∀ c ∈ x, safeChar c = true)
    (fuel : Nat) (rest : List Char) (hf : x.length + 2 ≤ fuel) :
    parseValue fuel ('"' :: (x ++ '"' :: rest)) = some (.str x, rest) := by
  match fuel, hf with
  | f + 1, hf =>
    rw [parseValue]
    rw [if_pos rfl]
    rw [parseStringBody_safe x hx (f + 1) rest (by omega)]
    rfl

theorem asStringList_map (xs : List (List Char)) :
    asStringList (xs.map .str) = some xs := by
  induction xs with
  | nil => rfl
  | cons x tl ih => simp [asStringList, ih]

theorem extract_arr (xs : List (List Char)) :
    extract_string_array (.arr (xs.map .str)) = some xs := by
  simp [extract_string_array, asStringList_map]

theorem safeList_mem {xs : List (List Char)} {x : List Char}
    (hs : safeList xs = true) (hx : x ∈ xs) : ∀ c ∈ x, safeChar c = true := by
  simp only [safeList, List.all_eq_true] at hs
  exact fun c hc => hs x hx c hc

theorem safeList_tail {x : List Char} {tl : List (List Char)}
    (hs : safeList (x :: tl) = true) : safeList tl = true := by
  simp only [safeList, List.all_cons, Bool.and_eq_true] at hs
  exact hs.2

theorem jdumpSep_head (y : List Char) (ys : List (List Char))
    (rest : List Char) :
    ∃ T2, jdumpSep (y :: ys) ++ rest = '"' :: T2 := by
  cases ys with
  | nil => exact ⟨y ++ '"' :: rest, by simp [jdumpSep, jquote]⟩
  | cons z zs =>
    exact ⟨y ++ '"' :: ',' :: ' ' :: (jdumpSep (z :: zs) ++ rest),
      by simp [jdumpSep, jquote]⟩

theorem parseElems_jdump (xs : List (List Char)) :
    xs ≠ [] → safeList xs = true →
    ∀ (fuel : Nat) (rest : List Char), (jdumpSep xs).length + 2 ≤ fuel →
      parseElems fuel (jdumpSep xs ++ ']' :: rest) =
        some (xs.map .str, rest) := by
  induction xs with
  | nil => intro h; exact absurd rfl h
  | cons x tl ih =>
    intro _ hs fuel rest hf
    cases tl with
    | nil =>
      match fuel, hf with
      | f + 1, hf =>
        have harr : jdumpSep [x] ++ ']' :: rest =
            '"' :: (x ++ '"' :: (']' :: rest)) := by
          simp [jdumpSep, jquote]
        have hpv := parseValue_str x (safeList_mem hs (List.mem_cons_self x []))
          f (']' :: rest) (by simp [jdumpSep, jquote] at hf; omega)
        rw [harr]
        simp only [parseElems, hpv, @skipWs_nonws ']' rest (by decide)]
        rfl
    | cons y ys =>
      match fuel, hf with
      | f + 1, hf =>
        have harr : jdumpSep (x :: y :: ys) ++ ']' :: rest =
            '"' :: (x ++ '"' :: (',' :: ' ' ::
              (jdumpSep (y :: ys) ++ ']' :: rest))) := by
          simp [jdumpSep, jquote]
        have hpv := parseValue_str x
          (safeList_mem hs (List.mem_cons_self x (y :: ys)))
          f (',' :: ' ' :: (jdumpSep (y :: ys) ++ ']' :: rest))
          (by simp [jdumpSep, jquote] at hf ⊢; omega)
        have hsk1 : skipWs (',' :: ' ' ::
            (jdumpSep (y :: ys) ++ ']' :: rest)) =
            ',' :: ' ' :: (jdumpSep (y :: ys) ++ ']' :: rest) :=
          skipWs_nonws _ (by decide)
        have hsk2 : skipWs (' ' :: (jdumpSep (y :: ys) ++ ']' :: rest)) =
            jdumpSep (y :: ys) ++ ']' :: rest := by
          obtain ⟨T2, hT⟩ := jdumpSep_head y ys (']' :: rest)
          rw [hT]
          simp [skipWs, List.dropWhile_cons, isJsonWs]
        have hrec := ih (by simp) (safeList_tail hs) f rest
          (by simp [jdumpSep, jquote] at hf ⊢; omega)
        rw [harr]
        simp only [parseElems, hpv, hsk1, hsk2, hrec]
        rfl

theorem parseValue_jdump (xs : List (List Char)) (hs : safeList xs = true) :
    ∀ (fuel : Nat) (rest : List Char), (jdump xs).length + 1 ≤ fuel →
      parseValue fuel (jdump xs ++ rest) =
        some (.arr (xs.map .str), rest) := by
  intro fuel rest hf
  match fuel, hf with
  | f + 1, hf =>
    have harr : jdump xs ++ rest = '[' :: (jdumpSep xs ++ ']' :: rest) := by
      simp [jdump]
    rw [harr, parseValue]
    rw [if_neg (by decide), if_neg (by decide), if_pos rfl]
    cases hxs : xs with
    | nil =>
      simp only [hxs, jdumpSep, List.nil_append]
      rw [@skipWs_nonws ']' rest (by decide)]
      simp [parseArrBody]
    | cons y ys =>
      obtain ⟨T2, hT⟩ := jdumpSep_head y ys (']' :: rest)
      rw [hT, @skipWs_nonws '"' T2 (by decide), ← hT]
      have hel := parseElems_jdump (y :: ys) (by simp) (by rw [← hxs]; exact hs)
        f rest (by subst hxs; simp [jdump] at hf ⊢; omega)
      rw [parseArrBody]
      · rw [hel]
        rfl
      all_goals
        intro r hr
        rw [hT] at hr
        exact absurd (List.cons.inj hr).1 (by decide)

theorem parseStringBody_safe_any (x : List Char)
    (hx : ∀ c ∈ x, safeChar c = true) :
    ∀ (fuel : Nat) (rest : List Char),
      parseStringBody fuel (x ++ '"' :: rest) = none ∨
      parseStringBody fuel (x ++ '"' :: rest) = some (x, rest) := by
  induction x with
  | nil =>
    intro fuel rest
    cases fuel with
    | zero => exact Or.inl (by rw [parseStringBody])
    | succ f => exact Or.inr (by simp [parseStringBody])
  | cons c tl ih =>
    intro fuel rest
    cases fuel with
    | zero => exact Or.inl (by rw [parseStringBody])
    | succ f =>
      obtain ⟨hq, hb, hctl, -⟩ := safeChar_facts (hx c (List.mem_cons_self c tl))
      rcases ih (fun z hz => hx z (List.mem_cons_of_mem c hz)) f rest with
        h0 | h0
      · refine Or.inl ?_
        simp only [List.cons_append, parseStringBody, if_neg hq, if_neg hb,
          if_neg hctl, List.append_eq, h0]
        rfl
      · refine Or.inr ?_
        simp only [List.cons_append, parseStringBody, if_neg hq, if_neg hb,
          if_neg hctl, List.append_eq, h0]
        rfl

theorem parseValue_str_any (x : List Char) (hx : ∀ c ∈ x, safeChar c = true)
    (fuel : Nat) (rest : List Char) :
    parseValue fuel ('"' :: (x ++ '"' :: rest)) = none ∨
    parseValue fuel ('"' :: (x ++ '"' :: rest)) = some (.str x, rest) := by
  cases fuel with
  | zero => exact Or.inl (by rw [parseValue])
  | succ f =>
    rcases parseStringBody_safe_any x hx (f + 1) rest with h0 | h0
    · refine Or.inl ?_
      rw [parseValue, if_pos rfl, h0]
      rfl
    · refine Or.inr ?_
      rw [parseValue, if_pos rfl, h0]
      rfl

theorem parseElems_trunc (xs : List (List Char)) :
    xs ≠ [] → safeList xs = true →
    ∀ (fuel : Nat), parseElems fuel (jdumpSep xs) = none := by
  induction xs with
  | nil => intro h; exact absurd rfl h
  | cons x tl ih =>
    intro _ hs fuel
    cases fuel with
    | zero => rw [parseElems]
    | succ f =>
      cases tl with
      | nil =>
        have harr : jdumpSep [x] = '"' :: (x ++ '"' :: []) := by
          simp [jdumpSep, jquote]
        rw [harr]
        rcases parseValue_str_any x
            (safeList_mem hs (List.mem_cons_self x [])) f [] with h0 | h0
        · simp only [parseElems, h0]
        · simp only [parseElems, h0, skipWs]
          rfl
      | cons y ys =>
        have harr : jdumpSep (x :: y :: ys) =
            '"' :: (x ++ '"' :: (',' :: ' ' :: jdumpSep (y :: ys))) := by
          simp [jdumpSep, jquote]
        rw [harr]
        rcases parseValue_str_any x
            (safeList_mem hs (List.mem_cons_self x (y :: ys))) f
            (',' :: ' ' :: jdumpSep (y :: ys)) with h0 | h0
        · simp only [parseElems, h0]
        · have hsk1 : skipWs (',' :: ' ' :: jdumpSep (y :: ys)) =
              ',' :: ' ' :: jdumpSep (y :: ys) :=
            skipWs_nonws _ (by decide)
          have hsk2 : skipWs (' ' :: jdumpSep (y :: ys)) =
              jdumpSep (y :: ys) := by
            obtain ⟨T2, hT⟩ := jdumpSep_head y ys []
            rw [List.append_nil] at hT
            rw [hT]
            simp [skipWs, List.dropWhile_cons, isJsonWs]
          have hrec := ih (by simp) (safeList_tail hs) f
          simp only [parseElems, h0, hsk1, hsk2, hrec]
          rfl

theorem rawDecode_jdump (xs : List (List Char)) (hs : safeList xs = true)
    (rest : List Char) :
    rawDecode (jdump xs ++ rest) = some (.arr (xs.map .str), rest) := by
  rw [rawDecode]
  exact parseValue_jdump xs hs _ rest (by simp [jdump])

theorem scanPositions_skip {c : Char} (h1 : c ≠ '[') (h2 : c ≠ '{')
    (r : List Char) : scanPositions (c :: r) = scanPositions r := by
  rw [scanPositions]
  rw [if_neg (by simp [h1, h2])]

theorem scanPositions_jdump (xs : List (List Char)) (hs : safeList xs = true)
    (rest : List Char) :
    scanPositions (jdump xs ++ rest) = some xs := by
  have harr : jdump xs ++ rest = '[' :: (jdumpSep xs ++ ']' :: rest) := by
    simp [jdump]
  rw [harr, scanPositions, if_pos (Or.inl rfl), ← harr,
    rawDecode_jdump xs hs rest]
  simp only [extract_arr xs]

theorem isJsonWs_of_pySpace {c : Char} (h : pySpace c = false) :
    isJsonWs c = false := by
  simp only [pySpace, Bool.or_eq_false_iff, decide_eq_false_iff_not] at h
  simp only [isJsonWs, Bool.or_eq_false_iff, decide_eq_false_iff_not]
  tauto

theorem jsonLoads_jdump_ws (xs : List (List Char)) (hs : safeList xs = true)
    (w : List Char) (hw : skipWs w = []) :
    jsonLoads (jdump xs ++ w) = some (.arr (xs.map .str)) := by
  rw [jsonLoads]
  have hskip : skipWs (jdump xs ++ w) = jdump xs ++ w := by
    have : jdump xs ++ w = '[' :: (jdumpSep xs ++ ']' :: w) := by simp [jdump]
    rw [this]
    exact @skipWs_nonws '[' _ (by decide)
  rw [hskip, parseValue_jdump xs hs _ w (by simp)]
  simp [hw]

theorem jsonLoads_jdump_rest (xs : List (List Char)) (hs : safeList xs = true)
    (w : List Char) (hw : skipWs w ≠ []) :
    jsonLoads (jdump xs ++ w) = none := by
  rw [jsonLoads]
  have hskip : skipWs (jdump xs ++ w) = jdump xs ++ w := by
    have : jdump xs ++ w = '[' :: (jdumpSep xs ++ ']' :: w) := by simp [jdump]
    rw [this]
    exact @skipWs_nonws '[' _ (by decide)
  rw [hskip, parseValue_jdump xs hs _ w (by simp)]
  simp [hw]

theorem tryParseInput_jdump (xs : List (List Char)) (hs : safeList xs = true)
    (w : List Char) : tryParseInput (jdump xs ++ w) = some xs := by
  rw [tryParseInput]
  by_cases hw : skipWs w = []
  · rw [jsonLoads_jdump_ws xs hs w hw]
    simp only [extract_arr xs]
  · rw [jsonLoads_jdump_rest xs hs w hw]
    exact scanPositions_jdump xs hs w

theorem parseInputsOf_head (t : List Char) :
    ∃ L, parseInputsOf t = t :: L := by
  rw [parseInputsOf]
  by_cases h : sanitize_json_like_text t = t
  · exact ⟨[], by rw [if_pos h]⟩
  · exact ⟨[sanitize_json_like_text t], by rw [if_neg h]⟩

theorem extract_ok_of_tryParseInput {text t : List Char}
    (ht : pyStrip text = t) (hne : t.isEmpty = false)
    {xs : List (List Char)} (h : tryParseInput t = some xs) :
    extract_first_json_array text = .ok xs := by
  rw [extract_first_json_array]
  rw [ht]
  rw [if_neg (by rw [hne]; simp)]
  obtain ⟨L, hL⟩ := parseInputsOf_head t
  have hflat : (candidatesOf t).flatMap parseInputsOf =
      t :: (L ++ ((findFences t).filterMap (fun b =>
        let b2 := pyStrip b
        if b2.isEmpty then none else some b2)).flatMap parseInputsOf) := by
    rw [candidatesOf, List.flatMap_cons, hL]
    rfl
  rw [hflat, tryInputs, h]

theorem pyStrip_cons_end {a b : Char} (mid : List Char)
    (ha : pySpace a = false) (hb : pySpace b = false) :
    pyStrip (a :: (mid ++ [b])) = a :: (mid ++ [b]) := by
  rw [pyStrip]
  rw [List.dropWhile_cons, if_neg (by simp [ha])]
  rw [show (a :: (mid ++ [b])).reverse = b :: (mid.reverse ++ [a]) by simp]
  rw [List.dropWhile_cons, if_neg (by simp [hb])]
  simp

theorem jdumpSep_last (xs : List (List Char)) (h : xs ≠ []) :
    ∃ mid, jdumpSep xs = mid ++ ['"'] := by
  induction xs with
  | nil => exact absurd rfl h
  | cons x tl ih =>
    cases tl with
    | nil => exact ⟨'"' :: x, by simp [jdumpSep, jquote]⟩
    | cons y ys =>
      obtain ⟨mid, hm⟩ := ih (by simp)
      exact ⟨jquote x ++ ',' :: ' ' :: mid, by simp [jdumpSep, hm]⟩

theorem jdumpSep_chars {xs : List (List Char)} (hs : safeList xs = true) :
    ∀ c ∈ jdumpSep xs, c = '"' ∨ c = ',' ∨ c = ' ' ∨ safeChar c = true := by
  induction xs with
  | nil => intro c hc; simp [jdumpSep] at hc
  | cons x tl ih =>
    intro c hc
    cases tl with
    | nil =>
      have hd : c = '"' ∨ c ∈ x := by
        simp only [jdumpSep, jquote, List.mem_cons, List.mem_append,
          List.mem_singleton] at hc
        tauto
      rcases hd with rfl | hx
      · exact Or.inl rfl
      · exact Or.inr (Or.inr (Or.inr
          (safeList_mem hs (List.mem_cons_self x []) c hx)))
    | cons y ys =>
      have hd : c = '"' ∨ c ∈ x ∨ c = ',' ∨ c = ' ' ∨
          c ∈ jdumpSep (y :: ys) := by
        simp only [jdumpSep, jquote, List.mem_cons, List.mem_append,
          List.mem_singleton] at hc
        tauto
      rcases hd with rfl | hx | rfl | rfl | hr
      · exact Or.inl rfl
      · exact Or.inr (Or.inr (Or.inr
          (safeList_mem hs (List.mem_cons_self x (y :: ys)) c hx)))
      · exact Or.inr (Or.inl rfl)
      · exact Or.inr (Or.inr (Or.inl rfl))
      · exact ih (safeList_tail hs) c hr

theorem commaFix_id : ∀ (fuel : Nat) (s : List Char),
    (∀ c ∈ s, c ≠ ']' ∧ c ≠ '}') → commaFix fuel s = s := by
  intro fuel
  induction fuel with
  | zero => intro s _; rw [commaFix]
  | succ f ih =>
    intro s h
    cases s with
    | nil => rw [commaFix]
    | cons c r =>
      rw [commaFix]
      by_cases hc : c = ','
      · rw [if_pos hc]
        cases hdrop : r.drop (r.takeWhile isReWs).length with
        | nil =>
          simp only [hdrop]
          rw [ih r (fun z hz => h z (List.mem_cons_of_mem _ hz)), hc]
        | cons b r2 =>
          have hbmem : b ∈ r := List.drop_subset _ r
            (by rw [hdrop]; exact List.mem_cons_self b r2)
          have hb := h b (List.mem_cons_of_mem _ hbmem)
          simp only [hdrop]
          rw [if_neg (by tauto)]
          rw [ih r (fun z hz => h z (List.mem_cons_of_mem _ hz)), hc]
      · rw [if_neg hc]
        rw [ih r (fun z hz => h z (List.mem_cons_of_mem _ hz))]

theorem fixLoop_id (s : List Char) (h : commaFix s.length s = s) :
    ∀ fuel, fixLoop fuel s = s := by
  intro fuel
  cases fuel with
  | zero => rw [fixLoop]
  | succ f => simp [fixLoop, h]

theorem dropWhile_false {p : Char → Bool} {s : List Char}
    (h : ∀ c ∈ s, p c = false) : s.dropWhile p = s := by
  cases s with
  | nil => rfl
  | cons c r =>
    rw [List.dropWhile_cons, if_neg (by rw [h c (List.mem_cons_self c r)]; simp)]

theorem sanitize_eq_self {t : List Char} (hstrip : pyStrip t = t)
    (hbom : ∀ c ∈ t, c ≠ '﻿') (hnb : ∀ c ∈ t, c ≠ ']' ∧ c ≠ '}') :
    sanitize_json_like_text t = t := by
  rw [sanitize_json_like_text]
  rw [hstrip]
  rw [dropWhile_false (fun c hc => by
    rw [decide_eq_false (hbom c hc)])]
  exact fixLoop_id t (commaFix_id t.length t hnb) (t.length + 1)

theorem findFencesF_nil {t : List Char} (h : ∀ c ∈ t, c ≠ '`') :
    ∀ fuel, findFencesF fuel t = [] := by
  induction t with
  | nil => intro fuel; cases fuel <;> rw [findFencesF]
  | cons c r ih =>
    intro fuel
    cases fuel with
    | zero => rw [findFencesF]
    | succ f =>
      rw [findFencesF]
      rw [show boolPre "```".toList (c :: r) = false from
        boolPre_cons_false _ _ (fun he => h c (List.mem_cons_self c r) he.symm)]
      simp only [Bool.false_eq_true, if_false]
      exact ih (fun z hz => h z (List.mem_cons_of_mem c hz)) f

theorem scanPositions_none {t : List Char}
    (h : ∀ c ∈ t, c ≠ '[' ∧ c ≠ '{') : scanPositions t = none := by
  induction t with
  | nil => rfl
  | cons c r ih =>
    obtain ⟨h1, h2⟩ := h c (List.mem_cons_self c r)
    rw [scanPositions_skip h1 h2]
    exact ih (fun z hz => h z (List.mem_cons_of_mem c hz))

theorem findQuoted_none {t : List Char} (h : ∀ c ∈ t, c ≠ '"') :
    ∀ fuel, findQuoted fuel t = [] := by
  induction t with
  | nil => intro fuel; cases fuel <;> rw [findQuoted]
  | cons c r ih =>
    intro fuel
    cases fuel with
    | zero => rw [findQuoted]
    | succ f =>
      have hc := h c (List.mem_cons_self c r)
      rw [findQuoted, if_neg hc]
      exact ih (fun z hz => h z (List.mem_cons_of_mem c hz)) f

theorem searchBroken1_none {t : List Char} (h : ∀ c ∈ t, c ≠ '[') :
    searchBroken1 t = none := by
  induction t with
  | nil => rfl
  | cons c r ih =>
    rw [searchBroken1, if_neg (h c (List.mem_cons_self c r))]
    exact ih (fun z hz => h z (List.mem_cons_of_mem c hz))

theorem searchBroken2_none {t : List Char} (h : ∀ c ∈ t, c ≠ '[') :
    searchBroken2 t = none := by
  induction t with
  | nil => rfl
  | cons c r ih =>
    rw [searchBroken2, if_neg (h c (List.mem_cons_self c r))]
    exact ih (fun z hz => h z (List.mem_cons_of_mem c hz))

theorem findIdx_none {p : Char → Bool} {s : List Char}
    (h : ∀ c ∈ s, p c = false) : ∀ i, List.findIdx? p s i = none := by
  induction s with
  | nil => intro i; rfl
  | cons c r ih =>
    intro i
    rw [List.findIdx?_cons,
      if_neg (by rw [h c (List.mem_cons_self c r)]; simp)]
    exact ih (fun z hz => h z (List.mem_cons_of_mem c hz)) (i + 1)

theorem dropWhile_head_false {p : Char → Bool} {l : List Char} {c : Char}
    {r : List Char} (h : l.dropWhile p = c :: r) : p c = false := by
  induction l with
  | nil => simp at h
  | cons a tl ih =>
    rw [List.dropWhile_cons] at h
    by_cases hp : p a = true
    · rw [if_pos hp] at h
      exact ih h
    · rw [if_neg hp] at h
      obtain ⟨h1, -⟩ := List.cons.inj h
      rw [← h1]
      exact Bool.not_eq_true _ |>.mp hp

theorem dropWhile_dropWhile {p : Char → Bool} (l : List Char) :
    (l.dropWhile p).dropWhile p = l.dropWhile p := by
  cases h : l.dropWhile p with
  | nil => rfl
  | cons c r =>
    rw [List.dropWhile_cons, if_neg (by rw [dropWhile_head_false h]; simp)]

theorem mem_pyStrip {c : Char} {s : List Char} (h : c ∈ pyStrip s) :
    c ∈ s := by
  rw [pyStrip] at h
  rw [List.mem_reverse] at h
  have hsub1 : List.Sublist
      (((s.dropWhile pySpace).reverse).dropWhile pySpace)
      ((s.dropWhile pySpace).reverse) := List.dropWhile_sublist _
  have h2 := hsub1.subset h
  rw [List.mem_reverse] at h2
  have hsub2 : List.Sublist (s.dropWhile pySpace) s :=
    List.dropWhile_sublist _
  exact hsub2.subset h2

theorem pyStrip_dropWhile (s : List Char) :
    (pyStrip s).dropWhile pySpace = pyStrip s := by
  cases hB : pyStrip s with
  | nil => rfl
  | cons c r =>
    have hBpre : pyStrip s <+: s.dropWhile pySpace := by
      rw [pyStrip]
      have hsuf : ((s.dropWhile pySpace).reverse).dropWhile pySpace <:+
          (s.dropWhile pySpace).reverse := List.dropWhile_suffix _
      have h2 := List.reverse_prefix.mpr hsuf
      rw [List.reverse_reverse] at h2
      exact h2
    obtain ⟨ext, hext⟩ := hBpre
    rw [hB] at hext
    have hc : pySpace c = false := dropWhile_head_false hext.symm
    rw [List.dropWhile_cons, if_neg (by rw [hc]; simp)]

theorem pyStrip_idem (s : List Char) : pyStrip (pyStrip s) = pyStrip s := by
  rw [pyStrip, pyStrip_dropWhile]
  have hrev : (pyStrip s).reverse.dropWhile pySpace = (pyStrip s).reverse := by
    rw [pyStrip]
    simp only [List.reverse_reverse]
    exact dropWhile_dropWhile _
  rw [hrev, List.reverse_reverse]

theorem pySpace_of_isJsonWs {c : Char} (h : isJsonWs c = true) :
    pySpace c = true := by
  simp only [isJsonWs, Bool.or_eq_true, decide_eq_true_eq] at h
  simp only [pySpace, Bool.or_eq_true, decide_eq_true_eq]
  tauto

theorem pyStrip_head_false {s : List Char} {c : Char} {r : List Char}
    (hB : pyStrip s = c :: r) : pySpace c = false := by
  have h1 := pyStrip_dropWhile s
  rw [hB, List.dropWhile_cons] at h1
  by_cases hp : pySpace c = true
  · rw [if_pos hp] at h1
    have hsub : List.Sublist (r.dropWhile pySpace) r :=
      List.dropWhile_sublist _
    have hle := hsub.length_le
    have hlen := congrArg List.length h1
    simp at hlen
    omega
  · exact Bool.not_eq_true _ |>.mp hp

theorem skipWs_pyStrip (s : List Char) : skipWs (pyStrip s) = pyStrip s := by
  cases hB : pyStrip s with
  | nil => rfl
  | cons c r =>
    have hc : pySpace c = false := pyStrip_head_false hB
    have hj : isJsonWs c = false := by
      by_contra hne
      have h0 : isJsonWs c = true := by
        revert hne
        cases isJsonWs c <;> simp
      rw [pySpace_of_isJsonWs h0] at hc
      exact absurd hc (by simp)
    rw [skipWs, List.dropWhile_cons, if_neg (by rw [hj]; simp)]

theorem parseValue_scalar {c : Char} {r : List Char} {fuel : Nat}
    {v : JVal} {rest : List Char}
    (h1 : c ≠ '"') (h2 : c ≠ '{') (h3 : c ≠ '[')
    (h : parseValue fuel (c :: r) = some (v, rest)) :
    extract_string_array v = none := by
  match fuel with
  | 0 => rw [parseValue] at h; exact absurd h (by simp)
  | f + 1 =>
    rw [parseValue, if_neg h1, if_neg h2, if_neg h3] at h
    repeat' split at h
    all_goals
      first
      | exact Option.noConfusion h
      | (obtain ⟨hv, -⟩ := Prod.mk.inj (Option.some.inj h); rw [← hv]; rfl)

theorem quotedBody_safe (x : List Char) (hx : ∀ c ∈ x, safeChar c = true) :
    ∀ r, quotedBody (x ++ '"' :: r) = some (x, r) := by
  induction x with
  | nil =>
    intro r
    conv_lhs => rw [List.nil_append, quotedBody.eq_def]
    dsimp only []
    rw [if_pos rfl]
  | cons c tl ih =>
    intro r
    obtain ⟨hq, hb, -⟩ := safeChar_facts (hx c (List.mem_cons_self c tl))
    conv_lhs => rw [List.cons_append, quotedBody.eq_def]
    dsimp only []
    rw [if_neg hq, if_neg hb,
      ih (fun z hz => hx z (List.mem_cons_of_mem c hz)) r]
    rfl

theorem findQuoted_nil_any : ∀ fuel, findQuoted fuel [] = [] := by
  intro fuel
  cases fuel <;> rw [findQuoted]

theorem findQuoted_jdumpSep (xs : List (List Char)) :
    xs ≠ [] → safeList xs = true →
    ∀ fuel, (jdumpSep xs).length ≤ fuel →
      findQuoted fuel (jdumpSep xs) = xs := by
  induction xs with
  | nil => intro h; exact absurd rfl h
  | cons x tl ih =>
    intro _ hs fuel hf
    cases tl with
    | nil =>
      have harr : jdumpSep [x] = '"' :: (x ++ '"' :: []) := by
        simp [jdumpSep, jquote]
      match fuel, (by rw [harr] at hf; simp at hf; omega : 1 ≤ fuel) with
      | f + 1, _ =>
        rw [harr, findQuoted, if_pos rfl]
        simp only [quotedBody_safe x
          (safeList_mem hs (List.mem_cons_self x [])) []]
        rw [findQuoted_nil_any f]
    | cons y ys =>
      have harr : jdumpSep (x :: y :: ys) =
          '"' :: (x ++ '"' :: (',' :: ' ' :: jdumpSep (y :: ys))) := by
        simp [jdumpSep, jquote]
      rw [harr] at hf
      simp only [List.length_cons, List.length_append] at hf
      match fuel, (by omega : 3 ≤ fuel) with
      | f + 3, _ =>
        rw [harr, findQuoted, if_pos rfl]
        simp only [quotedBody_safe x
          (safeList_mem hs (List.mem_cons_self x (y :: ys)))
          (',' :: ' ' :: jdumpSep (y :: ys))]
        have h1 : findQuoted (f + 2) (',' :: ' ' :: jdumpSep (y :: ys)) =
            findQuoted (f + 1) (' ' :: jdumpSep (y :: ys)) := by
          rw [findQuoted, if_neg (by decide)]
        have h2 : findQuoted (f + 1) (' ' :: jdumpSep (y :: ys)) =
            findQuoted f (jdumpSep (y :: ys)) := by
          rw [findQuoted, if_neg (by decide)]
        rw [h1, h2, ih (by simp) (safeList_tail hs) f (by omega)]

theorem decode_safe (x : List Char) (hx : ∀ c ∈ x, safeChar c = true) :
    decode_json_string_fragment x = x := by
  rw [decode_json_string_fragment]
  have hload : jsonLoads ('"' :: (x ++ ['"'])) = some (.str x) := by
    rw [jsonLoads]
    rw [@skipWs_nonws '"' _ (by decide)]
    have : ('"' :: (x ++ ['"'])).length + 1 = x.length + 3 := by simp
    rw [this]
    have hx2 : '"' :: (x ++ ['"']) = '"' :: (x ++ '"' :: []) := rfl
    rw [hx2, parseValue_str x hx (x.length + 3) [] (by omega)]
    rfl
  rw [hload]

theorem map_decode_safe (xs : List (List Char)) (hs : safeList xs = true) :
    xs.map decode_json_string_fragment = xs := by
  induction xs with
  | nil => rfl
  | cons x tl ih =>
    rw [List.map_cons,
      decode_safe x (safeList_mem hs (List.mem_cons_self x tl)),
      ih (safeList_tail hs)]

theorem parseValue_trunc (xs : List (List Char)) (hne : xs ≠ [])
    (hs : safeList xs = true) :
    ∀ fuel, parseValue fuel ('[' :: jdumpSep xs) = none := by
  intro fuel
  match fuel with
  | 0 => rw [parseValue]
  | f + 1 =>
    rw [parseValue, if_neg (by decide), if_neg (by decide), if_pos rfl]
    match xs, hne with
    | x :: tl, _ =>
      obtain ⟨T2, hT⟩ := jdumpSep_head x tl []
      rw [List.append_nil] at hT
      rw [hT, @skipWs_nonws '"' T2 (by decide), ← hT]
      rw [parseArrBody]
      · rw [parseElems_trunc (x :: tl) (by simp) hs f]
        rfl
      all_goals
        intro r hr
        rw [hT] at hr
        exact absurd (List.cons.inj hr).1 (by decide)

theorem jsonLoads_trunc (xs : List (List Char)) (hne : xs ≠ [])
    (hs : safeList xs = true) :
    jsonLoads ('[' :: jdumpSep xs) = none := by
  rw [jsonLoads, @skipWs_nonws '[' _ (by decide),
    parseValue_trunc xs hne hs]

theorem scanPositions_trunc (xs : List (List Char)) (hne : xs ≠ [])
    (hs : safeList xs = true) :
    scanPositions ('[' :: jdumpSep xs) = none := by
  rw [scanPositions, if_pos (Or.inl rfl), rawDecode,
    parseValue_trunc xs hne hs]
  exact scanPositions_none (fun c hc => by
    rcases jdumpSep_chars hs c hc with rfl | rfl | rfl | hsafe
    · exact ⟨by decide, by decide⟩
    · exact ⟨by decide, by decide⟩
    · exact ⟨by decide, by decide⟩
    · obtain ⟨-, -, -, h4, -, h6, -⟩ := safeChar_facts hsafe
      exact ⟨h4, h6⟩)

theorem hbody_nonbad {xs : List (List Char)} (hs : safeList xs = true)
    {c : Char} (hc : c ∈ jdumpSep xs) :
    c ≠ ']' ∧ c ≠ '}' ∧ c ≠ '`' ∧ c ≠ '[' ∧ c ≠ '{' ∧ c ≠ '﻿' := by
  rcases jdumpSep_chars hs c hc with rfl | rfl | rfl | hsafe
  · exact ⟨by decide, by decide, by decide, by decide, by decide, by decide⟩
  · exact ⟨by decide, by decide, by decide, by decide, by decide, by decide⟩
  · exact ⟨by decide, by decide, by decide, by decide, by decide, by decide⟩
  · obtain ⟨-, -, -, h4, h5, h6, h7, h8, h9⟩ := safeChar_facts hsafe
    exact ⟨h5, h7, h8, h4, h6, h9⟩

theorem pyStrip_trunc (xs : List (List Char)) (hne : xs ≠ []) :
    pyStrip ('[' :: jdumpSep xs) = '[' :: jdumpSep xs := by
  obtain ⟨mid, hm⟩ := jdumpSep_last xs hne
  rw [hm]
  exact pyStrip_cons_end mid (by decide) (by decide)

theorem sanitize_trunc (xs : List (List Char)) (hne : xs ≠ [])
    (hs : safeList xs = true) :
    sanitize_json_like_text ('[' :: jdumpSep xs) = '[' :: jdumpSep xs := by
  refine sanitize_eq_self (pyStrip_trunc xs hne) ?_ ?_
  · intro c hc
    rcases List.mem_cons.mp hc with rfl | hc2
    · decide
    · exact (hbody_nonbad hs hc2).2.2.2.2.2
  · intro c hc
    rcases List.mem_cons.mp hc with rfl | hc2
    · exact ⟨by decide, by decide⟩
    · exact ⟨(hbody_nonbad hs hc2).1, (hbody_nonbad hs hc2).2.1⟩

theorem segmentOf_trunc (xs : List (List Char)) (hs : safeList xs = true) :
    segmentOf ('[' :: jdumpSep xs) = '[' :: jdumpSep xs := by
  have h1 : List.findIdx? (fun c => c = '[')
      ('[' :: jdumpSep xs) 0 = some 0 := by
    rw [List.findIdx?_cons, if_pos (by decide)]
  have h2 : List.findIdx? (fun c => c = ']')
      (('[' :: jdumpSep xs).reverse) 0 = none := by
    refine findIdx_none ?_ 0
    intro c hc
    rw [List.mem_reverse] at hc
    rcases List.mem_cons.mp hc with rfl | hc2
    · decide
    · rw [decide_eq_false (hbody_nonbad hs hc2).1]
  rw [segmentOf, h1, h2]

theorem relaxed_trunc (xs : List (List Char)) (hne : xs ≠ [])
    (hs : safeList xs = true) :
    extract_relaxed_string_array ('[' :: jdumpSep xs) = some xs := by
  rw [extract_relaxed_string_array, sanitize_trunc xs hne hs,
    segmentOf_trunc xs hs]
  have hfq : findQuoted ('[' :: jdumpSep xs).length ('[' :: jdumpSep xs) =
      xs := by
    have hlen : ('[' :: jdumpSep xs).length = (jdumpSep xs).length + 1 := by
      simp
    rw [hlen, findQuoted, if_neg (by decide)]
    exact findQuoted_jdumpSep xs hne hs (jdumpSep xs).length le_rfl
  rw [hfq]
  rw [if_pos (by
    match xs, hne with
    | x :: tl, _ => simp)]
  rw [map_decode_safe xs hs]

theorem extract_trunc (xs : List (List Char)) (hne : xs ≠ [])
    (hs : safeList xs = true) :
    extract_first_json_array ('[' :: jdumpSep xs) = .ok xs := by
  have hfen : findFences ('[' :: jdumpSep xs) = [] := by
    rw [findFences]
    exact findFencesF_nil (fun c hc => by
      rcases List.mem_cons.mp hc with rfl | hc2
      · decide
      · exact (hbody_nonbad hs hc2).2.2.1) _
  have hcand : candidatesOf ('[' :: jdumpSep xs) = ['[' :: jdumpSep xs] := by
    rw [candidatesOf, hfen]
    rfl
  have hpin : parseInputsOf ('[' :: jdumpSep xs) = ['[' :: jdumpSep xs] := by
    rw [parseInputsOf]
    simp [sanitize_trunc xs hne hs]
  have htpi : tryParseInput ('[' :: jdumpSep xs) = none := by
    rw [tryParseInput, jsonLoads_trunc xs hne hs]
    exact scanPositions_trunc xs hne hs
  simp only [extract_first_json_array, pyStrip_trunc xs hne]
  rw [if_neg (by simp)]
  simp only [hcand, List.flatMap_cons, List.flatMap_nil, List.append_nil,
    hpin, tryInputs, htpi, relaxed_trunc xs hne hs]

theorem pyStrip_jdump_append (xs : List (List Char)) (prose : List Char) :
    pyStrip (jdump xs ++ prose) =
      jdump xs ++ (prose.reverse.dropWhile pySpace).reverse := by
  rw [pyStrip]
  have hfront : (jdump xs ++ prose).dropWhile pySpace =
      jdump xs ++ prose := by
    rw [show jdump xs ++ prose = '[' :: (jdumpSep xs ++ ']' :: prose) from
      by simp [jdump]]
    rw [List.dropWhile_cons, if_neg (by decide)]
  rw [hfront, List.reverse_append, List.dropWhile_append]
  by_cases hcase : ((prose.reverse).dropWhile pySpace).isEmpty = true
  · rw [if_pos hcase]
    rw [show (jdump xs).reverse = ']' :: ('[' :: jdumpSep xs).reverse from
      by simp [jdump]]
    rw [List.dropWhile_cons, if_neg (by decide)]
    rw [List.isEmpty_iff.mp hcase]
    simp [jdump]
  · rw [if_neg hcase]
    rw [List.reverse_append, List.reverse_reverse]

theorem extract_jdump_prose (xs : List (List Char)) (hs : safeList xs = true)
    (prose : List Char) :
    extract_first_json_array (jdump xs ++ prose) = .ok xs := by
  exact extract_ok_of_tryParseInput (pyStrip_jdump_append xs prose)
    (by simp [jdump])
    (tryParseInput_jdump xs hs ((prose.reverse.dropWhile pySpace).reverse))

theorem parseValue_backtick : ∀ (fuel : Nat) (r : List Char),
    parseValue fuel ('`' :: r) = none := by
  intro fuel r
  match fuel with
  | 0 => rw [parseValue]
  | f + 1 =>
    rw [parseValue, if_neg (by decide), if_neg (by decide),
      if_neg (by decide)]
    simp [boolPre, parseNumber, isDigit]

theorem extract_fenced (xs : List (List Char)) (hs : safeList xs = true) :
    extract_first_json_array
      ("```json\n".toList ++ (jdump xs ++ "\n```".toList)) = .ok xs := by
  have hshape : "```json\n".toList ++ (jdump xs ++ "\n```".toList) =
      '`' :: (("``json\n".toList ++ (jdump xs ++ "\n``".toList)) ++ ['`']) := by
    simp
  have ht : pyStrip ("```json\n".toList ++ (jdump xs ++ "\n```".toList)) =
      "```json\n".toList ++ (jdump xs ++ "\n```".toList) := by
    rw [hshape]
    exact pyStrip_cons_end _ (by decide) (by decide)
  refine extract_ok_of_tryParseInput ht (by simp) ?_
  rw [tryParseInput]
  have hcons : "```json\n".toList ++ (jdump xs ++ "\n```".toList) =
      '`' :: ("``json\n".toList ++ (jdump xs ++ "\n```".toList)) := by simp
  have hload : jsonLoads ("```json\n".toList ++ (jdump xs ++ "\n```".toList)) =
      none := by
    rw [jsonLoads]
    rw [show skipWs ("```json\n".toList ++ (jdump xs ++ "\n```".toList)) =
        "```json\n".toList ++ (jdump xs ++ "\n```".toList) from by
      rw [hcons]
      exact @skipWs_nonws '`' _ (by decide)]
    conv_lhs => rw [hcons]
    rw [parseValue_backtick]
  rw [hload]
  rw [show "```json\n".toList ++ (jdump xs ++ "\n```".toList) =
    '`' :: '`' :: '`' :: 'j' :: 's' :: 'o' :: 'n' :: '\n' ::
      (jdump xs ++ "\n```".toList) from by simp]
  rw [scanPositions_skip (by decide) (by decide),
    scanPositions_skip (by decide) (by decide),
    scanPositions_skip (by decide) (by decide),
    scanPositions_skip (by decide) (by decide),
    scanPositions_skip (by decide) (by decide),
    scanPositions_skip (by decide) (by decide),
    scanPositions_skip (by decide) (by decide),
    scanPositions_skip (by decide) (by decide)]
  exact scanPositions_jdump xs hs _

theorem extract_strip_invariant (text : List Char) :
    extract_first_json_array (pyStrip text) =
      extract_first_json_array text := by
  simp only [extract_first_json_array, pyStrip_idem]

theorem extract_fail_stripped (t : List Char) (hself : pyStrip t = t)
    (hne : t ≠ [])
    (hch : ∀ c ∈ t, c ≠ '[' ∧ c ≠ '{' ∧ c ≠ '"' ∧ c ≠ '`' ∧ c ≠ ']' ∧
      c ≠ '}' ∧ c ≠ '﻿') :
    extract_first_json_array t =
      .error ("Model response is not a valid JSON string array: ".toList ++
        t.take 500) := by
  have hsan : sanitize_json_like_text t = t :=
    sanitize_eq_self hself (fun c hc => (hch c hc).2.2.2.2.2.2)
      (fun c hc => ⟨(hch c hc).2.2.2.2.1, (hch c hc).2.2.2.2.2.1⟩)
  have hfen : findFences t = [] := by
    rw [findFences]
    exact findFencesF_nil (fun c hc => (hch c hc).2.2.2.1) _
  have hskipT : skipWs t = t := by
    have := skipWs_pyStrip t
    rwa [hself] at this
  have htpi : tryParseInput t = none := by
    rw [tryParseInput]
    have hscan : scanPositions t = none :=
      scanPositions_none (fun c hc => ⟨(hch c hc).1, (hch c hc).2.1⟩)
    cases hl : jsonLoads t with
    | none => exact hscan
    | some v =>
      have hext : extract_string_array v = none := by
        rw [jsonLoads, hskipT] at hl
        match t, hne, hl, hch with
        | c :: r, _, hl, hch =>
          cases hpv : parseValue ((c :: r).length + 1) (c :: r) with
          | none => rw [hpv] at hl; exact absurd hl (by simp)
          | some p =>
            obtain ⟨v2, rest⟩ := p
            simp only [hpv] at hl
            by_cases hrest : skipWs rest = []
            · rw [if_pos hrest] at hl
              simp only [Option.some.injEq] at hl
              rw [← hl]
              have hcf := hch c (List.mem_cons_self c r)
              exact parseValue_scalar hcf.2.2.1 hcf.2.1 hcf.1 hpv
            · rw [if_neg hrest] at hl
              exact absurd hl (by simp)
      simp only [hext]
      exact hscan
  have hrelax : extract_relaxed_string_array t = none := by
    rw [extract_relaxed_string_array, hsan]
    have hseg : segmentOf t = t := by
      rw [segmentOf]
      rw [findIdx_none (fun c hc => decide_eq_false (hch c hc).1) 0]
    rw [hseg]
    rw [findQuoted_none (fun c hc => (hch c hc).2.2.1) t.length]
    rw [if_neg (by simp)]
    rw [searchBroken1_none (fun c hc => (hch c hc).1)]
    rw [relaxedB2]
    rw [searchBroken2_none (fun c hc => (hch c hc).1)]
  simp only [extract_first_json_array, hself]
  rw [if_neg (by simpa [List.isEmpty_iff] using hne)]
  simp only [candidatesOf, hfen, List.filterMap_nil, List.flatMap_cons,
    List.flatMap_nil, List.append_nil]
  obtain ⟨L, hL⟩ := parseInputsOf_head t
  have hpin : parseInputsOf t = [t] := by
    rw [parseInputsOf]
    simp [hsan]
  rw [hpin]
  simp only [tryInputs, htpi, hrelax]

/-- C6: parser robustness.  As claimed it fails for the empty list: the
truncated clean text of `[]` is `[`, on which every strategy fails and a
`RuntimeError` is raised instead of `[]` being returned.  Amended form
proved here, for lists of safe strings (printable characters that need
no JSON escaping and are none of `"`, `\`, `[`, `]`, `{`, `}`, a
backtick, or a BOM): (a) the clean JSON array text, (b) the array inside
a ```json fence, (c) the array followed by arbitrary trailing prose each
yield exactly the intended list, and (d) the truncated array missing its
closing bracket does too when the list is nonempty; finally, an input
whose characters include no `[`, `{`, `"`, backtick, `]`, `}` or BOM —
so no extraction strategy can apply — raises the parse-failure error,
never an empty list. -/
theorem extract_first_json_array_spec :
    (∀ xs : List (List Char), safeList xs = true →
      extract_first_json_array (jdump xs) = .ok xs) ∧
    (∀ xs : List (List Char), safeList xs = true →
      extract_first_json_array
        ("```json\n".toList ++ (jdump xs ++ "\n```".toList)) = .ok xs) ∧
    (∀ (xs : List (List Char)) (prose : List Char), safeList xs = true →
      extract_first_json_array (jdump xs ++ prose) = .ok xs) ∧
    (∀ xs : List (List Char), xs ≠ [] → safeList xs = true →
      extract_first_json_array ((jdump xs).dropLast) = .ok xs) ∧
    (∀ text : List Char, pyStrip text ≠ [] →
      (∀ c ∈ text, c ≠ '[' ∧ c ≠ '{' ∧ c ≠ '"' ∧ c ≠ '`' ∧ c ≠ ']' ∧
        c ≠ '}' ∧ c ≠ '﻿') →
      extract_first_json_array text =
        .error ("Model response is not a valid JSON string array: ".toList ++
          (pyStrip text).take 500)) := by
  refine ⟨?_, ?_, ?_, ?_, ?_⟩
  · intro xs hs
    have h0 := extract_jdump_prose xs hs []
    simpa using h0
  · exact fun xs hs => extract_fenced xs hs
  · exact fun xs prose hs => extract_jdump_prose xs hs prose
  · intro xs hne hs
    have hdl : (jdump xs).dropLast = '[' :: jdumpSep xs := by
      rw [jdump]
      rw [show '[' :: (jdumpSep xs ++ [']']) =
        ('[' :: jdumpSep xs) ++ [']'] from rfl]
      rw [List.dropLast_concat]
    rw [hdl]
    exact extract_trunc xs hne hs
  · intro text hne hch
    rw [← extract_strip_invariant]
    exact extract_fail_stripped (pyStrip text) (pyStrip_idem text)
      hne (fun c hc => hch c (mem_pyStrip hc))

/-- The claim's clause (d) fails at the empty list: the truncated text of
`[]` is `[`, and `extract_first_json_array` raises instead of returning
`[]`. -/
theorem extract_first_json_array_claim_cex :
    (jdump []).dropLast = ['['] ∧
    extract_first_json_array ((jdump []).dropLast) =
      .error ("Model response is not a valid JSON string array: ".toList ++
        ['[']) := by
  constructor
  · rfl
  · have hpv : parseValue 2 ['['] = none := by
      rw [parseValue, if_neg (by decide), if_neg (by decide), if_pos rfl]
      rw [show skipWs ([] : List Char) = [] from rfl]
      rw [parseArrBody]
      · rw [parseElems]
        rw [parseValue]
        rfl
      all_goals
        intro r hr
        exact absurd hr (by simp)
    have hload : jsonLoads ['['] = none := by
      rw [jsonLoads]
      rw [show skipWs ['['] = ['['] from rfl]
      rw [show (['['] : List Char).length + 1 = 2 from rfl]
      rw [hpv]
    have hscan : scanPositions ['['] = none := by
      rw [scanPositions, if_pos (Or.inl rfl)]
      rw [show rawDecode ['['] = parseValue 2 ['['] from rfl]
      rw [hpv]
      rfl
    have htpi : tryParseInput ['['] = none := by
      rw [tryParseInput, hload]
      exact hscan
    show extract_first_json_array ['['] = _
    simp only [extract_first_json_array]
    rw [show pyStrip ['['] = ['['] from rfl]
    rw [if_neg (by decide)]
    rw [show candidatesOf ['['] = [['[']] from rfl]
    rw [show ([['[']] : List (List Char)).flatMap parseInputsOf =
      [['[']] from rfl]
    simp only [tryInputs, htpi]
    rw [show extract_relaxed_string_array ['['] = none from rfl]
    rfl

theorem extract_first_json_array_spec_witness :
    safeList ["Hi".toList, "Yo!".toList] = true ∧
    extract_first_json_array (jdump ["Hi".toList, "Yo!".toList]) =
      .ok ["Hi".toList, "Yo!".toList] ∧
    extract_first_json_array ("```json\n".toList ++
        (jdump ["Hi".toList, "Yo!".toList] ++ "\n```".toList)) =
      .ok ["Hi".toList, "Yo!".toList] ∧
    extract_first_json_array (jdump ["Hi".toList, "Yo!".toList] ++
        " Done.".toList) = .ok ["Hi".toList, "Yo!".toList] ∧
    extract_first_json_array ((jdump ["Hi".toList, "Yo!".toList]).dropLast) =
      .ok ["Hi".toList, "Yo!".toList] ∧
    extract_first_json_array "no array here".toList =
      .error ("Model response is not a valid JSON string array: ".toList ++
        (pyStrip "no array here".toList).take 500) :=
  ⟨by decide,
    extract_first_json_array_spec.1 ["Hi".toList, "Yo!".toList] (by decide),
    extract_first_json_array_spec.2.1 ["Hi".toList, "Yo!".toList] (by decide),
    extract_first_json_array_spec.2.2.1 ["Hi".toList, "Yo!".toList]
      " Done.".toList (by decide),
    extract_first_json_array_spec.2.2.2.1 ["Hi".toList, "Yo!".toList]
      (by decide) (by decide),
    extract_first_json_array_spec.2.2.2.2 "no array here".toList
      (by decide) (by decide)⟩
